import Mathlib

/-!
# Verification of the sketches-go quantile-sketch core

This file gives a shallow embedding, in Lean 4, of the core algorithms of the
DataDog sketches-go repository (DDSketch index mappings, bucket-count stores,
the sketch aggregator, and the GKArray rank-error summary), together with
proofs and refutations of a fixed list of behavioural claims about that code.

Modelling conventions:
* `float64` values are modelled as rationals (`ℚ`) wherever the code only
  performs field arithmetic and comparisons on them; where the special IEEE
  values (NaN, ±Inf) are behaviourally relevant (`DDSketch.AddWithCount`),
  floats are modelled by the inductive type `GFloat` whose comparison operators
  follow IEEE semantics (every comparison involving NaN is false).
* The mathematical functions `math.Log`/`math.Exp` used by the logarithmic
  index mapping are modelled over the real numbers (`ℝ`).
* Go `int` is modelled as `ℤ` (no indexable input comes close to overflowing
  64-bit arithmetic within the hypotheses used here); `uint32` quantities of
  the GKArray are modelled as `ℕ` with explicit wrap-around (`% 2^32`) in the
  operations where Go performs modular arithmetic.
* Pointer-level notions (slice capacity, memory pools, allocation reuse) are
  not observable in any of the claims; they are modelled only through their
  effect on the logical content of the data structures.
-/

namespace SketchesGo

/-- Model of an IEEE-754 float64 as manipulated by `DDSketch.AddWithCount`:
a finite value (modelled as a rational), one of the two infinities, or NaN. -/
inductive GFloat where
  | fin (q : ℚ)
  | pinf
  | ninf
  | nan
  deriving DecidableEq, Repr

namespace GFloat

/-- Go's `<` on float64: any comparison involving NaN is false. -/
def flt : GFloat → GFloat → Bool
  | fin a, fin b => a < b
  | fin _, pinf => true
  | ninf, fin _ => true
  | ninf, pinf => true
  | _, _ => false

/-- Go's `>` on float64. -/
def fgt (a b : GFloat) : Bool := flt b a

/-- Float64 negation. -/
def fneg : GFloat → GFloat
  | fin q => fin (-q)
  | pinf => ninf
  | ninf => pinf
  | nan => nan

/-- Float64 addition, restricted to what `zeroCount += count` can produce. -/
def fadd : GFloat → GFloat → GFloat
  | fin a, fin b => fin (a + b)
  | fin _, pinf => pinf
  | fin _, ninf => ninf
  | pinf, fin _ => pinf
  | ninf, fin _ => ninf
  | pinf, pinf => pinf
  | ninf, ninf => ninf
  | pinf, ninf => nan
  | ninf, pinf => nan
  | nan, _ => nan
  | _, nan => nan

@[simp] theorem flt_fin_fin (a b : ℚ) : flt (fin a) (fin b) = decide (a < b) := rfl

@[simp] theorem flt_fin_pinf (a : ℚ) : flt (fin a) pinf = true := rfl

@[simp] theorem flt_fin_ninf (a : ℚ) : flt (fin a) ninf = false := rfl

@[simp] theorem flt_pinf (x : GFloat) : flt pinf x = false := by cases x <;> rfl

@[simp] theorem flt_ninf_fin (a : ℚ) : flt ninf (fin a) = true := rfl

@[simp] theorem flt_ninf_pinf : flt ninf pinf = true := rfl

@[simp] theorem flt_ninf_ninf : flt ninf ninf = false := rfl

@[simp] theorem flt_nan_left (x : GFloat) : flt nan x = false := by cases x <;> rfl

@[simp] theorem flt_nan_right (x : GFloat) : flt x nan = false := by cases x <;> rfl

end GFloat

/-! ## DDSketch.AddWithCount (ddsketch.go, two-store version)

The sketch routes a value to its positive store, its negative store or its
zero counter.  For the claims about `AddWithCount` only the sequence of
`store.AddWithCount(index, count)` calls matters, so the two stores are
modelled as the recorded lists of those calls.  The index mapping is an
interface value; `AddWithCount` only consults `MaxIndexableValue`,
`MinIndexableValue` and `Index`, so it is modelled by those three fields. -/

/-- The part of the `mapping.IndexMapping` interface consulted by
`DDSketch.AddWithCount`. -/
structure MappingModel where
  minIndexableValue : ℚ
  maxIndexableValue : ℚ
  index : GFloat → ℤ

/-- `DDSketch` state as observed by `AddWithCount`: the two stores are
modelled by the lists of `AddWithCount(index, count)` calls they received. -/
structure DDSketchF where
  mapping : MappingModel
  posAdds : List (ℤ × GFloat)
  negAdds : List (ℤ × GFloat)
  zeroCount : GFloat

/-- Shallow embedding of `DDSketch.AddWithCount` (ddsketch.go):

    if value < -s.MaxIndexableValue() || value > s.MaxIndexableValue() {
        return errors.New("The input value is outside the range ...")
    }
    if count < 0 { return errors.New("The count cannot be negative.") }
    if value > s.MinIndexableValue() {
        s.positiveValueStore.AddWithCount(s.Index(value), count)
    } else if value < -s.MinIndexableValue() {
        s.negativeValueStore.AddWithCount(s.Index(-value), count)
    } else { s.zeroCount += count }
    return nil

The Go method mutates the receiver only after both error checks, so returning
`Except.error` without a new state faithfully captures "error and receiver
unchanged". -/
def DDSketchF.addWithCount (s : DDSketchF) (value count : GFloat) :
    Except String DDSketchF :=
  if GFloat.flt value (GFloat.fin (-s.mapping.maxIndexableValue))
      || GFloat.fgt value (GFloat.fin s.mapping.maxIndexableValue) then
    .error "The input value is outside the range that is tracked by the sketch."
  else if GFloat.flt count (GFloat.fin 0) then
    .error "The count cannot be negative."
  else if GFloat.fgt value (GFloat.fin s.mapping.minIndexableValue) then
    .ok { s with posAdds := s.posAdds ++ [(s.mapping.index value, count)] }
  else if GFloat.flt value (GFloat.fin (-s.mapping.minIndexableValue)) then
    .ok { s with negAdds := s.negAdds ++ [(s.mapping.index (GFloat.fneg value), count)] }
  else
    .ok { s with zeroCount := s.zeroCount.fadd count }

/-- A concrete index-mapping model (the numeric parameters of the default
logarithmic mapping); used as input of concrete evaluations. -/
def mappingModel₀ : MappingModel :=
  { minIndexableValue := 1 / 10 ^ 9
    maxIndexableValue := 10 ^ 300
    index := fun _ => 0 }

/-- A fresh sketch over `mappingModel₀`. -/
def sketchF₀ : DDSketchF :=
  { mapping := mappingModel₀, posAdds := [], negAdds := [], zeroCount := GFloat.fin 0 }

/-- C3, counterexample: `AddWithCount(NaN, 1)` does NOT return an error.  Both
range comparisons on a NaN value are false, so NaN slips through the checks
and is counted into `zeroCount`: the call succeeds and the sketch changes. -/
theorem claim_C3_counterexample :
    sketchF₀.addWithCount .nan (.fin 1) =
      .ok { sketchF₀ with zeroCount := .fin 1 } := by
  simp [DDSketchF.addWithCount, GFloat.fgt, GFloat.fadd, sketchF₀]

/-- C3 (amended): `AddWithCount(v, c)` errors out, leaving the sketch
unchanged, whenever `v` is `±∞`, `v` is finite with `|v| >
MaxIndexableValue`, or (`v` passing the range check) `c < 0`.  A NaN value is
not rejected: with `c ≥ 0` it is counted into `zeroCount`.  Values passing
the checks are routed to the positive store, the negative store, or
`zeroCount` according to their position relative to `±MinIndexableValue`. -/
theorem claim_C3_addWithCount_error_handling (s : DDSketchF) (v c : GFloat)
    (hmin0 : 0 ≤ s.mapping.minIndexableValue) :
    (((v = .pinf ∨ v = .ninf) ∨
        ∃ q, v = .fin q ∧ (q < -s.mapping.maxIndexableValue ∨ s.mapping.maxIndexableValue < q)) →
      ∃ e, s.addWithCount v c = .error e)
  ∧ ((v = .nan ∨ ∃ q, v = .fin q ∧
        -s.mapping.maxIndexableValue ≤ q ∧ q ≤ s.mapping.maxIndexableValue) →
      GFloat.flt c (.fin 0) = true → ∃ e, s.addWithCount v c = .error e)
  ∧ (GFloat.flt c (.fin 0) = false →
      s.addWithCount .nan c = .ok { s with zeroCount := s.zeroCount.fadd c })
  ∧ (∀ q, v = .fin q → -s.mapping.maxIndexableValue ≤ q → q ≤ s.mapping.maxIndexableValue →
      GFloat.flt c (.fin 0) = false →
      ((s.mapping.minIndexableValue < q →
          s.addWithCount v c =
            .ok { s with posAdds := s.posAdds ++ [(s.mapping.index v, c)] })
      ∧ (q < -s.mapping.minIndexableValue →
          s.addWithCount v c =
            .ok { s with negAdds := s.negAdds ++ [(s.mapping.index (.fin (-q)), c)] })
      ∧ (-s.mapping.minIndexableValue ≤ q → q ≤ s.mapping.minIndexableValue →
          s.addWithCount v c = .ok { s with zeroCount := s.zeroCount.fadd c }))) := by
  refine ⟨?_, ?_, ?_, ?_⟩
  · rintro (⟨rfl | rfl⟩ | ⟨q, rfl, hq | hq⟩) <;>
      exact ⟨"The input value is outside the range that is tracked by the sketch.",
        by simp [DDSketchF.addWithCount, GFloat.fgt, *]⟩
  · rintro (rfl | ⟨q, rfl, h₁, h₂⟩) hc
    · exact ⟨"The count cannot be negative.", by simp [DDSketchF.addWithCount, GFloat.fgt, hc]⟩
    · exact ⟨"The count cannot be negative.",
        by simp [DDSketchF.addWithCount, GFloat.fgt, hc, not_lt.mpr h₁, not_lt.mpr h₂]⟩
  · intro hc
    simp [DDSketchF.addWithCount, GFloat.fgt, hc]
  · rintro q rfl h₁ h₂ hc
    refine ⟨fun hmin => ?_, fun hmin => ?_, fun hmin₁ hmin₂ => ?_⟩
    · simp [DDSketchF.addWithCount, GFloat.fgt, hc, not_lt.mpr h₁, not_lt.mpr h₂, hmin]
    · have hnp : ¬ s.mapping.minIndexableValue < q := by
        intro h; exact absurd (lt_trans h hmin) (by linarith)
      simp [DDSketchF.addWithCount, GFloat.fgt, GFloat.fneg, hc,
        not_lt.mpr h₁, not_lt.mpr h₂, hnp, hmin]
    · simp [DDSketchF.addWithCount, GFloat.fgt, hc,
        not_lt.mpr h₁, not_lt.mpr h₂, not_lt.mpr hmin₁, not_lt.mpr hmin₂]

/-- Witness for C3: at `v = 1`, `c = 2` over the default mapping parameters,
the value is routed to the positive store. -/
theorem claim_C3_witness :
    sketchF₀.addWithCount (.fin 1) (.fin 2) =
      .ok { sketchF₀ with posAdds := [(0, .fin 2)] } := by
  have h := ((claim_C3_addWithCount_error_handling sketchF₀ (.fin 1) (.fin 2)
      (by norm_num [sketchF₀, mappingModel₀])).2.2.2
    1 rfl (by norm_num [sketchF₀, mappingModel₀]) (by norm_num [sketchF₀, mappingModel₀])
    (by decide)).1 (by norm_num [sketchF₀, mappingModel₀])
  simpa [sketchF₀, mappingModel₀] using h

/-! ## DenseStore (store/dense_store.go)

`DenseStore` keeps a contiguous slice of float64 counts together with the
index range `[minIndex, maxIndex]` it covers; slot `i - minIndex` of the
slice holds the count of index `i`.  Counts are modelled as rationals,
indexes as integers, the backing slice as a list. -/

/-- `growthBuffer = 128`: extra bins allocated on growth. -/
def growthBuffer : ℤ := 128

/-- The effect of `tmp := make([]float64, n); copy(tmp[off:], src)`:
a zero slice of length `n` with `src` written at offset `off`
(truncated if it does not fit). -/
def padCopyAt (n off : ℤ) (src : List ℚ) : List ℚ :=
  List.replicate (min off.toNat n.toNat) 0 ++ src.take (n.toNat - off.toNat) ++
    List.replicate (n.toNat - off.toNat - src.length) 0

/-- `l[i] += c` on a slice of counts. -/
def binInc (l : List ℚ) (i : ℕ) (c : ℚ) : List ℚ := l.set i (l.getD i 0 + c)

structure DenseStore where
  bins : List ℚ
  count : ℚ
  minIndex : ℤ
  maxIndex : ℤ

/-- The Go zero value `&DenseStore{}`, as produced by `NewDenseStore`. -/
def DenseStore.new : DenseStore := ⟨[], 0, 0, 0⟩

namespace DenseStore

/-- `DenseStore.growLeft` (dense_store.go). -/
def growLeft (s : DenseStore) (index : ℤ) : DenseStore :=
  if s.minIndex < index then s
  else
    let minIndex := index - growthBuffer
    { s with bins := padCopyAt (s.maxIndex - minIndex + 1) (s.minIndex - minIndex) s.bins
             minIndex := minIndex }

/-- `DenseStore.growRight` (dense_store.go). -/
def growRight (s : DenseStore) (index : ℤ) : DenseStore :=
  if s.maxIndex > index then s
  else
    let maxIndex := index + growthBuffer
    { s with bins := padCopyAt (maxIndex - s.minIndex + 1) 0 s.bins
             maxIndex := maxIndex }

/-- `DenseStore.addWithCount` (dense_store.go): on the first add, allocate
`growthBuffer` bins anchored so that `maxIndex = index`; then grow as needed
and bump the bin of `index`. -/
def addWithCount (s : DenseStore) (index : ℤ) (count : ℚ) : DenseStore :=
  let s :=
    if s.count = 0 then
      { s with bins := List.replicate growthBuffer.toNat 0
               maxIndex := index
               minIndex := index - growthBuffer + 1 }
    else s
  let s :=
    if index < s.minIndex then s.growLeft index
    else if s.maxIndex < index then s.growRight index
    else s
  { s with bins := binInc s.bins (index - s.minIndex).toNat count
           count := s.count + count }

/-- `DenseStore.Add`. -/
def add (s : DenseStore) (index : ℤ) : DenseStore := s.addWithCount index 1

def isEmpty (s : DenseStore) : Bool := s.count = 0

def totalCount (s : DenseStore) : ℚ := s.count

/-- The loop of `DenseStore.KeyAtRank`: accumulate counts from the low end of
the slice and stop at the first slot whose running sum exceeds `rank`. -/
def keyAtRankAux (rank : ℚ) : List ℚ → ℤ → ℚ → Option ℤ
  | [], _, _ => none
  | b :: bs, i, n =>
    let n' := n + b
    if rank < n' then some i else keyAtRankAux rank bs (i + 1) n'

/-- `DenseStore.KeyAtRank` (dense_store.go): scan the slice; if the rank is
never exceeded, return the `maxIndex` field. -/
def keyAtRank (s : DenseStore) (rank : ℚ) : ℤ :=
  (keyAtRankAux rank s.bins s.minIndex 0).getD s.maxIndex

/-- The loop of `DenseStore.MinIndex`: first slot with a positive count. -/
def minIndexAux : List ℚ → ℤ → Option ℤ
  | [], _ => none
  | b :: bs, i => if 0 < b then some i else minIndexAux bs (i + 1)

/-- `DenseStore.MinIndex` (dense_store.go). -/
def minIndexGo (s : DenseStore) : Except String ℤ :=
  if s.count = 0 then .error "MinIndex of empty store is undefined."
  else .ok ((minIndexAux s.bins s.minIndex).getD s.maxIndex)

/-- The loop of `DenseStore.MaxIndex`, scanning slots downward from position
`fuel - 1` (index `minIndex + fuel - 1`). -/
def maxIndexAux (bins : List ℚ) (minIndex : ℤ) : ℕ → Option ℤ
  | 0 => none
  | k + 1 => if 0 < bins.getD k 0 then some (minIndex + k) else maxIndexAux bins minIndex k

/-- `DenseStore.MaxIndex` (dense_store.go): scan from `maxIndex` down to
`minIndex`; if no positive bin is found, return the `minIndex` field. -/
def maxIndexGo (s : DenseStore) : Except String ℤ :=
  if s.count = 0 then .error "MaxIndex of empty store is undefined."
  else .ok ((maxIndexAux s.bins s.minIndex (s.maxIndex - s.minIndex + 1).toNat).getD s.minIndex)

/-- `DenseStore.copy`: a deep copy of the backing slice and the fields. -/
def copy (s : DenseStore) : DenseStore :=
  { bins := s.bins, count := s.count, minIndex := s.minIndex, maxIndex := s.maxIndex }

/-- Cumulative count of all indexes `≤ k`: the sum of the slice up to slot
`k - minIndex` (every index outside the slice has count zero). -/
def cumul (s : DenseStore) (k : ℤ) : ℚ := (s.bins.take (k - s.minIndex + 1).toNat).sum

theorem keyAtRankAux_isLeast (rank : ℚ) :
    ∀ (bins : List ℚ) (i : ℤ) (n : ℚ), (∀ b ∈ bins, 0 ≤ b) → n ≤ rank →
      rank < n + bins.sum →
      ∃ k, keyAtRankAux rank bins i n = some k ∧
        IsLeast {j : ℤ | rank < n + (bins.take (j - i + 1).toNat).sum} k
  | [], _, n, _, hn, hlt => absurd hlt (by simpa using not_lt.mpr hn)
  | b :: bs, i, n, hnn, hn, hlt => by
    by_cases h : rank < n + b
    · refine ⟨i, by simp [keyAtRankAux, h], ⟨by simpa using h, fun j hj => ?_⟩⟩
      by_contra hji
      push_neg at hji
      have : (j - i + 1).toNat = 0 := by omega
      simp only [Set.mem_setOf_eq, this, List.take_zero, List.sum_nil, add_zero] at hj
      exact absurd hj (not_lt.mpr hn)
    · have hnn' : ∀ x ∈ bs, 0 ≤ x := fun x hx => hnn x (List.mem_cons_of_mem _ hx)
      have hn' : n + b ≤ rank := le_of_not_lt h
      have hlt' : rank < (n + b) + bs.sum := by
        rw [add_assoc]; simpa [List.sum_cons] using hlt
      obtain ⟨k, heq, hmem, hlb⟩ := keyAtRankAux_isLeast rank bs (i + 1) (n + b) hnn' hn' hlt'
      have hki : i + 1 ≤ k := by
        by_contra hik
        push_neg at hik
        have : (k - (i + 1) + 1).toNat = 0 := by omega
        simp only [Set.mem_setOf_eq, this, List.take_zero, List.sum_nil, add_zero] at hmem
        exact absurd hmem (not_lt.mpr hn')
      have hshift : ∀ j : ℤ, i + 1 ≤ j →
          ((b :: bs).take (j - i + 1).toNat).sum = b + (bs.take (j - (i + 1) + 1).toNat).sum := by
        intro j hj
        have : (j - i + 1).toNat = (j - (i + 1) + 1).toNat + 1 := by omega
        rw [this, List.take_succ_cons, List.sum_cons]
      refine ⟨k, by simpa [keyAtRankAux, h] using heq, ⟨?_, fun j hj => ?_⟩⟩
      · show rank < n + ((b :: bs).take (k - i + 1).toNat).sum
        rw [hshift k hki, ← add_assoc]
        exact hmem
      · have hij : i + 1 ≤ j := by
          by_contra hik
          push_neg at hik
          rcases lt_or_le j i with hji | hji
          · have : (j - i + 1).toNat = 0 := by omega
            simp only [Set.mem_setOf_eq, this, List.take_zero, List.sum_nil, add_zero] at hj
            exact absurd hj (not_lt.mpr hn)
          · have hje : j = i := by omega
            have : (j - i + 1).toNat = 1 := by omega
            simp only [Set.mem_setOf_eq, this, List.take_succ_cons, List.take_zero,
              List.sum_cons, List.sum_nil, add_zero] at hj
            exact absurd hj h
        refine hlb ?_
        show rank < n + b + (bs.take (j - (i + 1) + 1).toNat).sum
        rw [add_assoc, ← hshift j hij]
        exact hj

/-- `KeyAtRank` on a dense store is, within the main rank range
`0 ≤ r < Σ bins`, the least index whose cumulative count exceeds `r`. -/
theorem keyAtRank_isLeast (s : DenseStore) (r : ℚ) (hnn : ∀ b ∈ s.bins, 0 ≤ b)
    (h0 : 0 ≤ r) (hr : r < s.bins.sum) :
    IsLeast {k : ℤ | r < s.cumul k} (s.keyAtRank r) := by
  obtain ⟨k, heq, hle⟩ :=
    keyAtRankAux_isLeast r s.bins s.minIndex 0 hnn h0 (by simpa using hr)
  have : s.keyAtRank r = k := by simp [keyAtRank, heq]
  rw [this]
  simpa [cumul] using hle

theorem keyAtRankAux_cons_pos {rank n b : ℚ} (bs : List ℚ) (i : ℤ) (h : rank < n + b) :
    keyAtRankAux rank (b :: bs) i n = some i := by
  simp [keyAtRankAux, h]

theorem keyAtRankAux_replicate_zero {rank n : ℚ} (h : ¬ rank < n) (l : List ℚ) :
    ∀ (m : ℕ) (i : ℤ),
      keyAtRankAux rank (List.replicate m 0 ++ l) i n = keyAtRankAux rank l (i + m) n
  | 0, i => by simp
  | m + 1, i => by
    rw [List.replicate_succ, List.cons_append]
    simp only [keyAtRankAux, add_zero, if_neg h]
    rw [keyAtRankAux_replicate_zero h l m (i + 1)]
    congr 1
    push_cast
    ring

end DenseStore

theorem set_replicate_last (a b : ℚ) :
    ∀ n : ℕ, (List.replicate (n + 1) a).set n b = List.replicate n a ++ [b]
  | 0 => rfl
  | n + 1 => by
    show a :: (List.replicate (n + 1) a).set n b = List.replicate (n + 1) a ++ [b]
    rw [set_replicate_last a b n]
    rfl

theorem getD_replicate (a d : ℚ) : ∀ (n i : ℕ), i < n → (List.replicate n a).getD i d = a
  | 0, _, h => absurd h (Nat.not_lt_zero _)
  | n + 1, 0, _ => rfl
  | n + 1, i + 1, h => by
    rw [List.replicate_succ]
    simpa using getD_replicate a d n i (Nat.lt_of_succ_lt_succ h)

/-- The state of a fresh `DenseStore` after `Add(5)`: the backing slice covers
indexes `-122..5`, with count 1 in the slot of index 5. -/
theorem denseStore_add5_eq :
    DenseStore.new.add 5 =
      { bins := List.replicate 127 0 ++ [1], count := 1,
        minIndex := -122, maxIndex := 5 } := by
  show DenseStore.new.addWithCount 5 1 = _
  simp only [DenseStore.addWithCount, DenseStore.new, binInc, growthBuffer]
  norm_num
  rw [show ((128 : ℤ).toNat) = 127 + 1 from rfl, show ((127 : ℤ).toNat) = 127 from rfl,
    set_replicate_last]

/-- C4, counterexample: after a single `Add(5)` on a fresh `DenseStore`, the
backing slice covers indexes `-122..5` and only the slot of index 5 is
occupied.  `KeyAtRank(-1)` is not "treated as 0": it returns `-122`, the
lowest allocated (and empty) slot, whereas `KeyAtRank(0)` returns `5`. -/
theorem claim_C4_counterexample :
    (DenseStore.new.add 5).keyAtRank (-1) = -122 ∧
      (DenseStore.new.add 5).keyAtRank 0 = 5 := by
  rw [denseStore_add5_eq]
  constructor
  · show (DenseStore.keyAtRankAux (-1) (List.replicate 127 0 ++ [1]) (-122) 0).getD 5 = -122
    rw [show (List.replicate 127 (0:ℚ) ++ [1]) = 0 :: (List.replicate 126 0 ++ [1]) from rfl]
    rw [DenseStore.keyAtRankAux_cons_pos _ _ (by norm_num)]
    rfl
  · show (DenseStore.keyAtRankAux 0 (List.replicate 127 0 ++ [1]) (-122) 0).getD 5 = 5
    rw [DenseStore.keyAtRankAux_replicate_zero (by norm_num) _ 127 (-122),
      DenseStore.keyAtRankAux_cons_pos _ _ (by norm_num)]
    rfl

/-! ## LogarithmicMapping (mapping/logarithmic_mapping.go)

The logarithmic index mapping computes `Index(v) = ⌊log(v) · multiplier⌋`
(with Go's `int()` truncation adjusted to a floor) and
`Value(k) = exp(k / multiplier) · (1 + α)`.  `math.Log`/`math.Exp` are
modelled by the exact real functions. -/

namespace LogarithmicMapping

/-- `expOverflow = 7.094361393031e+02`, the value at which `math.Exp` overflows. -/
noncomputable def expOverflow : ℝ := 7.094361393031e2

/-- `minNormalFloat64 = 2.2250738585072014e-308` (`2^(-1022)`). -/
noncomputable def minNormalFloat64 : ℝ := 2.2250738585072014e-308

def minInt32 : ℤ := -2147483648

def maxInt32 : ℤ := 2147483647

/-- `multiplier = 1 / math.Log((1+relativeAccuracy)/(1-relativeAccuracy))`. -/
noncomputable def multiplier (α : ℝ) : ℝ := 1 / Real.log ((1 + α) / (1 - α))

/-- `LogarithmicMapping.Index`:

    index := math.Log(value) * m.multiplier
    if index >= 0 { return int(index) } else { return int(index) - 1 }

Go's `int()` truncates toward zero, so for a non-negative argument it is the
floor, and for a negative argument it is the ceiling (whence the `- 1`). -/
noncomputable def index (α v : ℝ) : ℤ :=
  let i := Real.log v * multiplier α
  if 0 ≤ i then ⌊i⌋ else ⌈i⌉ - 1

/-- `LogarithmicMapping.Value`: `math.Exp(index/m.multiplier) * (1 + α)`. -/
noncomputable def value (α : ℝ) (k : ℤ) : ℝ :=
  Real.exp (k / multiplier α) * (1 + α)

/-- `LogarithmicMapping.MinIndexableValue`. -/
noncomputable def minIndexableValue (α : ℝ) : ℝ :=
  max (Real.exp (minInt32 / multiplier α + 1))
    (minNormalFloat64 * (1 + α) / (1 - α))

/-- `LogarithmicMapping.MaxIndexableValue`. -/
noncomputable def maxIndexableValue (α : ℝ) : ℝ :=
  min (Real.exp (maxInt32 / multiplier α - 1))
    (Real.exp expOverflow / (1 + α))

/-- The mapping's `gamma`, `(1+α)/(1-α)`. -/
noncomputable def gamma (α : ℝ) : ℝ := (1 + α) / (1 - α)

theorem one_lt_gamma {α : ℝ} (h0 : 0 < α) (h1 : α < 1) : 1 < gamma α := by
  rw [gamma, lt_div_iff₀ (by linarith)]
  linarith

theorem log_gamma_pos {α : ℝ} (h0 : 0 < α) (h1 : α < 1) : 0 < Real.log (gamma α) :=
  Real.log_pos (one_lt_gamma h0 h1)

theorem multiplier_eq {α : ℝ} : multiplier α = 1 / Real.log (gamma α) := rfl

/-- The bracket `x - 1 ≤ Index(v) ≤ x` around `x = log(v)·multiplier`,
covering both branches of the `int()` truncation. -/
theorem index_bracket (α v : ℝ) :
    Real.log v * multiplier α - 1 ≤ (index α v : ℝ) ∧
      (index α v : ℝ) ≤ Real.log v * multiplier α := by
  set x := Real.log v * multiplier α with hx
  unfold index
  by_cases h : 0 ≤ x
  · rw [if_pos h]
    exact ⟨le_of_lt (Int.sub_one_lt_floor x), Int.floor_le x⟩
  · rw [if_neg h]
    push_cast
    constructor
    · linarith [Int.le_ceil x]
    · linarith [Int.ceil_lt_add_one x]

end LogarithmicMapping

/-- C1 (confirmed): for the logarithmic mapping with relative accuracy
`α ∈ (0,1)` and any `v` in the indexable range,
`|Value(Index(v)) - v| ≤ α·v`. -/
theorem claim_C1_log_mapping_round_trip (α v : ℝ) (h0 : 0 < α) (h1 : α < 1)
    (hlo : LogarithmicMapping.minIndexableValue α ≤ v)
    (hhi : v ≤ LogarithmicMapping.maxIndexableValue α) :
    |LogarithmicMapping.value α (LogarithmicMapping.index α v) - v| ≤ α * v := by
  clear hhi
  open LogarithmicMapping in
  have hα1 : (0:ℝ) < 1 - α := by linarith
  have hγ : 1 < gamma α := one_lt_gamma h0 h1
  have hγ0 : (0:ℝ) < gamma α := lt_trans one_pos hγ
  have hL : 0 < Real.log (gamma α) := log_gamma_pos h0 h1
  have hv : 0 < v := by
    refine lt_of_lt_of_le ?_ (le_trans (le_max_right _ _) hlo)
    rw [minNormalFloat64]
    positivity
  set L := Real.log (gamma α) with hLdef
  have hmul : multiplier α = 1 / L := multiplier_eq
  have hdiv : ∀ k : ℤ, (k : ℝ) / multiplier α = k * L := by
    intro k
    rw [hmul]
    field_simp
  obtain ⟨hbr1, hbr2⟩ := LogarithmicMapping.index_bracket α v
  set k := LogarithmicMapping.index α v with hk
  have hxL : Real.log v * multiplier α * L = Real.log v := by
    rw [hmul]
    field_simp
  -- upper bound: Value(k) ≤ (1+α)·v
  have hub : LogarithmicMapping.value α k ≤ (1 + α) * v := by
    rw [LogarithmicMapping.value, hdiv k]
    have hkL : (k : ℝ) * L ≤ Real.log v := by
      calc (k : ℝ) * L ≤ Real.log v * multiplier α * L :=
            mul_le_mul_of_nonneg_right hbr2 (le_of_lt hL)
        _ = Real.log v := hxL
    calc Real.exp ((k : ℝ) * L) * (1 + α) ≤ Real.exp (Real.log v) * (1 + α) :=
          mul_le_mul_of_nonneg_right (Real.exp_le_exp.mpr hkL) (by linarith)
      _ = v * (1 + α) := by rw [Real.exp_log hv]
      _ = (1 + α) * v := mul_comm _ _
  -- lower bound: Value(k) ≥ (1-α)·v
  have hlb : (1 - α) * v ≤ LogarithmicMapping.value α k := by
    rw [LogarithmicMapping.value, hdiv k]
    have hkL : Real.log v - L ≤ (k : ℝ) * L := by
      calc Real.log v - L = (Real.log v * multiplier α - 1) * L := by
            rw [sub_mul, hxL, one_mul]
        _ ≤ (k : ℝ) * L := mul_le_mul_of_nonneg_right hbr1 (le_of_lt hL)
    have hexp : v / gamma α ≤ Real.exp ((k : ℝ) * L) := by
      calc v / gamma α = Real.exp (Real.log v) / Real.exp L := by
            rw [Real.exp_log hv, hLdef, Real.exp_log hγ0]
        _ = Real.exp (Real.log v - L) := (Real.exp_sub _ _).symm
        _ ≤ Real.exp ((k : ℝ) * L) := Real.exp_le_exp.mpr hkL
    calc (1 - α) * v = v / gamma α * (1 + α) := by
          rw [gamma]
          field_simp
          ring
      _ ≤ Real.exp ((k : ℝ) * L) * (1 + α) :=
          mul_le_mul_of_nonneg_right hexp (by linarith)
  rw [abs_le]
  constructor <;> nlinarith [hub, hlb]

/-- Witness for C1 at `α = 1/2`, `v = 1`. -/
theorem claim_C1_witness :
    LogarithmicMapping.minIndexableValue (1/2) ≤ 1 ∧
      (1:ℝ) ≤ LogarithmicMapping.maxIndexableValue (1/2) ∧
      |LogarithmicMapping.value (1/2) (LogarithmicMapping.index (1/2) 1) - 1| ≤ (1/2) * 1 := by
  have hlog3 : (1:ℝ) ≤ Real.log 3 := by
    rw [Real.le_log_iff_exp_le (by norm_num)]
    linarith [Real.exp_one_lt_d9]
  have hmul : LogarithmicMapping.multiplier (1/2) = 1 / Real.log 3 := by
    norm_num [LogarithmicMapping.multiplier]
  have hL3 : (0:ℝ) < Real.log 3 := lt_of_lt_of_le one_pos hlog3
  have hdiv : ∀ k : ℤ, (k : ℝ) / LogarithmicMapping.multiplier (1/2) = k * Real.log 3 := by
    intro k
    rw [hmul]
    field_simp
  have hlo : LogarithmicMapping.minIndexableValue (1/2) ≤ 1 := by
    rw [LogarithmicMapping.minIndexableValue]
    apply max_le
    · rw [Real.exp_le_one_iff, hdiv]
      have : (LogarithmicMapping.minInt32 : ℝ) = -2147483648 := by
        norm_num [LogarithmicMapping.minInt32]
      rw [this]
      nlinarith [hlog3]
    · rw [LogarithmicMapping.minNormalFloat64]
      norm_num
  have hhi : (1:ℝ) ≤ LogarithmicMapping.maxIndexableValue (1/2) := by
    rw [LogarithmicMapping.maxIndexableValue]
    apply le_min
    · apply Real.one_le_exp
      rw [hdiv]
      have : (LogarithmicMapping.maxInt32 : ℝ) = 2147483647 := by
        norm_num [LogarithmicMapping.maxInt32]
      rw [this]
      nlinarith [hlog3]
    · rw [le_div_iff₀ (by norm_num)]
      have h709 : Real.exp 1 ≤ Real.exp LogarithmicMapping.expOverflow := by
        apply Real.exp_le_exp.mpr
        rw [LogarithmicMapping.expOverflow]
        norm_num
      have := Real.exp_one_gt_d9
      norm_num
      linarith
  exact ⟨hlo, hhi, claim_C1_log_mapping_round_trip (1/2) 1 (by norm_num) (by norm_num)
    (by simpa using hlo) (by simpa using hhi)⟩

/-! ## DDSketch (ddsketch.go, two-store version): quantiles and Copy

For the quantile and copy claims the sketch is instantiated with the
logarithmic mapping and two dense stores, exactly as
`MemoryOptimalCollapsingLowestSketch`-style constructors do (any store works
the same way; the dense store is the embedded one). -/

structure DDSketchQ where
  /-- The parameter of the sketch's logarithmic `IndexMapping`. -/
  relativeAccuracy : ℝ
  positiveValueStore : DenseStore
  negativeValueStore : DenseStore
  zeroCount : ℚ

namespace DDSketchQ

/-- `DDSketch.getCount`: `zeroCount + positive total + negative total`. -/
def getCount (s : DDSketchQ) : ℚ :=
  s.zeroCount + s.positiveValueStore.totalCount + s.negativeValueStore.totalCount

/-- `DDSketch.getValueAtQuantile` (ddsketch.go). -/
noncomputable def getValueAtQuantile (s : DDSketchQ) (quantile : ℚ) : Except String ℝ :=
  if quantile < 0 ∨ 1 < quantile then
    .error "The quantile must be between 0 and 1."
  else if s.getCount = 0 then
    .error "No such element exists"
  else
    let rank := quantile * (s.getCount - 1)
    let negativeValueCount := s.negativeValueStore.totalCount
    if rank < negativeValueCount then
      .ok (-(LogarithmicMapping.value s.relativeAccuracy
        (s.negativeValueStore.keyAtRank (negativeValueCount - 1 - rank))))
    else if rank < s.zeroCount + negativeValueCount then
      .ok 0
    else
      .ok (LogarithmicMapping.value s.relativeAccuracy
        (s.positiveValueStore.keyAtRank (rank - s.zeroCount - negativeValueCount)))

/-- `DDSketch.Copy` (ddsketch.go): the struct literal copies the mapping and
deep-copies the two stores, but omits `zeroCount`, which is therefore the Go
zero value `0`. -/
def copy (s : DDSketchQ) : DDSketchQ :=
  { relativeAccuracy := s.relativeAccuracy
    positiveValueStore := s.positiveValueStore.copy
    negativeValueStore := s.negativeValueStore.copy
    zeroCount := 0 }

end DDSketchQ

/-- C2 (confirmed): `getValueAtQuantile` computes `rank = q·(count-1)` and
dispatches on the negative store, the zero bucket and the positive store in
that order; out-of-range quantiles and empty sketches give errors. -/
theorem claim_C2_getValueAtQuantile (s : DDSketchQ) (q : ℚ) (hz : 0 ≤ s.zeroCount) :
    (∀ (_ : 0 ≤ q) (_ : q ≤ 1) (_ : 0 < s.getCount),
      let rank := q * (s.getCount - 1)
      let negTotal := s.negativeValueStore.totalCount
      ((rank < negTotal →
        s.getValueAtQuantile q = .ok (-(LogarithmicMapping.value s.relativeAccuracy
          (s.negativeValueStore.keyAtRank (negTotal - 1 - rank)))))
      ∧ (negTotal ≤ rank → rank < negTotal + s.zeroCount →
        s.getValueAtQuantile q = .ok 0)
      ∧ (negTotal + s.zeroCount ≤ rank →
        s.getValueAtQuantile q = .ok (LogarithmicMapping.value s.relativeAccuracy
          (s.positiveValueStore.keyAtRank (rank - negTotal - s.zeroCount))))))
  ∧ (q < 0 ∨ 1 < q → ∃ e, s.getValueAtQuantile q = .error e)
  ∧ (s.getCount = 0 → ∃ e, s.getValueAtQuantile q = .error e) := by
  refine ⟨?_, ?_, ?_⟩
  · intro hq0 hq1 hpos rank negTotal
    have hrange : ¬ (q < 0 ∨ 1 < q) := by push_neg; exact ⟨hq0, hq1⟩
    have hne : ¬ s.getCount = 0 := ne_of_gt hpos
    refine ⟨fun h => ?_, fun h1 h2 => ?_, fun h => ?_⟩
    · simp only [DDSketchQ.getValueAtQuantile, if_neg hrange, if_neg hne, if_pos h]
    · have h2' : rank < s.zeroCount + negTotal := by
        rw [add_comm] at h2; exact h2
      simp only [DDSketchQ.getValueAtQuantile, if_neg hrange, if_neg hne,
        if_neg (not_lt.mpr h1), if_pos h2']
    · have h1 : ¬ rank < negTotal := by
        simp only [not_lt]
        calc negTotal ≤ negTotal + s.zeroCount := by
              nlinarith [h, hpos]
          _ ≤ rank := h
      have h2 : ¬ rank < s.zeroCount + negTotal := by
        rw [add_comm]; exact not_lt.mpr h
      simp only [DDSketchQ.getValueAtQuantile, if_neg hrange, if_neg hne, if_neg h1,
        if_neg h2]
      congr 1
      ring_nf
  · intro h
    exact ⟨"The quantile must be between 0 and 1.",
      by simp only [DDSketchQ.getValueAtQuantile, if_pos h]⟩
  · intro h
    by_cases hr : q < 0 ∨ 1 < q
    · exact ⟨"The quantile must be between 0 and 1.",
        by simp only [DDSketchQ.getValueAtQuantile, if_pos hr]⟩
    · exact ⟨"No such element exists",
        by simp only [DDSketchQ.getValueAtQuantile, if_neg hr, if_pos h]⟩

/-- Witness for C2: the one-point sketch `{zeroCount = 1}` answers the median
query with `0`. -/
theorem claim_C2_witness :
    ({ relativeAccuracy := 1/100, positiveValueStore := DenseStore.new,
       negativeValueStore := DenseStore.new, zeroCount := 1 } :
        DDSketchQ).getValueAtQuantile (1/2) = .ok 0 := by
  refine ((claim_C2_getValueAtQuantile _ (1/2) (by norm_num)).1 (by norm_num) (by norm_num)
    (by norm_num [DDSketchQ.getCount, DenseStore.totalCount, DenseStore.new])).2.1
    (by norm_num [DDSketchQ.getCount, DenseStore.totalCount, DenseStore.new])
    (by norm_num [DDSketchQ.getCount, DenseStore.totalCount, DenseStore.new])

/-- C10 (confirmed): `DDSketch.Copy` carries over the mapping and the two
stores but resets `zeroCount` to `0`; hence the copy of a sketch whose only
contents sit in the zero bucket has total count `0`. -/
theorem claim_C10_copy_drops_zeroCount (s : DDSketchQ) :
    s.copy.zeroCount = 0 ∧
      (s.positiveValueStore.totalCount = 0 → s.negativeValueStore.totalCount = 0 →
        s.copy.getCount = 0) := by
  refine ⟨rfl, fun hp hn => ?_⟩
  simp [DDSketchQ.getCount, DDSketchQ.copy, DenseStore.copy, DenseStore.totalCount] at hp hn ⊢
  simp [hp, hn]

/-- Witness for C10: copying a sketch holding 42 zero-range values yields an
empty sketch. -/
theorem claim_C10_witness :
    ({ relativeAccuracy := 1/100, positiveValueStore := DenseStore.new,
       negativeValueStore := DenseStore.new, zeroCount := 42 } :
        DDSketchQ).copy.zeroCount = 0 ∧
      ({ relativeAccuracy := 1/100, positiveValueStore := DenseStore.new,
         negativeValueStore := DenseStore.new, zeroCount := 42 } :
          DDSketchQ).copy.getCount = 0 := by
  have h := claim_C10_copy_drops_zeroCount
    { relativeAccuracy := 1/100, positiveValueStore := DenseStore.new,
      negativeValueStore := DenseStore.new, zeroCount := 42 }
  exact ⟨h.1, h.2 rfl rfl⟩

/-! ## CollapsingLowestDenseStore (store/collapsing_lowest_dense_store.go)

A dense store bounded by `maxNumBins`; when adding below the representable
range with a full slice, the new count lands in slot 0 (the collapsed lowest
bin), and growth on the right may shift the low bins into slot 0. -/

/-- Effect of `copy(dst, src)`: `min(len(src), len(dst))` elements of `src`
overwrite the front of `dst`; the rest of `dst` is unchanged. -/
def copyWithin (dst src : List ℚ) : List ℚ :=
  src.take dst.length ++ dst.drop (min src.length dst.length)

/-- Effect of `for i := a; i < b; i++ { l[i] = 0 }`. -/
def zeroFrom (l : List ℚ) (a b : ℤ) : List ℚ :=
  l.mapIdx fun i x => if a ≤ (i : ℤ) ∧ (i : ℤ) < b then 0 else x

structure CLStore where
  bins : List ℚ
  count : ℚ
  minIndex : ℤ
  maxIndex : ℤ
  maxNumBins : ℤ

/-- `NewCollapsingLowestDenseStore(maxNumBins)`: zero-valued dense fields. -/
def CLStore.new (maxNumBins : ℤ) : CLStore := ⟨[], 0, 0, 0, maxNumBins⟩

namespace CLStore

/-- `CollapsingLowestDenseStore.growLeft`. -/
def growLeft (s : CLStore) (index : ℤ) : CLStore :=
  if s.minIndex < index ∨ s.maxNumBins ≤ (s.bins.length : ℤ) then s
  else
    let minIndex :=
      if index + s.maxNumBins ≤ s.maxIndex then s.maxIndex - s.maxNumBins + 1
      else max (index - growthBuffer) (s.maxIndex - s.maxNumBins + 1)
    { s with bins := padCopyAt (s.maxIndex - minIndex + 1) (s.minIndex - minIndex) s.bins
             minIndex := minIndex }

/-- `CollapsingLowestDenseStore.growRight`. -/
def growRight (s : CLStore) (index : ℤ) : CLStore :=
  if index < s.maxIndex then s
  else if s.maxIndex + s.maxNumBins ≤ index then
    { s with bins := (List.replicate s.maxNumBins.toNat 0).set 0 s.count
             maxIndex := index
             minIndex := index - s.maxNumBins + 1 }
  else if s.minIndex + s.maxNumBins ≤ index then
    let minIndex := index - s.maxNumBins + 1
    let n := (s.bins.take (min (minIndex - s.minIndex) (s.maxIndex - s.minIndex + 1)).toNat).sum
    let bins :=
      if (s.bins.length : ℤ) < s.maxNumBins then
        padCopyAt s.maxNumBins 0 (s.bins.drop (minIndex - s.minIndex).toNat)
      else
        zeroFrom (copyWithin s.bins (s.bins.drop (minIndex - s.minIndex).toNat))
          (s.maxIndex - minIndex + 1) s.maxNumBins
    { s with bins := binInc bins 0 n
             maxIndex := index
             minIndex := minIndex }
  else
    let maxIndex := min (index + growthBuffer) (s.minIndex + s.maxNumBins - 1)
    { s with bins := padCopyAt (maxIndex - s.minIndex + 1) 0 s.bins
             maxIndex := maxIndex }

/-- `CollapsingLowestDenseStore.Add`: allocate `min(growthBuffer, maxNumBins)`
bins on the first add, grow as needed, and bump the slot of `index`, with
slot 0 receiving indexes that remain below `minIndex` after a refused
`growLeft`. -/
def add (s : CLStore) (index : ℤ) : CLStore :=
  let s :=
    if s.count = 0 then
      { s with bins := List.replicate (min growthBuffer s.maxNumBins).toNat 0
               maxIndex := index
               minIndex := index - min growthBuffer s.maxNumBins + 1 }
    else s
  let s :=
    if index < s.minIndex then s.growLeft index
    else if s.maxIndex < index then s.growRight index
    else s
  let idx : ℤ := if index < s.minIndex then 0 else index - s.minIndex
  { s with bins := binInc s.bins idx.toNat 1, count := s.count + 1 }

/-- `MaxIndex()` inherited from the embedded `DenseStore`. -/
def maxIndexGo (s : CLStore) : Except String ℤ :=
  if s.count = 0 then .error "MaxIndex of empty store is undefined."
  else .ok ((DenseStore.maxIndexAux s.bins s.minIndex (s.maxIndex - s.minIndex + 1).toNat).getD s.minIndex)

end CLStore

/-! Toolkit for slice reasoning. -/

theorem getD_set_self (l : List ℚ) {i : ℕ} (h : i < l.length) (c d : ℚ) :
    (l.set i c).getD i d = c := by
  simp [List.getD_eq_getD_get?, List.getElem?_set_self', h]

theorem getD_set_ne (l : List ℚ) {i j : ℕ} (h : i ≠ j) (c d : ℚ) :
    (l.set i c).getD j d = l.getD j d := by
  simp [List.getD_eq_getD_get?, List.getElem?_set_ne h]

theorem length_binInc (l : List ℚ) (i : ℕ) (c : ℚ) : (binInc l i c).length = l.length := by
  simp [binInc]

theorem getD_binInc_self (l : List ℚ) {i : ℕ} (h : i < l.length) (c : ℚ) :
    (binInc l i c).getD i 0 = l.getD i 0 + c := by
  rw [binInc, getD_set_self l h]

theorem getD_binInc_ne (l : List ℚ) {i j : ℕ} (h : i ≠ j) (c : ℚ) :
    (binInc l i c).getD j 0 = l.getD j 0 := by
  rw [binInc, getD_set_ne l h]

theorem getD_binInc_nonneg (l : List ℚ) (i : ℕ) (c : ℚ) (hc : 0 ≤ c)
    (hl : ∀ j : ℕ, 0 ≤ l.getD j 0) (j : ℕ) : 0 ≤ (binInc l i c).getD j 0 := by
  by_cases hij : i = j
  · subst hij
    by_cases hi : i < l.length
    · rw [getD_binInc_self l hi]
      exact add_nonneg (hl i) hc
    · rw [binInc, List.set_eq_of_length_le (by omega)]
      exact hl i
  · rw [getD_binInc_ne l hij]
    exact hl j

theorem getD_replicate_append (p : ℕ) (l : List ℚ) (j : ℕ) :
    (List.replicate p (0:ℚ) ++ l).getD (p + j) 0 = l.getD j 0 := by
  rw [List.getD_append_right _ _ _ _ (by simp)]
  simp

theorem getD_replicate_append_lt (p : ℕ) (l : List ℚ) (j : ℕ) (h : j < p) :
    (List.replicate p (0:ℚ) ++ l).getD j 0 = 0 := by
  rw [List.getD_append _ _ _ _ (by simpa using h)]
  exact getD_replicate 0 0 p j h

/-- `make([]float64, n)` then `copy` at offset `off`, when the source fits
exactly: a zero prefix followed by the source. -/
theorem padCopyAt_eq (src : List ℚ) (n off : ℤ) (hoff : 0 ≤ off)
    (hn : n = off + src.length) :
    padCopyAt n off src = List.replicate off.toNat 0 ++ src := by
  unfold padCopyAt
  have h1 : min off.toNat n.toNat = off.toNat := by omega
  have h2 : n.toNat - off.toNat = src.length := by omega
  rw [h1, h2, List.take_of_length_le (le_refl _), Nat.sub_self, List.replicate_zero,
    List.append_nil]

/-- `make([]float64, n)` then `copy` at offset `0`, when the target is at
least as long as the source: the source followed by zero padding. -/
theorem padCopyAt_zero_eq (src : List ℚ) (n : ℤ) (h : src.length ≤ n.toNat) :
    padCopyAt n 0 src = src ++ List.replicate (n.toNat - src.length) 0 := by
  unfold padCopyAt
  rw [show ((0:ℤ).toNat) = 0 from rfl]
  rw [Nat.min_comm, Nat.min_zero, List.replicate_zero, Nat.sub_zero, List.nil_append,
    List.take_of_length_le h]

/-- `maxIndexAux` finds the top occupied slot when everything above it is
zero. -/
theorem maxIndexAux_spec (bins : List ℚ) (minIndex : ℤ) (t : ℕ)
    (hpos : 0 < bins.getD t 0) (hz : ∀ j : ℕ, t < j → bins.getD j 0 = 0) :
    ∀ fuel : ℕ, t < fuel → DenseStore.maxIndexAux bins minIndex fuel = some (minIndex + t)
  | 0, h => absurd h (Nat.not_lt_zero _)
  | k + 1, h => by
    rcases Nat.lt_or_ge t k with hk | hk
    · have hzk : bins.getD k 0 = 0 := hz k hk
      rw [DenseStore.maxIndexAux, if_neg (by rw [hzk]; exact lt_irrefl 0)]
      exact maxIndexAux_spec bins minIndex t hpos hz k hk
    · have htk : t = k := by omega
      subst htk
      rw [DenseStore.maxIndexAux, if_pos hpos]

namespace CLStore

/-- The invariant maintained by `CollapsingLowestDenseStore.Add`:
`tm` is the largest index added so far. -/
structure Inv (s : CLStore) (tm : ℤ) : Prop where
  count_pos : 0 < s.count
  len_eq : (s.bins.length : ℤ) = s.maxIndex - s.minIndex + 1
  len_le : (s.bins.length : ℤ) ≤ s.maxNumBins
  nonneg : ∀ j : ℕ, 0 ≤ s.bins.getD j 0
  min_le : s.minIndex ≤ tm
  max_le : tm ≤ s.maxIndex
  pos_at : 0 < s.bins.getD (tm - s.minIndex).toNat 0
  zero_above : ∀ j : ℕ, (tm - s.minIndex).toNat < j → s.bins.getD j 0 = 0

/-- `growLeft` extends the slice on the left with zeros (possibly by nothing,
when the bin budget is exhausted), keeping its length within `maxNumBins`. -/
theorem growLeft_shape (s : CLStore) (i : ℤ) (hi : i < s.minIndex)
    (hlen : (s.bins.length : ℤ) = s.maxIndex - s.minIndex + 1)
    (hle : (s.bins.length : ℤ) ≤ s.maxNumBins) :
    ∃ p : ℕ, s.growLeft i =
        { s with bins := List.replicate p 0 ++ s.bins, minIndex := s.minIndex - p } ∧
      (p + s.bins.length : ℤ) ≤ s.maxNumBins := by
  rw [growLeft]
  by_cases hfull : s.minIndex < i ∨ s.maxNumBins ≤ (s.bins.length : ℤ)
  · refine ⟨0, ?_, by omega⟩
    rw [if_pos hfull]
    cases s
    simp
  · push_neg at hfull
    obtain ⟨-, hroom⟩ := hfull
    rw [if_neg (by push_neg; exact ⟨by omega, by omega⟩)]
    set minIndex' : ℤ :=
      if i + s.maxNumBins ≤ s.maxIndex then s.maxIndex - s.maxNumBins + 1
      else max (i - growthBuffer) (s.maxIndex - s.maxNumBins + 1) with hmi
    have hlow : s.maxIndex - s.maxNumBins + 1 ≤ minIndex' := by
      rw [hmi]
      split
      · exact le_refl _
      · exact le_max_right _ _
    have hup : minIndex' ≤ s.minIndex := by
      rw [hmi, growthBuffer]
      split <;> omega
    refine ⟨(s.minIndex - minIndex').toNat, ?_, by omega⟩
    show ({ s with
        bins := padCopyAt (s.maxIndex - minIndex' + 1) (s.minIndex - minIndex') s.bins
        minIndex := minIndex' } : CLStore) = _
    rw [padCopyAt_eq s.bins (s.maxIndex - minIndex' + 1) (s.minIndex - minIndex')
      (by omega) (by omega)]
    have : (s.minIndex - ((s.minIndex - minIndex').toNat : ℤ)) = minIndex' := by omega
    rw [this]

end CLStore

theorem getD_nonneg_append_zero (p : ℕ) (l : List ℚ) (hl : ∀ j : ℕ, 0 ≤ l.getD j 0) :
    ∀ j : ℕ, 0 ≤ (List.replicate p (0:ℚ) ++ l).getD j 0 := by
  intro j
  rcases Nat.lt_or_ge j p with h | h
  · rw [getD_replicate_append_lt p l j h]
  · obtain ⟨k, rfl⟩ : ∃ k, j = p + k := ⟨j - p, by omega⟩
    rw [getD_replicate_append]
    exact hl k

theorem getD_replicate_zero (n j : ℕ) : (List.replicate n (0:ℚ)).getD j 0 = 0 := by
  rcases Nat.lt_or_ge j n with h | h
  · exact getD_replicate 0 0 n j h
  · exact List.getD_eq_default _ _ (by simpa using h)

theorem pos_at_lt_length {l : List ℚ} {t : ℕ} (h : 0 < l.getD t 0) : t < l.length := by
  by_contra h'
  rw [List.getD_eq_default _ _ (le_of_not_lt h')] at h
  exact lt_irrefl 0 h

theorem getD_nonneg_mem {l : List ℚ} (hl : ∀ j : ℕ, 0 ≤ l.getD j 0) : ∀ x ∈ l, 0 ≤ x := by
  intro x hx
  obtain ⟨i, hi, rfl⟩ := List.getElem_of_mem hx
  have := hl i
  rwa [List.getD_eq_getElem _ _ hi] at this

theorem take_sum_nonneg {l : List ℚ} (hl : ∀ j : ℕ, 0 ≤ l.getD j 0) (k : ℕ) :
    0 ≤ (l.take k).sum :=
  List.sum_nonneg fun x hx => getD_nonneg_mem hl x (List.mem_of_mem_take hx)

theorem getD_drop (l : List ℚ) (d j : ℕ) : (l.drop d).getD j 0 = l.getD (d + j) 0 := by
  rcases Nat.lt_or_ge (d + j) l.length with h | h
  · rw [List.getD_eq_getElem _ _ (by simpa [List.length_drop] using by omega), List.getD_eq_getElem _ _ h]
    simp [List.getElem_drop]
  · rw [List.getD_eq_default _ _ (by simp [List.length_drop]; omega), List.getD_eq_default _ _ h]

theorem getD_append_zero_right (l : List ℚ) (z j : ℕ) (h : l.length ≤ j) :
    (l ++ List.replicate z (0:ℚ)).getD j 0 = 0 := by
  rcases Nat.lt_or_ge j (l.length + z) with h2 | h2
  · rw [List.getD_append_right _ _ _ _ h]
    exact getD_replicate 0 0 z (j - l.length) (by omega)
  · exact List.getD_eq_default _ _ (by simp; omega)

theorem getD_append_left' (l l' : List ℚ) (j : ℕ) (h : j < l.length) :
    (l ++ l').getD j 0 = l.getD j 0 := by
  rw [List.getD_append _ _ _ _ h, List.getD_eq_getElem _ _ h]

namespace CLStore

theorem length_zeroFrom (l : List ℚ) (a b : ℤ) : (zeroFrom l a b).length = l.length := by
  simp [zeroFrom]

theorem getD_zeroFrom (l : List ℚ) (a b : ℤ) (j : ℕ) (h : j < l.length) :
    (zeroFrom l a b).getD j 0 =
      if a ≤ (j:ℤ) ∧ (j:ℤ) < b then 0 else l.getD j 0 := by
  rw [List.getD_eq_getElem _ _ (by rw [length_zeroFrom]; exact h), List.getD_eq_getElem _ _ h]
  simp [zeroFrom]

/-- The slice produced by the middle branch of `growRight` (shift left by `d`,
zero the vacated tail), described pointwise. -/
theorem growRight_mid_bins_spec (s : CLStore) (d : ℕ)
    (hlen : (s.bins.length : ℤ) = s.maxIndex - s.minIndex + 1)
    (hle : (s.bins.length : ℤ) ≤ s.maxNumBins)
    (hd1 : 1 ≤ d) (hdL : d < s.bins.length)
    (a : ℤ) (ha : a = (s.bins.length : ℤ) - (d : ℤ))
    (bins : List ℚ)
    (hbins : bins = if (s.bins.length : ℤ) < s.maxNumBins then
        padCopyAt s.maxNumBins 0 (s.bins.drop d)
      else
        zeroFrom (copyWithin s.bins (s.bins.drop d)) a s.maxNumBins) :
    bins.length = s.maxNumBins.toNat ∧
      (∀ j : ℕ, j < s.bins.length - d → bins.getD j 0 = s.bins.getD (d + j) 0) ∧
      (∀ j : ℕ, s.bins.length - d ≤ j → bins.getD j 0 = 0) := by
  subst ha
  by_cases hroom : (s.bins.length : ℤ) < s.maxNumBins
  · rw [if_pos hroom] at hbins
    have hlen_drop : (s.bins.drop d).length = s.bins.length - d := by simp
    have hfits : (s.bins.drop d).length ≤ s.maxNumBins.toNat := by omega
    rw [padCopyAt_zero_eq _ _ hfits] at hbins
    subst hbins
    refine ⟨?_, fun j hj => ?_, fun j hj => ?_⟩
    · simp only [List.length_append, List.length_replicate, hlen_drop]
      omega
    · rw [getD_append_left' _ _ j (by omega), getD_drop]
    · exact getD_append_zero_right _ _ j (by omega)
  · rw [if_neg hroom] at hbins
    have hLm : (s.bins.length : ℤ) = s.maxNumBins := le_antisymm hle (le_of_not_lt hroom)
    have hcw : copyWithin s.bins (s.bins.drop d) =
        s.bins.drop d ++ s.bins.drop (s.bins.length - d) := by
      have h1 : (s.bins.drop d).length = s.bins.length - d := by simp
      rw [copyWithin, List.take_of_length_le (by omega), h1, Nat.min_eq_left (by omega)]
    have hcwlen : (copyWithin s.bins (s.bins.drop d)).length = s.bins.length := by
      rw [hcw]
      simp
      try omega
    subst hbins
    refine ⟨by rw [length_zeroFrom, hcwlen]; omega, fun j hj => ?_, fun j hj => ?_⟩
    · rw [getD_zeroFrom _ _ _ j (by omega), if_neg (by push_neg; intro h; omega)]
      rw [hcw, getD_append_left' _ _ j (by simp; omega), getD_drop]
    · rcases Nat.lt_or_ge j s.bins.length with hjL | hjL
      · rw [getD_zeroFrom _ _ _ j (by omega), if_pos ⟨by omega, by omega⟩]
      · exact List.getD_eq_default _ _ (by rw [length_zeroFrom, hcwlen]; omega)

/-- The final step of `Add` (bump slot `idx` by one and increment the count)
establishes the invariant, provided `idx` is at or below the slot of the
running maximum `tm` and that slot is (or becomes) positive. -/
theorem inv_binInc_step (g : CLStore) (tm : ℤ) (idx : ℕ)
    (hcount : 0 ≤ g.count)
    (hlen : (g.bins.length : ℤ) = g.maxIndex - g.minIndex + 1)
    (hle : (g.bins.length : ℤ) ≤ g.maxNumBins)
    (hnn : ∀ j : ℕ, 0 ≤ g.bins.getD j 0)
    (hmin : g.minIndex ≤ tm) (hmax : tm ≤ g.maxIndex)
    (hidx_le : idx ≤ (tm - g.minIndex).toNat)
    (hpos : idx = (tm - g.minIndex).toNat ∨ 0 < g.bins.getD (tm - g.minIndex).toNat 0)
    (hz : ∀ j : ℕ, (tm - g.minIndex).toNat < j → g.bins.getD j 0 = 0) :
    Inv { g with bins := binInc g.bins idx 1, count := g.count + 1 } tm := by
  have hT : (tm - g.minIndex).toNat < g.bins.length := by omega
  constructor
  · show (0:ℚ) < g.count + 1
    linarith
  · simpa [length_binInc] using hlen
  · simpa [length_binInc] using hle
  · exact fun j => getD_binInc_nonneg g.bins idx 1 (by norm_num) hnn j
  · exact hmin
  · exact hmax
  · show 0 < (binInc g.bins idx 1).getD (tm - g.minIndex).toNat 0
    rcases hpos with heq | hpos
    · subst heq
      rw [getD_binInc_self g.bins hT]
      have := hnn (tm - g.minIndex).toNat
      linarith
    · by_cases heq : idx = (tm - g.minIndex).toNat
      · subst heq
        rw [getD_binInc_self g.bins hT]
        linarith
      · rwa [getD_binInc_ne g.bins heq]
  · intro j hj
    have hj' : (tm - g.minIndex).toNat < j := hj
    show (binInc g.bins idx 1).getD j 0 = 0
    rw [getD_binInc_ne g.bins (show idx ≠ j by omega)]
    exact hz j hj'

/-- What `growRight` guarantees when called with `maxIndex < i` on a store
satisfying the invariant. -/
theorem growRight_spec {s : CLStore} {tm : ℤ} (h : Inv s tm) (hm : 1 ≤ s.maxNumBins)
    {i : ℤ} (hi : s.maxIndex < i) :
    (s.growRight i).count = s.count ∧ (s.growRight i).maxNumBins = s.maxNumBins ∧
    (s.growRight i).minIndex ≤ i ∧ i ≤ (s.growRight i).maxIndex ∧
    ((s.growRight i).bins.length : ℤ) =
      (s.growRight i).maxIndex - (s.growRight i).minIndex + 1 ∧
    ((s.growRight i).bins.length : ℤ) ≤ s.maxNumBins ∧
    (∀ j : ℕ, 0 ≤ (s.growRight i).bins.getD j 0) ∧
    (∀ j : ℕ, (i - (s.growRight i).minIndex).toNat < j → (s.growRight i).bins.getD j 0 = 0) := by
  have hlen := h.len_eq
  have hle := h.len_le
  have hmnx := h.min_le
  have hmxx := h.max_le
  have hcnt := h.count_pos
  have hLpos : 0 < s.bins.length := by omega
  rw [growRight, if_neg (show ¬ i < s.maxIndex by omega)]
  by_cases hB1 : s.maxIndex + s.maxNumBins ≤ i
  · rw [if_pos hB1]
    have hmN : (0:ℕ) < s.maxNumBins.toNat := by omega
    have hlset : ((List.replicate s.maxNumBins.toNat (0:ℚ)).set 0 s.count).length
        = s.maxNumBins.toNat := by simp
    refine ⟨rfl, rfl, by show i - s.maxNumBins + 1 ≤ i; omega, le_refl i, ?_, ?_, ?_, ?_⟩
    · show (((List.replicate s.maxNumBins.toNat 0).set 0 s.count).length : ℤ)
        = i - (i - s.maxNumBins + 1) + 1
      rw [hlset]
      omega
    · show (((List.replicate s.maxNumBins.toNat 0).set 0 s.count).length : ℤ) ≤ s.maxNumBins
      rw [hlset]
      omega
    · intro j
      show 0 ≤ ((List.replicate s.maxNumBins.toNat 0).set 0 s.count).getD j 0
      by_cases hj : j = 0
      · subst hj
        rw [getD_set_self _ (by simpa using hmN)]
        linarith
      · rw [getD_set_ne _ (Ne.symm hj), getD_replicate_zero]
    · intro j hj
      have hj' : (i - (i - s.maxNumBins + 1)).toNat < j := hj
      show ((List.replicate s.maxNumBins.toNat 0).set 0 s.count).getD j 0 = 0
      exact List.getD_eq_default _ _ (by rw [hlset]; omega)
  · rw [if_neg hB1]
    by_cases hB2 : s.minIndex + s.maxNumBins ≤ i
    · rw [if_pos hB2]
      set d : ℕ := (i - s.maxNumBins + 1 - s.minIndex).toNat with hd
      have hd1 : 1 ≤ d := by omega
      have hdL : d < s.bins.length := by omega
      obtain ⟨hblen, hblow, hbhigh⟩ := growRight_mid_bins_spec s d hlen hle hd1 hdL
        (s.maxIndex - (i - s.maxNumBins + 1) + 1) (by omega) _ rfl
      set binsB : List ℚ := if (s.bins.length : ℤ) < s.maxNumBins then
          padCopyAt s.maxNumBins 0 (s.bins.drop d)
        else
          zeroFrom (copyWithin s.bins (s.bins.drop d))
            (s.maxIndex - (i - s.maxNumBins + 1) + 1) s.maxNumBins with hbB
      have hnnB : ∀ j : ℕ, 0 ≤ binsB.getD j 0 := by
        intro j
        rcases Nat.lt_or_ge j (s.bins.length - d) with hj | hj
        · rw [hblow j hj]
          exact h.nonneg (d + j)
        · rw [hbhigh j hj]
      have hn0 : 0 ≤ (s.bins.take (min (i - s.maxNumBins + 1 - s.minIndex)
          (s.maxIndex - s.minIndex + 1)).toNat).sum := take_sum_nonneg h.nonneg _
      refine ⟨rfl, rfl, by show i - s.maxNumBins + 1 ≤ i; omega, le_refl i, ?_, ?_, ?_, ?_⟩
      · show ((binInc binsB _ _).length : ℤ) = i - (i - s.maxNumBins + 1) + 1
        rw [length_binInc, hblen]
        omega
      · show ((binInc binsB _ _).length : ℤ) ≤ s.maxNumBins
        rw [length_binInc, hblen]
        omega
      · exact fun j => getD_binInc_nonneg binsB 0 _ hn0 hnnB j
      · intro j hj
        have hj' : (i - (i - s.maxNumBins + 1)).toNat < j := hj
        show (binInc binsB 0 _).getD j 0 = 0
        rw [getD_binInc_ne binsB (show (0:ℕ) ≠ j by omega)]
        exact hbhigh j (by omega)
    · rw [if_neg hB2]
      set mx : ℤ := min (i + growthBuffer) (s.minIndex + s.maxNumBins - 1) with hmx
      have hmx1 : i ≤ mx := by rw [hmx, growthBuffer]; omega
      have hmx2 : mx ≤ s.minIndex + s.maxNumBins - 1 := min_le_right _ _
      have hfits : s.bins.length ≤ (mx - s.minIndex + 1).toNat := by omega
      have hpce := padCopyAt_zero_eq s.bins (mx - s.minIndex + 1) hfits
      refine ⟨rfl, rfl, by show s.minIndex ≤ i; omega, by show i ≤ mx; exact hmx1, ?_, ?_, ?_, ?_⟩
      · show ((padCopyAt (mx - s.minIndex + 1) 0 s.bins).length : ℤ) = mx - s.minIndex + 1
        rw [hpce]
        simp only [List.length_append, List.length_replicate]
        omega
      · show ((padCopyAt (mx - s.minIndex + 1) 0 s.bins).length : ℤ) ≤ s.maxNumBins
        rw [hpce]
        simp only [List.length_append, List.length_replicate]
        omega
      · intro j
        show 0 ≤ (padCopyAt (mx - s.minIndex + 1) 0 s.bins).getD j 0
        rw [hpce]
        rcases Nat.lt_or_ge j s.bins.length with hj | hj
        · rw [getD_append_left' _ _ j hj]
          exact h.nonneg j
        · rw [getD_append_zero_right _ _ j hj]
      · intro j hj
        have hj' : (i - s.minIndex).toNat < j := hj
        show (padCopyAt (mx - s.minIndex + 1) 0 s.bins).getD j 0 = 0
        rw [hpce]
        exact getD_append_zero_right _ _ j (by omega)

/-- One `Add` preserves the invariant, the running maximum becoming
`max tm i`. -/
theorem add_inv {s : CLStore} {tm : ℤ} (h : Inv s tm) (hm : 1 ≤ s.maxNumBins) (i : ℤ) :
    Inv (s.add i) (max tm i) := by
  have hs : s.count ≠ 0 := ne_of_gt h.count_pos
  have hlen := h.len_eq
  have hle' := h.len_le
  have hmn := h.min_le
  have hmx := h.max_le
  rw [add]
  simp only [if_neg hs]
  by_cases hA : i < s.minIndex
  · simp only [if_pos hA]
    obtain ⟨p, hgeq, hple⟩ := growLeft_shape s i hA hlen hle'
    rw [hgeq, max_eq_left (by omega : i ≤ tm)]
    have ht : (tm - s.minIndex).toNat < s.bins.length := pos_at_lt_length h.pos_at
    exact inv_binInc_step
      { s with bins := List.replicate p 0 ++ s.bins, minIndex := s.minIndex - p } tm
      ((if i < s.minIndex - (p:ℤ) then (0:ℤ) else i - (s.minIndex - p)).toNat)
      (le_of_lt h.count_pos)
      (by simp only [List.length_append, List.length_replicate]; push_cast; omega)
      (by simp only [List.length_append, List.length_replicate]; push_cast; omega)
      (getD_nonneg_append_zero p s.bins h.nonneg)
      (by show s.minIndex - (p:ℤ) ≤ tm; omega)
      (by show tm ≤ s.maxIndex; omega)
      (by
        show (if i < s.minIndex - (p:ℤ) then (0:ℤ) else i - (s.minIndex - p)).toNat ≤
          (tm - (s.minIndex - (p:ℤ))).toNat
        split <;> omega)
      (Or.inr (by
        show (0:ℚ) < (List.replicate p 0 ++ s.bins).getD (tm - (s.minIndex - (p:ℤ))).toNat 0
        have hslot : (tm - (s.minIndex - (p:ℤ))).toNat = p + (tm - s.minIndex).toNat := by
          omega
        rw [hslot, getD_replicate_append]
        exact h.pos_at))
      (by
        intro j hj
        have hj' : (tm - (s.minIndex - (p:ℤ))).toNat < j := hj
        show (List.replicate p 0 ++ s.bins).getD j 0 = (0:ℚ)
        obtain ⟨k, rfl⟩ : ∃ k, j = p + k := ⟨j - p, by omega⟩
        rw [getD_replicate_append]
        exact h.zero_above k (by omega))
  · by_cases hB : s.maxIndex < i
    · simp only [if_neg hA, if_pos hB]
      obtain ⟨hgc, hgm, hgmin, hgmax, hglen, hgle, hgnn, hgz⟩ := growRight_spec h hm hB
      rw [max_eq_right (by omega : tm ≤ i)]
      simp only [if_neg (show ¬ i < (s.growRight i).minIndex by omega)]
      exact inv_binInc_step (s.growRight i) i ((i - (s.growRight i).minIndex).toNat)
        (by rw [hgc]; exact le_of_lt h.count_pos)
        hglen
        (by rw [← hgm] at hgle; exact hgle)
        hgnn
        hgmin
        hgmax
        (le_refl _)
        (Or.inl rfl)
        hgz
    · simp only [if_neg hA, if_neg hB]
      have ht : (tm - s.minIndex).toNat < s.bins.length := pos_at_lt_length h.pos_at
      exact inv_binInc_step s (max tm i) ((i - s.minIndex).toNat)
        (le_of_lt h.count_pos)
        hlen
        hle'
        h.nonneg
        (by omega)
        (by omega)
        (by omega)
        (by
          rcases le_total tm i with hti | hti
          · exact Or.inl (by rw [max_eq_right hti])
          · exact Or.inr (by rw [max_eq_left hti]; exact h.pos_at))
        (fun j hj => h.zero_above j (by omega))

/-- The first `Add` on a fresh store establishes the invariant. -/
theorem add_inv_base (m i : ℤ) (hm : 1 ≤ m) : Inv ((CLStore.new m).add i) i := by
  have hg : growthBuffer = 128 := rfl
  have hL0 : (1:ℤ) ≤ min growthBuffer m := by omega
  rw [add]
  simp only [CLStore.new, reduceIte]
  rw [if_neg (show ¬ i < i - min growthBuffer m + 1 by omega)]
  rw [if_neg (show ¬ i < i by omega)]
  rw [if_neg (show ¬ i < i - min growthBuffer m + 1 by omega)]
  exact inv_binInc_step
    { bins := List.replicate (min growthBuffer m).toNat 0, count := 0,
      minIndex := i - min growthBuffer m + 1, maxIndex := i, maxNumBins := m } i
    ((i - (i - min growthBuffer m + 1)).toNat)
    (le_refl 0)
    (by simp only [List.length_replicate]; omega)
    (by simp only [List.length_replicate]; omega)
    (fun j => by rw [getD_replicate_zero])
    (by show i - min growthBuffer m + 1 ≤ i; omega)
    (le_refl i)
    (le_refl _)
    (Or.inl rfl)
    (fun j hj => getD_replicate_zero _ j)

theorem growLeft_maxNumBins (s : CLStore) (i : ℤ) :
    (s.growLeft i).maxNumBins = s.maxNumBins := by
  rw [growLeft]
  split
  · rfl
  · rfl

theorem growRight_maxNumBins (s : CLStore) (i : ℤ) :
    (s.growRight i).maxNumBins = s.maxNumBins := by
  rw [growRight]
  split
  · rfl
  · split
    · rfl
    · split
      · rfl
      · rfl

theorem add_maxNumBins (s : CLStore) (i : ℤ) : (s.add i).maxNumBins = s.maxNumBins := by
  rw [add]
  split
  · split
    · rw [growLeft_maxNumBins]
    · split
      · rw [growRight_maxNumBins]
      · rfl
  · split
    · rw [growLeft_maxNumBins]
    · split
      · rw [growRight_maxNumBins]
      · rfl

/-- `MaxIndex()` recovers the running maximum from the invariant. -/
theorem maxIndexGo_eq {s : CLStore} {tm : ℤ} (h : Inv s tm) : s.maxIndexGo = .ok tm := by
  rw [maxIndexGo, if_neg (ne_of_gt h.count_pos)]
  have ht := pos_at_lt_length h.pos_at
  have hlen := h.len_eq
  have hfuel : (tm - s.minIndex).toNat < (s.maxIndex - s.minIndex + 1).toNat := by omega
  rw [maxIndexAux_spec s.bins s.minIndex _ h.pos_at h.zero_above _ hfuel]
  rw [Option.getD_some]
  have := h.min_le
  congr 1
  omega

/-- Invariant after a whole sequence of adds. -/
theorem foldl_add_inv (m : ℤ) (hm : 1 ≤ m) :
    ∀ (l : List ℤ) (s : CLStore) (tm : ℤ), Inv s tm → s.maxNumBins = m →
      Inv (l.foldl CLStore.add s) (l.foldl max tm) ∧
        (l.foldl CLStore.add s).maxNumBins = m
  | [], s, tm, h, hmn => ⟨h, hmn⟩
  | i :: l, s, tm, h, hmn => by
    rw [List.foldl_cons, List.foldl_cons]
    exact foldl_add_inv m hm l (s.add i) (max tm i) (add_inv h (hmn ▸ hm) i)
      ((add_maxNumBins s i).trans hmn)

end CLStore

/-- C6 (confirmed): after any nonempty sequence of `Add`s on a
`CollapsingLowestDenseStore` with bin budget `maxNumBins ≥ 1`, the backing
slice length (and hence `maxIndex - minIndex + 1`) never exceeds
`maxNumBins`, and the `MaxIndex()` accessor returns the true maximum index
ever added. -/
theorem claim_C6_collapsing_lowest_bound (m : ℤ) (hm : 1 ≤ m) (x : ℤ) (l : List ℤ) :
    (((l.foldl CLStore.add ((CLStore.new m).add x)).bins.length : ℤ) ≤ m ∧
      (l.foldl CLStore.add ((CLStore.new m).add x)).maxIndex -
        (l.foldl CLStore.add ((CLStore.new m).add x)).minIndex + 1 ≤ m) ∧
    (l.foldl CLStore.add ((CLStore.new m).add x)).maxIndexGo = .ok (l.foldl max x) := by
  have hb := CLStore.add_inv_base m x hm
  have hmn : ((CLStore.new m).add x).maxNumBins = m := CLStore.add_maxNumBins _ _
  obtain ⟨hinv, hmn'⟩ := CLStore.foldl_add_inv m hm l _ x hb hmn
  have h1 := hinv.len_le
  have h2 := hinv.len_eq
  rw [hmn'] at h1
  exact ⟨⟨h1, by omega⟩, CLStore.maxIndexGo_eq hinv⟩

/-- Witness for C6 with budget `3` and adds `0, 1`. -/
theorem claim_C6_witness :
    (1:ℤ) ≤ 3 ∧
    ((((([1] : List ℤ).foldl CLStore.add ((CLStore.new 3).add 0)).bins.length : ℤ) ≤ 3 ∧
      (([1] : List ℤ).foldl CLStore.add ((CLStore.new 3).add 0)).maxIndex -
        (([1] : List ℤ).foldl CLStore.add ((CLStore.new 3).add 0)).minIndex + 1 ≤ 3) ∧
    (([1] : List ℤ).foldl CLStore.add ((CLStore.new 3).add 0)).maxIndexGo =
      .ok (([1] : List ℤ).foldl max 0)) :=
  ⟨by norm_num, claim_C6_collapsing_lowest_bound 3 (by norm_num) 0 [1]⟩

/-! ## BufferedPaginatedStore (store/buffered_paginated.go)

Counts live in fixed-size pages of `pageLen = 32` (`pageLenLog2 = 5`) counts,
held in a contiguous slice of pages starting at `minPageIndex`; indexes added
with count 1 whose page does not exist go into an unsorted buffer.  `none`
models a nil page; present pages always have 32 counts.  `minPageIndex =
none` models the `maxInt` sentinel.  Slice capacities and the page memory
pool are memory-level: the capacity part (`len(buffer) == cap(buffer)`) of
the compaction trigger in `Add` is modelled by an explicit boolean input
`capFull`, and a reused pool page is indistinguishable from a fresh
zero-filled page.  On 64-bit platforms `bufferEntrySize = countSize = 64`
bits, which is how the compaction-density threshold below is written. -/

theorem dropWhile_len_le {α : Type} (p : α → Bool) :
    ∀ l : List α, (l.dropWhile p).length ≤ l.length
  | [] => le_refl _
  | a :: l => by
    rw [List.dropWhile_cons]
    split
    · exact le_trans (dropWhile_len_le p l) (Nat.le_succ _)
    · exact le_refl _

structure BPStore where
  buffer : List ℤ
  bufferCompactionTriggerLen : ℕ
  pages : List (Option (List ℚ))
  minPageIndex : Option ℤ

/-- `NewBufferedPaginatedStore()`: empty buffer, trigger `2·pageLen`, no
pages, sentinel `minPageIndex`. -/
def BPStore.new : BPStore :=
  { buffer := [], bufferCompactionTriggerLen := 64, pages := [], minPageIndex := none }

namespace BPStore

/-- `pageIndex(index) = index >> pageLenLog2`: floor division by 32
(arithmetic shift), i.e. Euclidean division by the positive constant 32. -/
def pageIndex (i : ℤ) : ℤ := Int.ediv i 32

/-- `lineIndex(index) = index & pageLenMask`: `index mod 32`. -/
def lineIndex (i : ℤ) : ℕ := (Int.emod i 32).toNat

/-- `index(pageIndex, lineIndex) = pageIndex << pageLenLog2 + lineIndex`. -/
def posIndex (pi : ℤ) (li : ℕ) : ℤ := pi * 32 + li

/-- The pages-slice entry covering page number `pi`, when in range (the
in-range test of `page`/`Add`). -/
def pageAt (s : BPStore) (pi : ℤ) : Option (List ℚ) :=
  match s.minPageIndex with
  | some mp =>
    if mp ≤ pi ∧ pi < mp + s.pages.length then s.pages.getD (pi - mp).toNat none else none
  | none => none

/-- `makePage(i)`: materialize the page at slice position `pos` if it has no
counts yet (nil page, or an allocated-but-empty page left by `Clear`, or a
pool page — all observationally a fresh zero page). -/
def makePageAt (s : BPStore) (pos : ℕ) : BPStore :=
  if ((s.pages.getD pos none).getD []).length = 0 then
    { s with pages := s.pages.set pos (some (List.replicate 32 0)) }
  else s

/-- `page(pageIndex, true)`: extend the pages slice if needed (left extension
adds `minPageIndex - pageIndex + 1` nil pages in front; right extension pads
with nil pages; first use centers `pageIndex` in the existing slice) and
materialize the page. -/
def ensurePage (s : BPStore) (pi : ℤ) : BPStore :=
  match s.minPageIndex with
  | some mp =>
    if mp ≤ pi ∧ pi < mp + s.pages.length then makePageAt s (pi - mp).toNat
    else if pi < mp then
      let added := (mp - pi + 1).toNat
      makePageAt
        { s with pages := List.replicate added none ++ s.pages
                 minPageIndex := some (mp - added) }
        (pi - (mp - added)).toNat
    else
      makePageAt
        { s with pages := s.pages ++ List.replicate ((pi - mp + 1).toNat - s.pages.length) none }
        (pi - mp).toNat
  | none =>
    let pages0 := if s.pages.length = 0 then [none] else s.pages
    let mp := pi - (pages0.length / 2 : ℕ)
    makePageAt { s with pages := pages0, minPageIndex := some mp } (pi - mp).toNat

/-- `page[lineIndex] += c` on the (existing, in-range) page of `pi`. -/
def pageInc (s : BPStore) (pi : ℤ) (li : ℕ) (c : ℚ) : BPStore :=
  match s.minPageIndex with
  | some mp =>
    { s with
        pages := s.pages.set (pi - mp).toNat
          (some (binInc ((s.pages.getD (pi - mp).toNat none).getD []) li c)) }
  | none => s

/-- `sort.Slice(s.buffer, ...)`: sort the buffer ascending. -/
def sortBuf (l : List ℤ) : List ℤ := l.mergeSort (fun a b => decide (a ≤ b))

/-- The loop of `compact()` over the sorted buffer: group runs of indexes
falling on the same page; create the page only if the group would free at
least a page worth of buffer (`groupLen·64 ≥ 32·64` bits); replay a group
into its page whenever that page exists, otherwise keep it in the buffer. -/
def compactLoop : List ℤ → BPStore → List ℤ × BPStore
  | [], s => ([], s)
  | j :: rest, s =>
    let grp := j :: rest.takeWhile (fun x => pageIndex x = pageIndex j)
    let rest' := rest.dropWhile (fun x => pageIndex x = pageIndex j)
    let s' := if grp.length * 64 ≥ 32 * 64 then s.ensurePage (pageIndex j) else s
    match s'.pageAt (pageIndex j) with
    | some p =>
      if 0 < p.length then
        let s'' := grp.foldl (fun t x => t.pageInc (pageIndex x) (lineIndex x) 1) s'
        compactLoop rest' s''
      else
        let r := compactLoop rest' s'
        (grp ++ r.1, r.2)
    | none =>
      let r := compactLoop rest' s'
      (grp ++ r.1, r.2)
  termination_by l => l.length
  decreasing_by
    all_goals
      simp only [List.length_cons]
      have := dropWhile_len_le (fun x => decide (pageIndex x = pageIndex j)) rest
      omega

/-- `compact()`: sort, transfer groups, raise the compaction trigger. -/
def compact (s : BPStore) : BPStore :=
  let r := compactLoop (sortBuf s.buffer) s
  { r.2 with buffer := r.1, bufferCompactionTriggerLen := r.1.length + 32 }

/-- `Add(index)`: increment the line of an existing page, else (after a
compaction when the buffer is at capacity — `capFull` — and has reached the
trigger length) append to the buffer. -/
def add (s : BPStore) (i : ℤ) (capFull : Bool) : BPStore :=
  match s.pageAt (pageIndex i) with
  | some p =>
    if 0 < p.length then s.pageInc (pageIndex i) (lineIndex i) 1
    else
      let s := if capFull ∧ s.bufferCompactionTriggerLen ≤ s.buffer.length then s.compact else s
      { s with buffer := s.buffer ++ [i] }
  | none =>
    let s := if capFull ∧ s.bufferCompactionTriggerLen ≤ s.buffer.length then s.compact else s
    { s with buffer := s.buffer ++ [i] }

/-- `AddWithCount(index, count)`: no-op for `0`, `Add` for `1`, otherwise
materialize the page and add the count to its line. -/
def addWithCount (s : BPStore) (i : ℤ) (c : ℚ) (capFull : Bool) : BPStore :=
  if c = 0 then s
  else if c = 1 then s.add i capFull
  else (s.ensurePage (pageIndex i)).pageInc (pageIndex i) (lineIndex i) c

/-- The pages with their page numbers, in slice order. -/
def pagesSeq (s : BPStore) : List (ℤ × List ℚ) :=
  (List.range s.pages.length).map fun (off : ℕ) =>
    (s.minPageIndex.getD 0 + (off : ℤ), (s.pages.getD off none).getD [])

/-- The `(index, count)` pairs visited by the page part of the iteration, in
order: all lines of all pages. -/
def allPageEvents (s : BPStore) : List (ℤ × ℚ) :=
  (pagesSeq s).flatMap fun pc =>
    (List.range pc.2.length).map fun li => (posIndex pc.1 li, pc.2.getD li 0)

/-- The trailing loop of `ForEach`: emit the remaining buffer as runs of
equal indexes. -/
def bufRuns : List ℤ → List (ℤ × ℚ)
  | [] => []
  | b :: rest =>
    (b, (1 + (rest.takeWhile (· = b)).length : ℕ)) :: bufRuns (rest.dropWhile (· = b))
  termination_by l => l.length
  decreasing_by
    simp only [List.length_cons]
    have := dropWhile_len_le (fun x => decide (x = b)) rest
    omega

/-- The interleaving loops of `ForEach`: walk the page lines (skipping
zero counts), emitting buffered runs that fall before the current index and
merging a buffered run equal to it. -/
def feLoop : List (ℤ × ℚ) → List ℤ → List (ℤ × ℚ)
  | [], buf => bufRuns buf
  | (idx, c) :: evs, buf =>
    if c = 0 then feLoop evs buf
    else match buf with
      | [] => (idx, c) :: feLoop evs []
      | b :: rest =>
        if idx < b then (idx, c) :: feLoop evs (b :: rest)
        else
          let n : ℕ := 1 + (rest.takeWhile (· = b)).length
          let rest' := rest.dropWhile (· = b)
          if b = idx then (idx, c + n) :: feLoop evs rest'
          else (b, (n : ℚ)) :: feLoop ((idx, c) :: evs) rest'
  termination_by evs buf => (evs.length, buf.length)
  decreasing_by
    · simp only [List.length_cons]
      omega
    · simp only [List.length_cons]
      omega
    · simp only [List.length_cons]
      omega
    · simp only [List.length_cons]
      omega
    · simp only [List.length_cons]
      have := dropWhile_len_le (fun x => decide (x = b)) rest
      omega

/-- `ForEach` / `Bins()`: sort the buffer, then interleave it with the pages
in ascending index order. -/
def forEachBins (s : BPStore) : List (ℤ × ℚ) :=
  feLoop (allPageEvents s) (sortBuf s.buffer)

/-- The trailing buffer loop of `minIndexWithCumulCount`. -/
def micTail (pred : ℚ → Bool) : List ℤ → ℚ → Option ℤ
  | [], _ => none
  | b :: rest, cum => if pred (cum + 1) then some b else micTail pred rest (cum + 1)

/-- The main loop of `minIndexWithCumulCount`: accumulate counts over page
lines and interleaved buffered indexes, returning the first index at which
the predicate on the cumulative count holds. -/
def micLoop (pred : ℚ → Bool) : List (ℤ × ℚ) → List ℤ → ℚ → Option ℤ
  | [], buf, cum => micTail pred buf cum
  | (idx, c) :: evs, [], cum =>
    if pred (cum + c) then some idx else micLoop pred evs [] (cum + c)
  | (idx, c) :: evs, b :: buf, cum =>
    if b < idx then
      if pred (cum + 1) then some b else micLoop pred ((idx, c) :: evs) buf (cum + 1)
    else
      if pred (cum + c) then some idx else micLoop pred evs (b :: buf) (cum + c)
  termination_by evs buf => (evs.length, buf.length)

/-- `minIndexWithCumulCount` (the buffer is sorted first). -/
def minIndexWithCumulCount (s : BPStore) (pred : ℚ → Bool) : Option ℤ :=
  micLoop pred (allPageEvents s) (sortBuf s.buffer) 0

/-- The buffer pass of `MaxIndex()`. -/
def bufferMax (l : List ℤ) : Option ℤ :=
  l.foldl (fun acc i =>
    match acc with
    | none => some i
    | some m => if m < i then some i else some m) none

/-- The inner line scan of `MaxIndex()`: positions `start + fuel - 1` down to
`start`, first positive count. -/
def maxLineScan (p : List ℚ) (start : ℕ) : ℕ → Option ℕ
  | 0 => none
  | k + 1 => if 0 < p.getD (start + k) 0 then some (start + k) else maxLineScan p start k

/-- The page pass of `MaxIndex()`: pages from the top down, stopping below
the page of the buffer maximum. -/
def maxPagesLoop (bm : Option ℤ) : List (ℤ × List ℚ) → Option ℤ
  | [] => none
  | (pi, p) :: rest =>
    if (match bm with | none => true | some m => decide (pageIndex m ≤ pi)) then
      if p.length = 0 then maxPagesLoop bm rest
      else
        let start : ℕ := match bm with
          | some m => if pageIndex m = pi then lineIndex m else 0
          | none => 0
        match maxLineScan p start (p.length - start) with
        | some li => some (posIndex pi li)
        | none => maxPagesLoop bm rest
    else none

/-- `MaxIndex()` (buffered_paginated.go). -/
def maxIndexGo (s : BPStore) : Except String ℤ :=
  match maxPagesLoop (bufferMax s.buffer) (pagesSeq s).reverse with
  | some k => .ok k
  | none =>
    match bufferMax s.buffer with
    | some m => .ok m
    | none => .error "MaxIndex of empty store is undefined"

/-- `KeyAtRank` (buffered_paginated.go): clamp negative ranks to `0`, find
the least index whose cumulative count exceeds the rank, and fall back to
`MaxIndex()` (or `0` on an empty store). -/
def keyAtRank (s : BPStore) (rank : ℚ) : ℤ :=
  let rank := if rank < 0 then 0 else rank
  match s.minIndexWithCumulCount (fun c => decide (rank < c)) with
  | some k => k
  | none =>
    match s.maxIndexGo with
    | .ok m => m
    | .error _ => 0

/-- `TotalCount()`: buffered entries (count 1 each) plus all page counts. -/
def totalCount (s : BPStore) : ℚ :=
  (s.buffer.length : ℚ) + ((pagesSeq s).map (fun pc => pc.2.sum)).sum

/-- The logical content of the store: page count plus buffered multiplicity. -/
def content (s : BPStore) (i : ℤ) : ℚ :=
  (match s.pageAt (pageIndex i) with
   | some p => p.getD (lineIndex i) 0
   | none => 0) + (s.buffer.count i : ℚ)

/-! ### Streaming binary encoding of the store (C9).

The primitive encoders (`EncodeUvarint64`, `EncodeVarint64`,
`EncodeVarfloat64`, `EncodeFlag`) live in the `encoding` package, which is
not part of the sources at hand; each call is modelled from the spec as an
opaque token recording which encoder ran and with which value
(`Modelled from the spec:` §6.3 defines Uvarint64/Varint64/Varfloat64 as
distinct primitive encoders and the flag byte as a tagged byte).  The store
code under scrutiny is `Encode`/`DecodeAndMergeWith` themselves, which are
modelled from source over these tokens. -/

inductive EncTok where
  | flagIndexDeltas
  | flagContiguousCounts
  | uvarint (n : ℕ)
  | varint (z : ℤ)
  | varfloat (c : ℚ)
  deriving DecidableEq, Repr

/-- The delta loop of `Encode` for the buffered indexes. -/
def deltaToks : List ℤ → ℤ → List EncTok
  | [], _ => []
  | i :: rest, prev => .varint (i - prev) :: deltaToks rest i

/-- `BufferedPaginatedStore.Encode` (buffered_paginated.go): an
`IndexDeltas` chunk for the buffer when nonempty, then one
`ContiguousCounts` chunk per present page consisting of
`Uvarint64(len(page))`, `Varint64(pageStartIndex)` and the counts as
`Varfloat64` — no stride field is written. -/
def encode (s : BPStore) : List EncTok :=
  (if 0 < s.buffer.length then
    .flagIndexDeltas :: .uvarint s.buffer.length :: deltaToks s.buffer 0
  else []) ++
  (pagesSeq s).flatMap fun pc =>
    if 0 < pc.2.length then
      .flagContiguousCounts :: .uvarint pc.2.length :: .varint (posIndex pc.1 0) ::
        pc.2.map .varfloat
    else []

/-- The count loop of `DecodeAndMergeWith` for `ContiguousCounts`: walk the
lines of consecutive pages from `(pi, li)`, reading one `Varfloat64` per
remaining bin and adding it in place (the page is ensured once per page in
the source; ensuring before every write is the same state transformation, as
ensuring an existing page changes nothing). -/
def decCC : ℕ → ℤ → ℕ → BPStore → List EncTok → Except String (BPStore × List EncTok)
  | 0, _, _, s, toks => .ok (s, toks)
  | n + 1, pi, li, s, toks =>
    if li < 32 then
      match toks with
      | .varfloat c :: rest => decCC n pi (li + 1) ((s.ensurePage pi).pageInc pi li c) rest
      | _ => .error "EOF"
    else decCC (n + 1) (pi + 1) 0 s toks
  termination_by n _ li => 2 * n + (if 32 ≤ li then 1 else 0)
  decreasing_by
    · split <;> omega
    · have h32 : ¬ (32 ≤ 0) := by omega
      simp only [if_pos (by omega : 32 ≤ li), if_neg h32]
      omega

/-- The `BinEncodingContiguousCounts` branch of `DecodeAndMergeWith`
(buffered_paginated.go): read the number of bins and the start index — and
no stride — then merge the counts at consecutive indexes. -/
def decodeContiguous (s : BPStore) (toks : List EncTok) :
    Except String (BPStore × List EncTok) :=
  match toks with
  | .uvarint numBins :: rest =>
    match rest with
    | .varint indexOffset :: rest =>
      decCC numBins (pageIndex indexOffset) (lineIndex indexOffset) s rest
    | _ => .error "EOF"
  | _ => .error "EOF"


/-! ### Well-formedness and the page-level view of a `BPStore`. -/

theorem getDg_set_self {α : Type} (l : List α) {i : ℕ} (h : i < l.length) (c d : α) :
    (l.set i c).getD i d = c := by
  simp [List.getD_eq_getD_get?, List.getElem?_set_self', h]

theorem getDg_set_ne {α : Type} (l : List α) {i j : ℕ} (h : i ≠ j) (c d : α) :
    (l.set i c).getD j d = l.getD j d := by
  simp [List.getD_eq_getD_get?, List.getElem?_set_ne h]

theorem getDg_replicate {α : Type} {n i : ℕ} (h : i < n) (a d : α) :
    (List.replicate n a).getD i d = a := by
  simp [List.getD_eq_getD_get?, List.getElem?_replicate, h]

theorem getDg_ge {α : Type} (l : List α) {i : ℕ} (h : l.length ≤ i) (d : α) :
    l.getD i d = d := by
  simp [List.getD_eq_getD_get?, List.getElem?_eq_none (by omega : l.length ≤ i)]

theorem getDg_append_left {α : Type} (l₁ l₂ : List α) {i : ℕ} (h : i < l₁.length) (d : α) :
    (l₁ ++ l₂).getD i d = l₁.getD i d := by
  simp [List.getD_eq_getD_get?, List.getElem?_append_left h]

theorem getDg_append_right {α : Type} (l₁ l₂ : List α) {i : ℕ} (h : l₁.length ≤ i) (d : α) :
    (l₁ ++ l₂).getD i d = l₂.getD (i - l₁.length) d := by
  simp [List.getD_eq_getD_get?, List.getElem?_append_right h]

theorem getDg_mem {α : Type} (l : List α) {i : ℕ} (h : i < l.length) (d : α) :
    l.getD i d ∈ l := by
  rw [List.getD_eq_getElem l d h]
  exact List.getElem_mem h

/-- The count stored on line `li` of the page covering page number `j` (zero
when the page is absent). -/
def pageVal (s : BPStore) (j : ℤ) (li : ℕ) : ℚ := ((s.pageAt j).getD []).getD li 0

/-- Structural invariant of every reachable `BufferedPaginatedStore`: present
pages have exactly `pageLen = 32` lines, counts are nonnegative, and the
sentinel `minPageIndex` goes with an empty pages slice. -/
structure WF (s : BPStore) : Prop where
  plen : ∀ op ∈ s.pages, ∀ p : List ℚ, op = some p → p.length = 32
  pnn : ∀ op ∈ s.pages, ∀ p : List ℚ, op = some p → ∀ li : ℕ, 0 ≤ p.getD li 0
  sent : s.minPageIndex = none → s.pages = []

theorem pageAt_eq_some (s : BPStore) (mp : ℤ) (h : s.minPageIndex = some mp) (j : ℤ) :
    s.pageAt j = if mp ≤ j ∧ j < mp + s.pages.length
      then s.pages.getD (j - mp).toNat none else none := by
  simp [pageAt, h]

theorem getDg_replicate_zero (n li : ℕ) : (List.replicate n (0:ℚ)).getD li 0 = 0 := by
  by_cases h : li < n
  · rw [getDg_replicate h]
  · rw [getDg_ge _ (by simpa using h)]

theorem pageAt_some {s : BPStore} {pi : ℤ} {p : List ℚ} (h : s.pageAt pi = some p) :
    some p ∈ s.pages := by
  match hmp : s.minPageIndex with
  | none => rw [pageAt, hmp] at h; exact absurd h (by simp)
  | some mp =>
    rw [pageAt_eq_some s mp hmp] at h
    by_cases hr : mp ≤ pi ∧ pi < mp + s.pages.length
    · rw [if_pos hr] at h
      rw [← h]
      exact getDg_mem _ (by omega) _
    · rw [if_neg hr] at h; exact absurd h (by simp)

theorem wf_pageAt {s : BPStore} (h : WF s) {pi : ℤ} {p : List ℚ} (hp : s.pageAt pi = some p) :
    p.length = 32 ∧ ∀ li : ℕ, 0 ≤ p.getD li 0 :=
  ⟨h.plen _ (pageAt_some hp) p rfl, h.pnn _ (pageAt_some hp) p rfl⟩

theorem pageVal_nonneg {s : BPStore} (h : WF s) (j : ℤ) (li : ℕ) : 0 ≤ pageVal s j li := by
  unfold pageVal
  match hp : s.pageAt j with
  | none => simp
  | some p => simpa using (wf_pageAt h hp).2 li

theorem content_eq (s : BPStore) (i : ℤ) :
    content s i = pageVal s (pageIndex i) (lineIndex i) + (s.buffer.count i : ℚ) := by
  unfold content pageVal
  match hp : s.pageAt (pageIndex i) with
  | none => simp
  | some p => simp

theorem lineIndex_lt (i : ℤ) : lineIndex i < 32 := by
  have h1 : Int.emod i 32 = i % 32 := rfl
  unfold lineIndex
  omega

theorem posIndex_eta (i : ℤ) : posIndex (pageIndex i) (lineIndex i) = i := by
  have h1 : Int.ediv i 32 = i / 32 := rfl
  have h2 : Int.emod i 32 = i % 32 := rfl
  unfold posIndex pageIndex lineIndex
  omega

theorem pageIndex_posIndex (pi : ℤ) {li : ℕ} (h : li < 32) : pageIndex (posIndex pi li) = pi := by
  have h1 : Int.ediv (pi * 32 + li) 32 = (pi * 32 + li) / 32 := rfl
  unfold pageIndex posIndex
  omega

theorem lineIndex_posIndex (pi : ℤ) {li : ℕ} (h : li < 32) : lineIndex (posIndex pi li) = li := by
  have h2 : Int.emod (pi * 32 + li) 32 = (pi * 32 + li) % 32 := rfl
  unfold lineIndex posIndex
  omega

theorem posIndex_inj {pi pj : ℤ} {li lj : ℕ} (hi : li < 32) (hj : lj < 32) :
    posIndex pi li = posIndex pj lj ↔ pi = pj ∧ li = lj := by
  unfold posIndex
  omega

/-! Field- and value-level behaviour of `makePage`. -/

theorem makePageAt_buffer (s : BPStore) (pos : ℕ) : (makePageAt s pos).buffer = s.buffer := by
  unfold makePageAt; split <;> rfl

theorem makePageAt_trigger (s : BPStore) (pos : ℕ) :
    (makePageAt s pos).bufferCompactionTriggerLen = s.bufferCompactionTriggerLen := by
  unfold makePageAt; split <;> rfl

theorem makePageAt_mpi (s : BPStore) (pos : ℕ) :
    (makePageAt s pos).minPageIndex = s.minPageIndex := by
  unfold makePageAt; split <;> rfl

theorem makePageAt_length (s : BPStore) (pos : ℕ) :
    (makePageAt s pos).pages.length = s.pages.length := by
  unfold makePageAt; split <;> simp

theorem makePageAt_pageVal (s : BPStore) (pos : ℕ) (j : ℤ) (li : ℕ) :
    pageVal (makePageAt s pos) j li = pageVal s j li := by
  unfold makePageAt
  split
  case isFalse => rfl
  case isTrue hemp =>
    unfold pageVal
    match hmp : s.minPageIndex with
    | none => simp [pageAt, hmp]
    | some mp =>
      rw [pageAt_eq_some _ mp hmp, pageAt_eq_some _ mp (by simpa using hmp)]
      simp only [List.length_set]
      by_cases hr : mp ≤ j ∧ j < mp + s.pages.length
      · rw [if_pos hr, if_pos hr]
        by_cases hq : (j - mp).toNat = pos
        · rw [hq, getDg_set_self _ (by omega)]
          match hslot : s.pages.getD pos none with
          | none =>
            simp only [hslot, Option.getD_some, Option.getD_none, getDg_replicate_zero]
            simp
          | some p =>
            rw [hslot] at hemp
            simp only [Option.getD_some] at hemp
            have : p = [] := List.eq_nil_of_length_eq_zero hemp
            subst this
            simp only [hslot, Option.getD_some, Option.getD_none, getDg_replicate_zero]
            simp
        · rw [getDg_set_ne _ (fun h => hq h.symm)]
      · rw [if_neg hr, if_neg hr]

theorem makePageAt_WF {s : BPStore} (h : WF s) (pos : ℕ) : WF (makePageAt s pos) := by
  unfold makePageAt
  split
  case isFalse => exact h
  case isTrue hemp =>
    refine ⟨?_, ?_, ?_⟩
    · intro op hop p hp
      rcases List.mem_or_eq_of_mem_set hop with h1 | h1
      · exact h.plen op h1 p hp
      · rw [h1] at hp
        rw [← Option.some_inj.mp hp]
        simp
    · intro op hop p hp li
      rcases List.mem_or_eq_of_mem_set hop with h1 | h1
      · exact h.pnn op h1 p hp li
      · rw [h1] at hp
        rw [← Option.some_inj.mp hp, getDg_replicate_zero]
    · intro hnone
      have := h.sent hnone
      simp [this]

theorem makePageAt_pageAt_self {s : BPStore} {mp : ℤ} (hmp : s.minPageIndex = some mp)
    {pi : ℤ} (h1 : mp ≤ pi) (h2 : pi < mp + s.pages.length)
    (hW : ∀ p : List ℚ, s.pages.getD (pi - mp).toNat none = some p → p.length = 32) :
    ∃ p, (makePageAt s (pi - mp).toNat).pageAt pi = some p ∧ p.length = 32 := by
  unfold makePageAt
  split
  case isTrue hemp =>
    refine ⟨List.replicate 32 0, ?_, by simp⟩
    rw [pageAt_eq_some _ mp (by simpa using hmp)]
    simp only [List.length_set]
    rw [if_pos ⟨h1, h2⟩]
    exact getDg_set_self _ (by omega) _ _
  case isFalse hemp =>
    match hslot : s.pages.getD (pi - mp).toNat none with
    | none => rw [hslot] at hemp; simp at hemp
    | some p =>
      refine ⟨p, ?_, hW p hslot⟩
      rw [pageAt_eq_some _ mp hmp, if_pos ⟨h1, h2⟩, hslot]

theorem prepend_spec {s : BPStore} (h : WF s) {mp : ℤ} (hmp : s.minPageIndex = some mp) (a : ℕ) :
    WF { s with pages := List.replicate a none ++ s.pages,
                minPageIndex := some (mp - a) } ∧
    ∀ j li, pageVal { s with pages := List.replicate a none ++ s.pages,
                             minPageIndex := some (mp - a) } j li = pageVal s j li := by
  constructor
  · refine ⟨?_, ?_, ?_⟩
    · intro op hop p hp
      rcases List.mem_append.mp hop with h1 | h1
      · rw [List.eq_of_mem_replicate h1] at hp; exact absurd hp (by simp)
      · exact h.plen op h1 p hp
    · intro op hop p hp li
      rcases List.mem_append.mp hop with h1 | h1
      · rw [List.eq_of_mem_replicate h1] at hp; exact absurd hp (by simp)
      · exact h.pnn op h1 p hp li
    · intro hnone; exact absurd hnone (by simp)
  · intro j li
    unfold pageVal
    rw [pageAt_eq_some _ (mp - a) (by simp), pageAt_eq_some _ mp hmp]
    simp only [List.length_append, List.length_replicate]
    split_ifs with hA hB hB
    · by_cases hj : mp ≤ j
      · have hidx : (j - (mp - (a:ℤ))).toNat - a = (j - mp).toNat := by omega
        rw [getDg_append_right _ _ (by simp; omega), List.length_replicate, hidx]
      · exact absurd hB.1 hj
    · rw [getDg_append_left _ _ (by simp; push_cast at hA ⊢; omega),
        getDg_replicate (by push_cast at hA ⊢; omega)]
    · exact absurd ⟨by omega, by push_cast; omega⟩ hA
    · rfl

theorem append_spec {s : BPStore} (h : WF s) {mp : ℤ} (hmp : s.minPageIndex = some mp) (a : ℕ) :
    WF { s with pages := s.pages ++ List.replicate a none } ∧
    ∀ j li, pageVal { s with pages := s.pages ++ List.replicate a none } j li
      = pageVal s j li := by
  constructor
  · refine ⟨?_, ?_, ?_⟩
    · intro op hop p hp
      rcases List.mem_append.mp hop with h1 | h1
      · exact h.plen op h1 p hp
      · rw [List.eq_of_mem_replicate h1] at hp; exact absurd hp (by simp)
    · intro op hop p hp li
      rcases List.mem_append.mp hop with h1 | h1
      · exact h.pnn op h1 p hp li
      · rw [List.eq_of_mem_replicate h1] at hp; exact absurd hp (by simp)
    · intro hnone; exact absurd hnone (by simp [hmp])
  · intro j li
    unfold pageVal
    rw [pageAt_eq_some _ mp (by simp [hmp]), pageAt_eq_some _ mp hmp]
    simp only [List.length_append, List.length_replicate]
    split_ifs with hA hB hB
    · rw [getDg_append_left _ _ (by omega)]
    · rw [getDg_append_right _ _ (by omega),
        getDg_replicate (by push_cast at hA ⊢; omega)]
    · exact absurd ⟨hB.1, by push_cast; omega⟩ hA
    · rfl

theorem pageAt_none {s : BPStore} (h : s.minPageIndex = none) (j : ℤ) : s.pageAt j = none := by
  simp [pageAt, h]

theorem getD_singleton_none (n : ℕ) : ([none] : List (Option (List ℚ))).getD n none = none := by
  cases n <;> rfl

theorem makePageAt_spec {t : BPStore} {m : ℤ} (hmp : t.minPageIndex = some m)
    {pi : ℤ} {pos : ℕ} (hpos : (pi - m).toNat = pos) (h1 : m ≤ pi)
    (h2 : pi < m + t.pages.length)
    (hW32 : ∀ p : List ℚ, t.pages.getD pos none = some p → p.length = 32) :
    ∃ p, (makePageAt t pos).pageAt pi = some p ∧ p.length = 32 := by
  subst hpos
  exact makePageAt_pageAt_self hmp h1 h2 hW32

theorem ensurePage_spec {s : BPStore} (h : WF s) (pi : ℤ) :
    WF (s.ensurePage pi) ∧
    (s.ensurePage pi).buffer = s.buffer ∧
    (s.ensurePage pi).bufferCompactionTriggerLen = s.bufferCompactionTriggerLen ∧
    (∀ j li, pageVal (s.ensurePage pi) j li = pageVal s j li) ∧
    ∃ p, (s.ensurePage pi).pageAt pi = some p ∧ p.length = 32 := by
  match hmp : s.minPageIndex with
  | some mp =>
    simp only [ensurePage, hmp]
    by_cases hr : mp ≤ pi ∧ pi < mp + s.pages.length
    · rw [if_pos hr]
      refine ⟨makePageAt_WF h _, makePageAt_buffer _ _, makePageAt_trigger _ _,
        fun j li => makePageAt_pageVal _ _ j li,
        makePageAt_spec hmp rfl hr.1 hr.2 ?_⟩
      intro p hp
      have hm := getDg_mem s.pages (show (pi - mp).toNat < s.pages.length by omega) none
      rw [hp] at hm
      exact h.plen _ hm p rfl
    · rw [if_neg hr]
      by_cases hlt : pi < mp
      · rw [if_pos hlt]
        obtain ⟨hWt, hPVt⟩ := prepend_spec h hmp (mp - pi + 1).toNat
        refine ⟨makePageAt_WF hWt _, ?_, ?_, ?_, ?_⟩
        · rw [makePageAt_buffer]
        · rw [makePageAt_trigger]
        · intro j li
          exact (makePageAt_pageVal _ _ j li).trans (hPVt j li)
        · refine makePageAt_spec (t := { s with
              pages := List.replicate (mp - pi + 1).toNat none ++ s.pages,
              minPageIndex := some (mp - ((mp - pi + 1).toNat : ℤ)) })
            rfl rfl (by omega) (by simp; omega) ?_
          intro p hp
          have hp' : (List.replicate (mp - pi + 1).toNat none ++ s.pages).getD
              (pi - (mp - ((mp - pi + 1).toNat : ℤ))).toNat none = some p := hp
          rw [getDg_append_left _ _ (by simp; omega), getDg_replicate (by omega)] at hp'
          exact absurd hp' (by simp)
      · rw [if_neg hlt]
        obtain ⟨hWt, hPVt⟩ := append_spec h hmp ((pi - mp + 1).toNat - s.pages.length)
        rw [hmp] at hWt hPVt
        refine ⟨makePageAt_WF hWt _, ?_, ?_, ?_, ?_⟩
        · rw [makePageAt_buffer]
        · rw [makePageAt_trigger]
        · intro j li
          exact (makePageAt_pageVal _ _ j li).trans (hPVt j li)
        · refine makePageAt_spec (t := { s with
              pages := s.pages ++ List.replicate ((pi - mp + 1).toNat - s.pages.length) none,
              minPageIndex := some mp })
            rfl rfl (by omega) (by simp; omega) ?_
          intro p hp
          have hp' : (s.pages ++ List.replicate ((pi - mp + 1).toNat - s.pages.length) none).getD
              (pi - mp).toNat none = some p := hp
          rw [getDg_append_right _ _ (by omega), getDg_replicate (by omega)] at hp'
          exact absurd hp' (by simp)
  | none =>
    have hp0 : s.pages = [] := h.sent hmp
    simp only [ensurePage, hmp, hp0]
    norm_num
    refine ⟨makePageAt_WF ?_ 0, makePageAt_buffer _ _, makePageAt_trigger _ _, ?_,
      makePageAt_spec (m := pi) rfl (by omega) (by omega) (by simp) ?_⟩
    · refine ⟨?_, ?_, ?_⟩
      · intro op hop p hp
        rw [List.mem_singleton] at hop
        rw [hop] at hp
        exact absurd hp (by simp)
      · intro op hop p hp li
        rw [List.mem_singleton] at hop
        rw [hop] at hp
        exact absurd hp (by simp)
      · intro hx; exact absurd hx (by simp)
    · intro j li
      refine (makePageAt_pageVal _ _ j li).trans ?_
      unfold pageVal
      rw [pageAt_eq_some _ pi rfl, pageAt_none hmp]
      split_ifs
      · rw [getD_singleton_none]
      · rfl
    · intro p hp
      rw [getD_singleton_none] at hp
      exact absurd hp (by simp)

theorem pageInc_buffer (s : BPStore) (pi : ℤ) (li : ℕ) (c : ℚ) :
    (pageInc s pi li c).buffer = s.buffer := by
  unfold pageInc; split <;> rfl

theorem pageInc_trigger (s : BPStore) (pi : ℤ) (li : ℕ) (c : ℚ) :
    (pageInc s pi li c).bufferCompactionTriggerLen = s.bufferCompactionTriggerLen := by
  unfold pageInc; split <;> rfl

theorem pageInc_spec {s : BPStore} (h : WF s) {pi : ℤ} {p : List ℚ}
    (hp : s.pageAt pi = some p) (hlen : p.length = 32) {li : ℕ} (hli : li < 32)
    {c : ℚ} (hc : 0 ≤ c) :
    WF (pageInc s pi li c) ∧
    (pageInc s pi li c).pageAt pi = some (binInc p li c) ∧
    ∀ j lj, pageVal (pageInc s pi li c) j lj
      = pageVal s j lj + (if j = pi ∧ lj = li then c else 0) := by
  match hmp : s.minPageIndex with
  | none => rw [pageAt_none hmp] at hp; exact absurd hp (by simp)
  | some mp =>
    rw [pageAt_eq_some _ mp hmp] at hp
    by_cases hr : mp ≤ pi ∧ pi < mp + s.pages.length
    swap
    · rw [if_neg hr] at hp; exact absurd hp (by simp)
    rw [if_pos hr] at hp
    have hplen : p.length = 32 := hlen
    simp only [pageInc, hmp, hp, Option.getD_some]
    refine ⟨⟨?_, ?_, ?_⟩, ?_, ?_⟩
    · intro op hop q hq
      rcases List.mem_or_eq_of_mem_set hop with h1 | h1
      · exact h.plen op h1 q hq
      · rw [h1] at hq
        rw [← Option.some_inj.mp hq, length_binInc, hplen]
    · intro op hop q hq lj
      rcases List.mem_or_eq_of_mem_set hop with h1 | h1
      · exact h.pnn op h1 q hq lj
      · rw [h1] at hq
        rw [← Option.some_inj.mp hq]
        exact getD_binInc_nonneg p li c hc (h.pnn _ (by rw [← hp]; exact getDg_mem _ (by omega) _) p rfl) lj
    · intro hx; exact absurd hx (by simp [hmp])
    · rw [pageAt_eq_some _ mp (by simp [hmp])]
      simp only [List.length_set]
      rw [if_pos hr]
      exact getDg_set_self _ (by omega) _ _
    · intro j lj
      unfold pageVal
      rw [pageAt_eq_some _ mp (by simp [hmp]), pageAt_eq_some _ mp hmp]
      simp only [List.length_set]
      by_cases hjr : mp ≤ j ∧ j < mp + s.pages.length
      · rw [if_pos hjr, if_pos hjr]
        by_cases hj : j = pi
        · subst hj
          rw [getDg_set_self _ (by omega), hp]
          simp only [Option.getD_some]
          by_cases hlj : lj = li
          · subst hlj
            rw [getD_binInc_self p (by omega)]
            simp
          · rw [getD_binInc_ne p (fun hx => hlj hx.symm), if_neg (by tauto)]
            ring
        · rw [getDg_set_ne _ (fun hx => hj (by omega)), if_neg (by tauto)]
          ring
      · rw [if_neg hjr, if_neg hjr, if_neg (by rintro ⟨rfl, rfl⟩; exact hjr hr)]
        ring

theorem foldl_pageInc_spec : ∀ (grp : List ℤ) (pj : ℤ), (∀ x ∈ grp, pageIndex x = pj) →
    ∀ (s : BPStore), WF s → ∀ (p : List ℚ), s.pageAt pj = some p → p.length = 32 →
    WF (grp.foldl (fun t x => t.pageInc (pageIndex x) (lineIndex x) 1) s) ∧
    (grp.foldl (fun t x => t.pageInc (pageIndex x) (lineIndex x) 1) s).buffer = s.buffer ∧
    (grp.foldl (fun t x => t.pageInc (pageIndex x) (lineIndex x) 1) s).bufferCompactionTriggerLen
      = s.bufferCompactionTriggerLen ∧
    ∀ i : ℤ, pageVal (grp.foldl (fun t x => t.pageInc (pageIndex x) (lineIndex x) 1) s)
        (pageIndex i) (lineIndex i)
      = pageVal s (pageIndex i) (lineIndex i) + (grp.count i : ℚ)
  | [], pj, hg, s, hW, p, hp, hl => ⟨hW, rfl, rfl, fun i => by simp⟩
  | x :: grp', pj, hg, s, hW, p, hp, hl => by
    have hx : pageIndex x = pj := hg x (List.mem_cons_self x grp')
    simp only [List.foldl_cons]
    rw [hx]
    obtain ⟨hW1, hp1, hv1⟩ := pageInc_spec hW hp hl (lineIndex_lt x) (by norm_num : (0:ℚ) ≤ 1)
    obtain ⟨hW2, hb2, ht2, hv2⟩ := foldl_pageInc_spec grp' pj
      (fun y hy => hg y (List.mem_cons_of_mem x hy))
      (s.pageInc pj (lineIndex x) 1) hW1 (binInc p (lineIndex x) 1) hp1
      (by rw [length_binInc, hl])
    refine ⟨hW2, hb2.trans (pageInc_buffer _ _ _ _), ht2.trans (pageInc_trigger _ _ _ _), ?_⟩
    intro i
    rw [hv2 i, hv1 (pageIndex i) (lineIndex i), List.count_cons]
    by_cases hix : i = x
    · subst hix
      simp [hx]
      ring
    · have hne : ¬(pageIndex i = pj ∧ lineIndex i = lineIndex x) := fun h =>
        hix (by rw [← posIndex_eta i, h.1, h.2, ← hx, posIndex_eta])
      simp [hix, hne]
      omega
theorem compactLoop_spec : ∀ (n : ℕ) (buf : List ℤ), buf.length ≤ n → ∀ (s : BPStore), WF s →
    WF (compactLoop buf s).2 ∧
    (compactLoop buf s).2.buffer = s.buffer ∧
    (compactLoop buf s).2.bufferCompactionTriggerLen = s.bufferCompactionTriggerLen ∧
    ∀ i : ℤ, pageVal (compactLoop buf s).2 (pageIndex i) (lineIndex i)
        + ((compactLoop buf s).1.count i : ℚ)
      = pageVal s (pageIndex i) (lineIndex i) + (buf.count i : ℚ)
  | n, [], _, s, hW => by
    have h : compactLoop [] s = ([], s) := by simp [compactLoop]
    rw [h]
    exact ⟨hW, rfl, rfl, fun i => by simp⟩
  | 0, j :: rest, hlen, s, hW => by simp at hlen
  | n + 1, j :: rest, hlen, s, hW => by
    have hsplit : (j :: rest.takeWhile (fun x => decide (pageIndex x = pageIndex j)))
        ++ rest.dropWhile (fun x => decide (pageIndex x = pageIndex j)) = j :: rest := by
      simp [List.takeWhile_append_dropWhile]
    have hrlen : (rest.dropWhile (fun x => decide (pageIndex x = pageIndex j))).length ≤ n := by
      have := dropWhile_len_le (fun x => decide (pageIndex x = pageIndex j)) rest
      simp only [List.length_cons] at hlen
      omega
    have hgrp : ∀ x ∈ j :: rest.takeWhile (fun x => decide (pageIndex x = pageIndex j)),
        pageIndex x = pageIndex j := by
      intro x hx
      rcases List.mem_cons.mp hx with h1 | h1
      · rw [h1]
      · simpa using List.mem_takeWhile_imp h1
    have hcnt : ∀ i : ℤ, (j :: rest).count i
        = (j :: rest.takeWhile (fun x => decide (pageIndex x = pageIndex j))).count i
          + (rest.dropWhile (fun x => decide (pageIndex x = pageIndex j))).count i := by
      intro i
      rw [← hsplit, List.count_append]
    simp only [compactLoop]
    by_cases hbig : (j :: rest.takeWhile
        (fun x => decide (pageIndex x = pageIndex j))).length * 64 ≥ 32 * 64
    · simp only [if_pos hbig]
      obtain ⟨hW', hbuf', htrig', hval', p₀, hp₀, hl₀⟩ := ensurePage_spec hW (pageIndex j)
      split
      next p heq =>
        have hpp : p = p₀ := by rw [heq] at hp₀; exact Option.some_inj.mp hp₀
        have hl : p.length = 32 := by rw [hpp, hl₀]
        split
        next h0 =>
          obtain ⟨hFW, hFb, hFt, hFv⟩ := foldl_pageInc_spec _ (pageIndex j) hgrp _ hW' p heq hl
          obtain ⟨hRW, hRb, hRt, hRv⟩ := compactLoop_spec n _ hrlen _ hFW
          refine ⟨hRW, hRb.trans (hFb.trans hbuf'), hRt.trans (hFt.trans htrig'), ?_⟩
          intro i
          rw [hRv i, hFv i, hval' (pageIndex i) (lineIndex i), hcnt i]
          push_cast
          ring
        next h0 => omega
      next heq => rw [heq] at hp₀; exact absurd hp₀ (by simp)
    · simp only [if_neg hbig]
      split
      next p heq =>
        split
        next h0 =>
          have hl : p.length = 32 := (wf_pageAt hW heq).1
          obtain ⟨hFW, hFb, hFt, hFv⟩ := foldl_pageInc_spec _ (pageIndex j) hgrp _ hW p heq hl
          obtain ⟨hRW, hRb, hRt, hRv⟩ := compactLoop_spec n _ hrlen _ hFW
          refine ⟨hRW, hRb.trans hFb, hRt.trans hFt, ?_⟩
          intro i
          rw [hRv i, hFv i, hcnt i]
          push_cast
          ring
        next h0 =>
          obtain ⟨hRW, hRb, hRt, hRv⟩ := compactLoop_spec n _ hrlen _ hW
          refine ⟨hRW, hRb, hRt, ?_⟩
          intro i
          simp only [List.count_append]
          rw [hcnt i]
          have := hRv i
          push_cast at this ⊢
          linarith
      next heq =>
        obtain ⟨hRW, hRb, hRt, hRv⟩ := compactLoop_spec n _ hrlen _ hW
        refine ⟨hRW, hRb, hRt, ?_⟩
        intro i
        simp only [List.count_append]
        rw [hcnt i]
        have := hRv i
        push_cast at this ⊢
        linarith

theorem sortBuf_sorted (l : List ℤ) : List.Sorted (· ≤ ·) (sortBuf l) := by
  refine List.Pairwise.imp ?_ (List.sorted_mergeSort ?_ ?_ l)
  · intro a b hab; exact of_decide_eq_true hab
  · intro a b c hab hbc
    simp only [decide_eq_true_eq] at *
    omega
  · intro a b
    simp only [Bool.or_eq_true, decide_eq_true_eq]
    omega

theorem sortBuf_count (l : List ℤ) (i : ℤ) : (sortBuf l).count i = l.count i :=
  (List.mergeSort_perm l _).count_eq i

theorem eq_iff_page_line (k i : ℤ) :
    (pageIndex k = pageIndex i ∧ lineIndex k = lineIndex i) ↔ k = i := by
  constructor
  · intro h
    rw [← posIndex_eta k, h.1, h.2, posIndex_eta]
  · intro h
    rw [h]
    exact ⟨rfl, rfl⟩

theorem compact_spec {s : BPStore} (h : WF s) :
    WF (compact s) ∧ ∀ i, content (compact s) i = content s i := by
  obtain ⟨hRW, hRb, hRt, hRv⟩ :=
    compactLoop_spec (sortBuf s.buffer).length (sortBuf s.buffer) (le_refl _) s h
  constructor
  · exact ⟨hRW.plen, hRW.pnn, hRW.sent⟩
  · intro i
    rw [content_eq, content_eq]
    have hpv : pageVal (compact s) (pageIndex i) (lineIndex i)
        = pageVal (compactLoop (sortBuf s.buffer) s).2 (pageIndex i) (lineIndex i) := rfl
    have hbc : (compact s).buffer = (compactLoop (sortBuf s.buffer) s).1 := rfl
    rw [hpv, hbc]
    have := hRv i
    rw [sortBuf_count] at this
    linarith

theorem bufferAppend_spec {t : BPStore} (hW : WF t) (i : ℤ) :
    WF { t with buffer := t.buffer ++ [i] } ∧
    ∀ k, content { t with buffer := t.buffer ++ [i] } k
      = content t k + (if k = i then 1 else 0) := by
  constructor
  · exact ⟨hW.plen, hW.pnn, hW.sent⟩
  · intro k
    rw [content_eq, content_eq]
    have hpv : pageVal { t with buffer := t.buffer ++ [i] } (pageIndex k) (lineIndex k)
        = pageVal t (pageIndex k) (lineIndex k) := rfl
    rw [hpv]
    show _ + ((t.buffer ++ [i]).count k : ℚ) = _
    rw [List.count_append, List.count_singleton]
    by_cases hk : k = i
    · subst hk
      simp
      ring
    · rw [if_neg hk, beq_eq_false_iff_ne.mpr (fun hx : i = k => hk hx.symm)]
      simp

theorem add_spec {s : BPStore} (h : WF s) (i : ℤ) (cf : Bool) :
    WF (add s i cf) ∧
    ∀ k, content (add s i cf) k = content s k + (if k = i then 1 else 0) := by
  have hbase : ∀ t : BPStore, WF t → (∀ k, content t k = content s k) →
      WF { t with buffer := t.buffer ++ [i] } ∧
      ∀ k, content { t with buffer := t.buffer ++ [i] } k
        = content s k + (if k = i then 1 else 0) := by
    intro t hWt hct
    obtain ⟨hW1, hc1⟩ := bufferAppend_spec hWt i
    exact ⟨hW1, fun k => by rw [hc1 k, hct k]⟩
  have hcond : ∀ u : BPStore, u = (if cf = true ∧ s.bufferCompactionTriggerLen ≤ s.buffer.length
        then s.compact else s) →
      WF u ∧ ∀ k, content u k = content s k := by
    intro u hu
    by_cases hcc : cf = true ∧ s.bufferCompactionTriggerLen ≤ s.buffer.length
    · rw [if_pos hcc] at hu
      subst hu
      exact ⟨(compact_spec h).1, (compact_spec h).2⟩
    · rw [if_neg hcc] at hu
      subst hu
      exact ⟨h, fun k => rfl⟩
  rcases hpm : s.pageAt (pageIndex i) with _ | p
  · simp only [add, hpm]
    obtain ⟨hWu, hcu⟩ := hcond _ rfl
    exact hbase _ hWu hcu
  · simp only [add, hpm]
    by_cases h0 : 0 < p.length
    · rw [if_pos h0]
      have hl : p.length = 32 := (wf_pageAt h hpm).1
      obtain ⟨hW1, hp1, hv1⟩ := pageInc_spec h hpm hl (lineIndex_lt i) (by norm_num : (0:ℚ) ≤ 1)
      refine ⟨hW1, ?_⟩
      intro k
      rw [content_eq, content_eq, hv1 (pageIndex k) (lineIndex k)]
      have hbuf : (s.pageInc (pageIndex i) (lineIndex i) 1).buffer = s.buffer :=
        pageInc_buffer _ _ _ _
      rw [hbuf]
      by_cases hk : k = i
      · subst hk
        rw [if_pos ⟨rfl, rfl⟩, if_pos rfl]
        ring
      · rw [if_neg (fun hx => hk ((eq_iff_page_line k i).mp hx)), if_neg hk]
        ring
    · rw [if_neg h0]
      obtain ⟨hWu, hcu⟩ := hcond _ rfl
      exact hbase _ hWu hcu

theorem addWithCount_spec {s : BPStore} (h : WF s) (i : ℤ) {c : ℚ} (hc : 0 ≤ c) (cf : Bool) :
    WF (addWithCount s i c cf) ∧
    ∀ k, content (addWithCount s i c cf) k = content s k + (if k = i then c else 0) := by
  by_cases h0 : c = 0
  · subst h0
    simp only [addWithCount, if_pos rfl]
    exact ⟨h, fun k => by simp⟩
  · by_cases h1 : c = 1
    · subst h1
      simp only [addWithCount, if_neg h0, if_pos rfl]
      exact add_spec h i cf
    · simp only [addWithCount, if_neg h0, if_neg h1]
      obtain ⟨hW', hbuf', htrig', hval', p₀, hp₀, hl₀⟩ := ensurePage_spec h (pageIndex i)
      obtain ⟨hW1, hp1, hv1⟩ := pageInc_spec hW' hp₀ hl₀ (lineIndex_lt i) hc
      refine ⟨hW1, ?_⟩
      intro k
      rw [content_eq, content_eq, hv1 (pageIndex k) (lineIndex k),
        hval' (pageIndex k) (lineIndex k)]
      have hbuf : ((s.ensurePage (pageIndex i)).pageInc (pageIndex i) (lineIndex i) c).buffer
          = s.buffer := by rw [pageInc_buffer, hbuf']
      rw [hbuf]
      by_cases hk : k = i
      · subst hk
        rw [if_pos ⟨rfl, rfl⟩, if_pos rfl]
        ring
      · rw [if_neg (fun hx => hk ((eq_iff_page_line k i).mp hx)), if_neg hk]
        ring

/-! ### Accounting for the iteration events of the pages. -/

/-- Total count that the event list attributes to index `i`. -/
def Mev (evs : List (ℤ × ℚ)) (i : ℤ) : ℚ :=
  ((evs.filter (fun e => e.1 = i)).map Prod.snd).sum

theorem Mev_nil (i : ℤ) : Mev [] i = 0 := rfl

theorem Mev_cons (a : ℤ × ℚ) (evs : List (ℤ × ℚ)) (i : ℤ) :
    Mev (a :: evs) i = (if a.1 = i then a.2 else 0) + Mev evs i := by
  by_cases h : a.1 = i
  · simp [Mev, List.filter_cons, h]
  · simp [Mev, List.filter_cons, h]

theorem Mev_append (l₁ l₂ : List (ℤ × ℚ)) (i : ℤ) :
    Mev (l₁ ++ l₂) i = Mev l₁ i + Mev l₂ i := by
  unfold Mev
  rw [List.filter_append, List.map_append, List.sum_append]

theorem Mev_flatMap {α : Type} (l : List α) (f : α → List (ℤ × ℚ)) (i : ℤ) :
    Mev (l.flatMap f) i = (l.map fun a => Mev (f a) i).sum := by
  induction l with
  | nil => rfl
  | cons a l ih =>
    rw [List.flatMap_cons, Mev_append, ih, List.map_cons, List.sum_cons]

theorem sum_range_single (f : ℕ → ℚ) (k : ℕ) :
    ∀ n, (∀ off, off < n → off ≠ k → f off = 0) →
    ((List.range n).map f).sum = if k < n then f k else 0
  | 0, _ => by simp
  | n + 1, hf => by
    rw [List.range_succ, List.map_append, List.sum_append,
      sum_range_single f k n (fun off h1 h2 => hf off (by omega) h2)]
    simp only [List.map_cons, List.map_nil, List.sum_cons, List.sum_nil]
    by_cases hk : k < n
    · rw [if_pos hk, if_pos (by omega), hf n (by omega) (by omega)]
      ring
    · by_cases hk2 : k = n
      · subst hk2
        rw [if_neg hk, if_pos (by omega)]
        ring
      · rw [if_neg hk, if_neg (by omega), hf n (by omega) (by omega)]
        ring

theorem Mev_pageEvents (pi : ℤ) (p : List ℚ) (i : ℤ) :
    ∀ n, n ≤ 32 →
    Mev ((List.range n).map fun li => (posIndex pi li, p.getD li 0)) i
      = if pageIndex i = pi ∧ lineIndex i < n then p.getD (lineIndex i) 0 else 0
  | 0, _ => by simp [Mev]
  | n + 1, h32 => by
    rw [List.range_succ, List.map_append, Mev_append,
      Mev_pageEvents pi p i n (by omega)]
    simp only [List.map_cons, List.map_nil]
    rw [Mev_cons, Mev_nil]
    by_cases hpi : pageIndex i = pi
    · by_cases hlt : lineIndex i < n
      · have c1 : pageIndex i = pi ∧ lineIndex i < n := ⟨hpi, hlt⟩
        have c2 : pageIndex i = pi ∧ lineIndex i < n + 1 := ⟨hpi, by omega⟩
        have c3 : ¬ posIndex pi n = i := fun hx => by
          rw [← hx, lineIndex_posIndex pi (show n < 32 by omega)] at hlt
          omega
        rw [if_pos c1, if_pos c2, if_neg c3]
        ring
      · by_cases heq : lineIndex i = n
        · have c1 : ¬ (pageIndex i = pi ∧ lineIndex i < n) := fun hx => hlt hx.2
          have c2 : pageIndex i = pi ∧ lineIndex i < n + 1 := ⟨hpi, by omega⟩
          have c3 : posIndex pi n = i := by rw [← hpi, ← heq, posIndex_eta]
          rw [if_neg c1, if_pos c2, if_pos c3, heq]
          ring
        · have c1 : ¬ (pageIndex i = pi ∧ lineIndex i < n) := fun hx => hlt hx.2
          have c2 : ¬ (pageIndex i = pi ∧ lineIndex i < n + 1) := fun hx => by
            obtain ⟨_, h2⟩ := hx
            exact heq (by omega)
          have c3 : ¬ posIndex pi n = i := fun hx =>
            heq (by rw [← hx, lineIndex_posIndex pi (show n < 32 by omega)])
          rw [if_neg c1, if_neg c2, if_neg c3]
          ring
    · have c1 : ¬ (pageIndex i = pi ∧ lineIndex i < n) := fun hx => hpi hx.1
      have c2 : ¬ (pageIndex i = pi ∧ lineIndex i < n + 1) := fun hx => hpi hx.1
      have c3 : ¬ posIndex pi n = i := fun hx =>
        hpi (by rw [← hx, pageIndex_posIndex pi (show n < 32 by omega)])
      rw [if_neg c1, if_neg c2, if_neg c3]
      ring

theorem Mev_allPageEvents {s : BPStore} (h : WF s) (i : ℤ) :
    Mev (allPageEvents s) i = pageVal s (pageIndex i) (lineIndex i) := by
  unfold allPageEvents
  rw [Mev_flatMap]
  unfold pagesSeq
  rw [List.map_map]
  match hmp : s.minPageIndex with
  | none =>
    have hp0 := h.sent hmp
    simp [hp0, pageVal, pageAt_none hmp]
  | some mp =>
    simp only [Function.comp_def, hmp, Option.getD_some]
    have hlen32 : ∀ off : ℕ, off < s.pages.length →
        ((s.pages.getD off none).getD []).length ≤ 32 := by
      intro off hoff
      match hslot : s.pages.getD off none with
      | none => simp
      | some p =>
        have hm := getDg_mem s.pages hoff none
        rw [hslot] at hm
        rw [Option.getD_some, h.plen _ hm p rfl]
    have hterm : ∀ off : ℕ, off < s.pages.length →
        Mev (List.map (fun li => (posIndex (mp + (off:ℤ)) li,
              ((s.pages.getD off none).getD []).getD li 0))
            (List.range ((s.pages.getD off none).getD []).length)) i
          = if pageIndex i = mp + off ∧ lineIndex i < ((s.pages.getD off none).getD []).length
            then ((s.pages.getD off none).getD []).getD (lineIndex i) 0 else 0 :=
      fun off hoff => Mev_pageEvents _ _ _ _ (hlen32 off hoff)
    by_cases hr : mp ≤ pageIndex i ∧ pageIndex i < mp + s.pages.length
    · rw [sum_range_single _ (pageIndex i - mp).toNat _ (fun off h1 h2 => by
        rw [hterm off h1]
        exact if_neg (fun hx => h2 (by omega)))]
      rw [if_pos (by omega), hterm _ (by omega)]
      unfold pageVal
      rw [pageAt_eq_some _ mp hmp, if_pos hr]
      match hslot : s.pages.getD (pageIndex i - mp).toNat none with
      | none => simp
      | some p =>
        have hm := getDg_mem s.pages (show (pageIndex i - mp).toNat < s.pages.length by omega) none
        rw [hslot] at hm
        simp only [Option.getD_some]
        have hc : pageIndex i = mp + ((pageIndex i - mp).toNat : ℤ) ∧ lineIndex i < p.length :=
          ⟨by omega, by rw [h.plen _ hm p rfl]; exact lineIndex_lt i⟩
        rw [if_pos hc]
    · rw [List.sum_eq_zero (fun x hx => by
        obtain ⟨off, hoff, rfl⟩ := List.mem_map.mp hx
        rw [List.mem_range] at hoff
        rw [hterm off hoff]
        exact if_neg (fun hc => hr (by constructor <;> omega)))]
      unfold pageVal
      rw [pageAt_eq_some _ mp hmp, if_neg hr]
      simp

theorem pagesSeq_snd {s : BPStore} {pc : ℤ × List ℚ} (hpc : pc ∈ pagesSeq s) :
    pc.2 = [] ∨ some pc.2 ∈ s.pages := by
  unfold pagesSeq at hpc
  obtain ⟨off, hoff, heq⟩ := List.mem_map.mp hpc
  rw [List.mem_range] at hoff
  match hslot : s.pages.getD off none with
  | none =>
    left
    rw [← heq]
    show (s.pages.getD off none).getD [] = []
    rw [hslot]
    rfl
  | some p =>
    right
    have hm := getDg_mem s.pages hoff none
    rw [hslot] at hm
    rw [← heq]
    show some ((s.pages.getD off none).getD []) ∈ s.pages
    rw [hslot]
    simpa using hm

theorem pagesSeq_len_le {s : BPStore} (h : WF s) :
    ∀ pc ∈ pagesSeq s, pc.2.length ≤ 32 := by
  intro pc hpc
  rcases pagesSeq_snd hpc with h1 | h1
  · rw [h1]; simp
  · rw [h.plen _ h1 pc.2 rfl]

theorem allPageEvents_nonneg {s : BPStore} (h : WF s) :
    ∀ e ∈ allPageEvents s, 0 ≤ e.2 := by
  intro e he
  unfold allPageEvents at he
  rw [List.mem_flatMap] at he
  obtain ⟨pc, hpc, hepc⟩ := he
  obtain ⟨li, hli, heq⟩ := List.mem_map.mp hepc
  rw [← heq]
  rcases pagesSeq_snd hpc with h1 | h1
  · show 0 ≤ pc.2.getD li 0
    rw [h1]
    simp
  · exact h.pnn _ h1 pc.2 rfl li

theorem pagesSeq_pairwise (s : BPStore) :
    List.Pairwise (fun a b : ℤ × List ℚ => a.1 < b.1) (pagesSeq s) := by
  unfold pagesSeq
  rw [List.pairwise_map]
  exact (List.pairwise_lt_range s.pages.length).imp fun {a b} hab => by
    have hab' : a < b := hab
    show s.minPageIndex.getD 0 + (a:ℤ) < s.minPageIndex.getD 0 + (b:ℤ)
    omega

theorem allPageEvents_pairwise {s : BPStore} (h : WF s) :
    List.Pairwise (fun a b : ℤ × ℚ => a.1 < b.1) (allPageEvents s) := by
  unfold allPageEvents
  rw [List.pairwise_flatMap]
  constructor
  · intro pc hpc
    rw [List.pairwise_map]
    exact (List.pairwise_lt_range pc.2.length).imp fun {a b} hab => by
      have hab' : a < b := hab
      show posIndex pc.1 a < posIndex pc.1 b
      unfold posIndex
      omega
  · refine (pagesSeq_pairwise s).imp_of_mem ?_
    intro pc₁ pc₂ h1m h2m h12
    intro x hx y hy
    obtain ⟨la, hla, heqa⟩ := List.mem_map.mp hx
    obtain ⟨lb, hlb, heqb⟩ := List.mem_map.mp hy
    rw [List.mem_range] at hla hlb
    have h32a : pc₁.2.length ≤ 32 := pagesSeq_len_le h pc₁ h1m
    rw [← heqa, ← heqb]
    show posIndex pc₁.1 la < posIndex pc₂.1 lb
    unfold posIndex
    omega

/-! ### Runs of a sorted buffer and the `ForEach` merge loop. -/

theorem dropWhile_run_gt {b : ℤ} : ∀ {rest : List ℤ}, List.Sorted (· ≤ ·) (b :: rest) →
    ∀ x ∈ rest.dropWhile (fun y => decide (y = b)), b < x := by
  intro rest
  induction rest with
  | nil => intro _ x hx; simp at hx
  | cons r rs ih =>
    intro hs x hx
    have hs1 := (List.sorted_cons.mp hs).1
    have hs2 := (List.sorted_cons.mp hs).2
    by_cases hr : r = b
    · rw [List.dropWhile_cons, if_pos (by simp [hr])] at hx
      have hsred : List.Sorted (· ≤ ·) (b :: rs) :=
        List.sorted_cons.mpr ⟨fun y hy => hs1 y (List.mem_cons_of_mem r hy),
          (List.sorted_cons.mp hs2).2⟩
      exact ih hsred x hx
    · rw [List.dropWhile_cons, if_neg (by simp [hr])] at hx
      have hbr : b < r := lt_of_le_of_ne (hs1 r (List.mem_cons_self r rs)) (Ne.symm hr)
      rcases List.mem_cons.mp hx with h1 | h1
      · omega
      · have := (List.sorted_cons.mp hs2).1 x h1
        omega

theorem takeWhile_all_eq {b : ℤ} : ∀ (rest : List ℤ),
    ∀ x ∈ rest.takeWhile (fun y => decide (y = b)), x = b := by
  intro rest x hx
  simpa using List.mem_takeWhile_imp hx

theorem run_count_self {b : ℤ} {rest : List ℤ} (h : List.Sorted (· ≤ ·) (b :: rest)) :
    (b :: rest).count b = 1 + (rest.takeWhile (fun y => decide (y = b))).length := by
  have hsplit := List.takeWhile_append_dropWhile (fun y => decide (y = b)) rest
  have h1 : (rest.takeWhile (fun y => decide (y = b))).count b
      = (rest.takeWhile (fun y => decide (y = b))).length :=
    List.count_eq_length.mpr (fun x hx => by simp [takeWhile_all_eq rest x hx])
  have h2 : (rest.dropWhile (fun y => decide (y = b))).count b = 0 :=
    List.count_eq_zero.mpr (fun hmem => absurd (dropWhile_run_gt h b hmem) (lt_irrefl b))
  have hc : rest.count b = (rest.takeWhile (fun y => decide (y = b))).count b
      + (rest.dropWhile (fun y => decide (y = b))).count b := by
    conv_lhs => rw [← hsplit]
    rw [List.count_append]
  rw [List.count_cons, hc, h1, h2]
  simp [Nat.add_comm]

theorem run_count_other {b i : ℤ} (hne : i ≠ b) (rest : List ℤ) :
    (rest.dropWhile (fun y => decide (y = b))).count i = (b :: rest).count i := by
  have hsplit := List.takeWhile_append_dropWhile (fun y => decide (y = b)) rest
  have h1 : (rest.takeWhile (fun y => decide (y = b))).count i = 0 :=
    List.count_eq_zero.mpr (fun hmem => hne (takeWhile_all_eq rest i hmem))
  have hc : rest.count i = (rest.takeWhile (fun y => decide (y = b))).count i
      + (rest.dropWhile (fun y => decide (y = b))).count i := by
    conv_lhs => rw [← hsplit]
    rw [List.count_append]
  rw [List.count_cons, hc, h1]
  simp only [beq_iff_eq]
  rw [if_neg (fun h : b = i => hne h.symm)]
  omega

theorem sorted_dropWhile_run {b : ℤ} {rest : List ℤ} (h : List.Sorted (· ≤ ·) (b :: rest)) :
    List.Sorted (· ≤ ·) (rest.dropWhile (fun y => decide (y = b))) :=
  List.Pairwise.sublist ((List.dropWhile_sublist _).trans (List.sublist_cons_self b rest)) h

theorem count_lt_head {b i : ℤ} {rest : List ℤ} (h : List.Sorted (· ≤ ·) (b :: rest))
    (hi : i < b) : (b :: rest).count i = 0 := by
  refine List.count_eq_zero.mpr (fun hmem => ?_)
  rcases List.mem_cons.mp hmem with h1 | h1
  · omega
  · have := (List.sorted_cons.mp h).1 i h1
    omega

theorem Mev_eq_zero {evs : List (ℤ × ℚ)} {i : ℤ} (h : ∀ e ∈ evs, e.1 ≠ i) : Mev evs i = 0 := by
  induction evs with
  | nil => rfl
  | cons e evs ih =>
    rw [Mev_cons, if_neg (h e (List.mem_cons_self e evs)),
      ih (fun x hx => h x (List.mem_cons_of_mem e hx))]
    ring

theorem pos_source {evs : List (ℤ × ℚ)} {buf : List ℤ} {i : ℤ}
    (h : 0 < Mev evs i + (buf.count i : ℚ)) : (∃ e ∈ evs, e.1 = i) ∨ i ∈ buf := by
  by_contra hc
  push_neg at hc
  rw [Mev_eq_zero hc.1, List.count_eq_zero.mpr hc.2] at h
  norm_num at h

theorem bufRuns_spec : ∀ (n : ℕ) (buf : List ℤ), buf.length ≤ n → List.Sorted (· ≤ ·) buf →
    List.Pairwise (fun a b : ℤ × ℚ => a.1 < b.1) (bufRuns buf) ∧
    ∀ i : ℤ, ∀ q : ℚ, ((i, q) ∈ bufRuns buf ↔
      0 < buf.count i ∧ q = (buf.count i : ℚ))
  | n, [], _, _ => by
    constructor
    · rw [bufRuns]
      exact List.Pairwise.nil
    · intro i q
      rw [bufRuns]
      simp
  | 0, b :: rest, hlen, _ => by simp at hlen
  | n + 1, b :: rest, hlen, hsrt => by
    obtain ⟨ihp, ihm⟩ := bufRuns_spec n (rest.dropWhile (fun y => decide (y = b)))
      (le_trans (dropWhile_len_le _ rest) (by simp only [List.length_cons] at hlen; omega))
      (sorted_dropWhile_run hsrt)
    rw [bufRuns]
    constructor
    · rw [List.pairwise_cons]
      refine ⟨?_, ihp⟩
      rintro ⟨i', q'⟩ he
      have hmem := (ihm i' q').mp he
      have hin : i' ∈ rest.dropWhile (fun y => decide (y = b)) :=
        List.count_pos_iff.mp hmem.1
      exact dropWhile_run_gt hsrt i' hin
    · intro i q
      rw [List.mem_cons]
      constructor
      · rintro (heq | hmem)
        · obtain ⟨h1, h2⟩ := Prod.mk.injEq _ _ _ _ ▸ heq
          subst h1
          rw [run_count_self hsrt]
          refine ⟨by omega, ?_⟩
          rw [h2]
        · have hmm := (ihm i q).mp hmem
          have hin : i ∈ rest.dropWhile (fun y => decide (y = b)) :=
            List.count_pos_iff.mp hmm.1
          have hne : i ≠ b := by
            have := dropWhile_run_gt hsrt i hin
            omega
          rw [run_count_other hne rest] at hmm
          exact hmm
      · rintro ⟨hpos, hq⟩
        by_cases hib : i = b
        · subst hib
          left
          rw [Prod.mk.injEq]
          refine ⟨rfl, ?_⟩
          rw [hq, run_count_self hsrt]
        · right
          rw [ihm i q, run_count_other hib rest]
          exact ⟨hpos, hq⟩

theorem feLoop_spec : ∀ (n : ℕ) (evs : List (ℤ × ℚ)) (buf : List ℤ),
    evs.length + buf.length ≤ n →
    List.Pairwise (fun a b : ℤ × ℚ => a.1 < b.1) evs →
    (∀ e ∈ evs, 0 ≤ e.2) →
    List.Sorted (· ≤ ·) buf →
    List.Pairwise (fun a b : ℤ × ℚ => a.1 < b.1) (feLoop evs buf) ∧
    ∀ i : ℤ, ∀ q : ℚ, ((i, q) ∈ feLoop evs buf ↔
      0 < Mev evs i + (buf.count i : ℚ) ∧ q = Mev evs i + (buf.count i : ℚ))
  | _, [], buf, _, _, _, hsrt => by
    obtain ⟨hp, hm⟩ := bufRuns_spec buf.length buf (le_refl _) hsrt
    have hE : feLoop [] buf = bufRuns buf := by rw [feLoop.eq_def]
    rw [hE]
    refine ⟨hp, ?_⟩
    intro i q
    rw [hm i q, Mev_nil, zero_add]
    constructor
    · rintro ⟨h1, h2⟩
      exact ⟨by exact_mod_cast h1, h2⟩
    · rintro ⟨h1, h2⟩
      exact ⟨by exact_mod_cast h1, h2⟩
  | 0, e :: evs', buf, hlen, _, _, _ => by simp at hlen
  | n + 1, (idx, c) :: evs', buf, hlen, hpw, hnn, hsrt => by
    have hc0nn : (0:ℚ) ≤ c := hnn (idx, c) (List.mem_cons_self _ _)
    have hidxlt : ∀ e ∈ evs', idx < e.1 := fun e he => (List.pairwise_cons.mp hpw).1 e he
    have hpw' := (List.pairwise_cons.mp hpw).2
    have hnn' : ∀ e ∈ evs', 0 ≤ e.2 := fun e he => hnn e (List.mem_cons_of_mem _ he)
    have hMidx0 : Mev evs' idx = 0 := Mev_eq_zero (fun e he => by have := hidxlt e he; omega)
    by_cases hc0 : c = 0
    · have hE0 : feLoop ((idx, c) :: evs') buf = feLoop evs' buf := by
        cases buf with
        | nil => rw [feLoop, if_pos hc0]
        | cons b rest => rw [feLoop, if_pos hc0]
      rw [hE0]
      obtain ⟨ihp, ihm⟩ := feLoop_spec n evs' buf
        (by simp only [List.length_cons] at hlen; omega) hpw' hnn' hsrt
      refine ⟨ihp, ?_⟩
      intro i q
      rw [ihm i q, Mev_cons]
      subst hc0
      rw [ite_self, zero_add]
    · cases buf with
      | nil =>
        rw [feLoop, if_neg hc0]
        have hcpos : 0 < c := lt_of_le_of_ne hc0nn (Ne.symm hc0)
        obtain ⟨ihp, ihm⟩ := feLoop_spec n evs' []
          (by simp only [List.length_cons] at hlen ⊢; simp at hlen ⊢; omega) hpw' hnn' (by simp)
        constructor
        · rw [List.pairwise_cons]
          refine ⟨?_, ihp⟩
          rintro ⟨i', q'⟩ he
          have h1 := ((ihm i' q').mp he).1
          rcases pos_source h1 with ⟨e, he', heq⟩ | hbm
          · have := hidxlt e he'
            show idx < i'
            omega
          · simp at hbm
        · intro i q
          rw [List.mem_cons]
          constructor
          · rintro (heq | hmem)
            · obtain ⟨h1, h2⟩ := Prod.mk.injEq _ _ _ _ ▸ heq
              subst h1
              rw [Mev_cons, if_pos rfl, hMidx0]
              simp only [List.count_nil, Nat.cast_zero]
              exact ⟨by linarith, by rw [h2]; ring⟩
            · have hh := (ihm i q).mp hmem
              have hi_ne : idx ≠ i := by
                rcases pos_source hh.1 with ⟨e, he', heq'⟩ | hbm
                · have := hidxlt e he'
                  omega
                · simp at hbm
              rw [Mev_cons, if_neg hi_ne]
              simp only [List.count_nil, Nat.cast_zero, add_zero] at hh ⊢
              exact ⟨by linarith [hh.1], by rw [hh.2]; ring⟩
          · rintro ⟨hpos, hq⟩
            by_cases hii : idx = i
            · left
              subst hii
              rw [Prod.mk.injEq]
              refine ⟨rfl, ?_⟩
              rw [Mev_cons, if_pos rfl, hMidx0] at hq
              simp only [List.count_nil, Nat.cast_zero] at hq
              rw [hq]
              ring
            · right
              rw [ihm i q]
              rw [Mev_cons, if_neg hii] at hpos hq
              simp only [List.count_nil, Nat.cast_zero, add_zero] at hpos hq ⊢
              exact ⟨by linarith, by rw [hq]; ring⟩
      | cons b rest =>
        have hble : ∀ x ∈ b :: rest, b ≤ x := by
          intro x hx
          rcases List.mem_cons.mp hx with h1 | h1
          · omega
          · exact (List.sorted_cons.mp hsrt).1 x h1
        have hcpos : 0 < c := lt_of_le_of_ne hc0nn (Ne.symm hc0)
        by_cases hib : idx < b
        · rw [feLoop, if_neg hc0, if_pos hib]
          have hcnt0 : (b :: rest).count idx = 0 := count_lt_head hsrt hib
          obtain ⟨ihp, ihm⟩ := feLoop_spec n evs' (b :: rest)
            (by simp only [List.length_cons] at hlen ⊢; omega) hpw' hnn' hsrt
          constructor
          · rw [List.pairwise_cons]
            refine ⟨?_, ihp⟩
            rintro ⟨i', q'⟩ he
            have h1 := ((ihm i' q').mp he).1
            show idx < i'
            rcases pos_source h1 with ⟨e, he', heq⟩ | hbm
            · have := hidxlt e he'
              omega
            · have := hble i' hbm
              omega
          · intro i q
            rw [List.mem_cons]
            constructor
            · rintro (heq | hmem)
              · obtain ⟨h1, h2⟩ := Prod.mk.injEq _ _ _ _ ▸ heq
                subst h1
                rw [Mev_cons, if_pos rfl, hMidx0, hcnt0]
                simp only [Nat.cast_zero]
                exact ⟨by linarith, by rw [h2]; ring⟩
              · have hh := (ihm i q).mp hmem
                have hi_ne : idx ≠ i := by
                  rcases pos_source hh.1 with ⟨e, he', heq'⟩ | hbm
                  · have := hidxlt e he'
                    omega
                  · have := hble i hbm
                    omega
                rw [Mev_cons, if_neg hi_ne]
                exact ⟨by linarith [hh.1], by rw [hh.2]; ring⟩
            · rintro ⟨hpos, hq⟩
              by_cases hii : idx = i
              · left
                subst hii
                rw [Prod.mk.injEq]
                refine ⟨rfl, ?_⟩
                rw [Mev_cons, if_pos rfl, hMidx0, hcnt0] at hq
                simp only [Nat.cast_zero] at hq
                rw [hq]
                ring
              · right
                rw [ihm i q]
                rw [Mev_cons, if_neg hii] at hpos hq
                exact ⟨by linarith, by rw [hq]; ring⟩
        · by_cases hbi : b = idx
          · rw [feLoop, if_neg hc0, if_neg hib, if_pos hbi]
            have hcnts : (b :: rest).count b
                = 1 + (rest.takeWhile (fun y => decide (y = b))).length := run_count_self hsrt
            have hcntd : (rest.dropWhile (fun y => decide (y = b))).count b = 0 :=
              List.count_eq_zero.mpr
                (fun hmem' => absurd (dropWhile_run_gt hsrt b hmem') (lt_irrefl b))
            obtain ⟨ihp, ihm⟩ := feLoop_spec n evs'
              (rest.dropWhile (fun y => decide (y = b)))
              (by
                have := dropWhile_len_le (fun y => decide (y = b)) rest
                simp only [List.length_cons] at hlen ⊢
                omega)
              hpw' hnn' (sorted_dropWhile_run hsrt)
            subst hbi
            constructor
            · rw [List.pairwise_cons]
              refine ⟨?_, ihp⟩
              rintro ⟨i', q'⟩ he
              have h1 := ((ihm i' q').mp he).1
              show b < i'
              rcases pos_source h1 with ⟨e, he', heq⟩ | hbm
              · have := hidxlt e he'
                omega
              · exact dropWhile_run_gt hsrt i' hbm
            · intro i q
              rw [List.mem_cons]
              constructor
              · rintro (heq | hmem)
                · obtain ⟨h1, h2⟩ := Prod.mk.injEq _ _ _ _ ▸ heq
                  subst h1
                  rw [Mev_cons, if_pos rfl, hMidx0, hcnts]
                  refine ⟨?_, ?_⟩
                  · push_cast
                    linarith
                  · rw [h2]
                    push_cast
                    ring
                · have hh := (ihm i q).mp hmem
                  have hi_ne : b ≠ i := by
                    rcases pos_source hh.1 with ⟨e, he', heq'⟩ | hbm
                    · have := hidxlt e he'
                      omega
                    · have := dropWhile_run_gt hsrt i hbm
                      omega
                  rw [Mev_cons, if_neg hi_ne, zero_add,
                    ← run_count_other (fun h => hi_ne h.symm) rest]
                  exact hh
              · rintro ⟨hpos, hq⟩
                by_cases hii : b = i
                · left
                  subst hii
                  rw [Prod.mk.injEq]
                  refine ⟨rfl, ?_⟩
                  rw [Mev_cons, if_pos rfl, hMidx0, hcnts] at hq
                  rw [hq]
                  push_cast
                  ring
                · right
                  rw [ihm i q]
                  rw [Mev_cons, if_neg hii, zero_add,
                    ← run_count_other (fun h => hii h.symm) rest] at hpos hq
                  exact ⟨hpos, hq⟩
          · rw [feLoop, if_neg hc0, if_neg hib, if_neg hbi]
            have hbidx : b < idx := by
              have h1 : b ≤ idx := by omega
              omega
            have hcnts : (b :: rest).count b
                = 1 + (rest.takeWhile (fun y => decide (y = b))).length := run_count_self hsrt
            have hMb0 : Mev ((idx, c) :: evs') b = 0 := by
              rw [Mev_cons, if_neg (by omega : ¬ idx = b),
                Mev_eq_zero (fun e he => by have := hidxlt e he; omega)]
              ring
            obtain ⟨ihp, ihm⟩ := feLoop_spec n ((idx, c) :: evs')
              (rest.dropWhile (fun y => decide (y = b)))
              (by
                have := dropWhile_len_le (fun y => decide (y = b)) rest
                simp only [List.length_cons] at hlen ⊢
                omega)
              hpw hnn (sorted_dropWhile_run hsrt)
            constructor
            · rw [List.pairwise_cons]
              refine ⟨?_, ihp⟩
              rintro ⟨i', q'⟩ he
              have h1 := ((ihm i' q').mp he).1
              show b < i'
              rcases pos_source h1 with ⟨e, he', heq⟩ | hbm
              · rcases List.mem_cons.mp he' with h2 | h2
                · rw [h2] at heq
                  simp only at heq
                  omega
                · have := hidxlt e h2
                  omega
              · exact dropWhile_run_gt hsrt i' hbm
            · intro i q
              rw [List.mem_cons]
              constructor
              · rintro (heq | hmem)
                · obtain ⟨h1, h2⟩ := Prod.mk.injEq _ _ _ _ ▸ heq
                  subst h1
                  rw [hMb0, hcnts]
                  refine ⟨?_, ?_⟩
                  · push_cast
                    linarith
                  · rw [h2]
                    push_cast
                    ring
                · have hh := (ihm i q).mp hmem
                  have hi_ne : b ≠ i := by
                    rcases pos_source hh.1 with ⟨e, he', heq'⟩ | hbm
                    · rcases List.mem_cons.mp he' with h2 | h2
                      · rw [h2] at heq'
                        simp only at heq'
                        omega
                      · have := hidxlt e h2
                        omega
                    · have := dropWhile_run_gt hsrt i hbm
                      omega
                  rw [run_count_other (fun h => hi_ne h.symm) rest] at hh
                  exact hh
              · rintro ⟨hpos, hq⟩
                by_cases hii : b = i
                · left
                  subst hii
                  rw [Prod.mk.injEq]
                  refine ⟨rfl, ?_⟩
                  rw [hMb0, hcnts] at hq
                  rw [hq]
                  push_cast
                  ring
                · right
                  rw [ihm i q, run_count_other (fun h => hii h.symm) rest]
                  exact ⟨hpos, hq⟩

theorem forEachBins_spec {s : BPStore} (h : WF s) :
    List.Pairwise (fun a b : ℤ × ℚ => a.1 < b.1) (forEachBins s) ∧
    ∀ i : ℤ, ∀ q : ℚ, ((i, q) ∈ forEachBins s ↔ 0 < content s i ∧ q = content s i) := by
  obtain ⟨hp, hm⟩ := feLoop_spec ((allPageEvents s).length + (sortBuf s.buffer).length)
    (allPageEvents s) (sortBuf s.buffer) (le_refl _) (allPageEvents_pairwise h)
    (allPageEvents_nonneg h) (sortBuf_sorted s.buffer)
  refine ⟨hp, ?_⟩
  intro i q
  unfold forEachBins
  rw [hm i q, sortBuf_count, Mev_allPageEvents h, content_eq]

/-- A whole run of `AddWithCount` calls (the `Bool` records whether the buffer
was at capacity when the call happened, which is what gates compaction). -/
def applyOps (ops : List (ℤ × ℚ × Bool)) (s : BPStore) : BPStore :=
  ops.foldl (fun t op => t.addWithCount op.1 op.2.1 op.2.2) s

theorem new_WF : WF BPStore.new := by
  refine ⟨?_, ?_, ?_⟩
  · intro op hop
    simp [BPStore.new] at hop
  · intro op hop
    simp [BPStore.new] at hop
  · intro _
    rfl

theorem content_new (i : ℤ) : content BPStore.new i = 0 := by
  rw [content_eq]
  have h1 : pageVal BPStore.new (pageIndex i) (lineIndex i) = 0 := by
    unfold pageVal
    rw [pageAt_none rfl]
    rfl
  rw [h1]
  simp [BPStore.new]

theorem applyOps_spec : ∀ (ops : List (ℤ × ℚ × Bool)) (s : BPStore), WF s →
    (∀ op ∈ ops, 0 ≤ op.2.1) →
    WF (applyOps ops s) ∧
    ∀ i : ℤ, content (applyOps ops s) i
      = content s i + ((ops.filter (fun op => op.1 = i)).map (fun op => op.2.1)).sum
  | [], s, hW, _ => ⟨hW, fun i => by simp [applyOps]⟩
  | op :: ops, s, hW, hnn => by
    obtain ⟨hW1, hc1⟩ := addWithCount_spec hW op.1
      (hnn op (List.mem_cons_self _ _)) op.2.2
    obtain ⟨hW2, hc2⟩ := applyOps_spec ops (s.addWithCount op.1 op.2.1 op.2.2) hW1
      (fun x hx => hnn x (List.mem_cons_of_mem _ hx))
    refine ⟨hW2, ?_⟩
    intro i
    have hA : applyOps (op :: ops) s = applyOps ops (s.addWithCount op.1 op.2.1 op.2.2) := rfl
    rw [hA, hc2 i, hc1 i, List.filter_cons]
    by_cases hop : op.1 = i
    · rw [if_pos (show i = op.1 from hop.symm),
        if_pos (show (decide (op.1 = i)) = true by simpa using hop),
        List.map_cons, List.sum_cons]
      ring
    · rw [if_neg (show ¬ i = op.1 from fun h => hop h.symm),
        if_neg (show ¬ (decide (op.1 = i)) = true by simpa using hop)]
      ring

/-- C5 (confirmed): starting from `NewBufferedPaginatedStore()`, after any
finite sequence of `Add`/`AddWithCount` calls with nonnegative counts (each
call's `Bool` records the `len(buffer) == cap(buffer)` outcome that gates
compaction), the logical content of the store at every index equals exactly
the total count added for that index; iterating via `ForEach`/`Bins()` emits
each index with positive content exactly once, in strictly ascending index
order, with exactly its content as the count; and `compact()` never changes
the content. -/
theorem claim_C5_buffered_paginated_iteration (ops : List (ℤ × ℚ × Bool))
    (hnn : ∀ op ∈ ops, 0 ≤ op.2.1) :
    (∀ i : ℤ, content (applyOps ops BPStore.new) i
      = ((ops.filter (fun op => op.1 = i)).map (fun op => op.2.1)).sum) ∧
    List.Pairwise (fun a b : ℤ × ℚ => a.1 < b.1) (forEachBins (applyOps ops BPStore.new)) ∧
    (∀ i : ℤ, ∀ q : ℚ, ((i, q) ∈ forEachBins (applyOps ops BPStore.new) ↔
      0 < content (applyOps ops BPStore.new) i
        ∧ q = content (applyOps ops BPStore.new) i)) ∧
    ∀ i : ℤ, content (compact (applyOps ops BPStore.new)) i
      = content (applyOps ops BPStore.new) i := by
  obtain ⟨hW, hc⟩ := applyOps_spec ops BPStore.new new_WF hnn
  obtain ⟨hp, hm⟩ := forEachBins_spec hW
  exact ⟨fun i => by rw [hc i, content_new, zero_add], hp, hm, (compact_spec hW).2⟩

/-- Witness for C5: the single call `AddWithCount(5, 2)`. -/
theorem claim_C5_witness :
    (∀ op ∈ [((5:ℤ), (2:ℚ), false)], 0 ≤ op.2.1) ∧
    ((∀ i : ℤ, content (applyOps [((5:ℤ), (2:ℚ), false)] BPStore.new) i
      = (([((5:ℤ), (2:ℚ), false)].filter (fun op => op.1 = i)).map (fun op => op.2.1)).sum) ∧
    List.Pairwise (fun a b : ℤ × ℚ => a.1 < b.1)
      (forEachBins (applyOps [((5:ℤ), (2:ℚ), false)] BPStore.new)) ∧
    (∀ i : ℤ, ∀ q : ℚ,
      ((i, q) ∈ forEachBins (applyOps [((5:ℤ), (2:ℚ), false)] BPStore.new) ↔
      0 < content (applyOps [((5:ℤ), (2:ℚ), false)] BPStore.new) i
        ∧ q = content (applyOps [((5:ℤ), (2:ℚ), false)] BPStore.new) i)) ∧
    ∀ i : ℤ, content (compact (applyOps [((5:ℤ), (2:ℚ), false)] BPStore.new)) i
      = content (applyOps [((5:ℤ), (2:ℚ), false)] BPStore.new) i) :=
  ⟨by decide, claim_C5_buffered_paginated_iteration _ (by decide)⟩

/-! ### `minIndexWithCumulCount` and `KeyAtRank`. -/

/-- Total event count at indexes `≤ k`. -/
def Mle (evs : List (ℤ × ℚ)) (k : ℤ) : ℚ :=
  ((evs.filter (fun e => e.1 ≤ k)).map Prod.snd).sum

/-- Cumulative content of the store over all indexes `≤ k`. -/
def cumulCount (s : BPStore) (k : ℤ) : ℚ :=
  Mle (allPageEvents s) k + (s.buffer.countP (fun b => decide (b ≤ k)) : ℚ)

theorem Mle_nil (k : ℤ) : Mle [] k = 0 := rfl

theorem Mle_cons (a : ℤ × ℚ) (evs : List (ℤ × ℚ)) (k : ℤ) :
    Mle (a :: evs) k = (if a.1 ≤ k then a.2 else 0) + Mle evs k := by
  by_cases h : a.1 ≤ k
  · simp [Mle, List.filter_cons, h]
  · simp [Mle, List.filter_cons, h]

theorem Mle_eq_zero {evs : List (ℤ × ℚ)} {k : ℤ} (h : ∀ e ∈ evs, k < e.1) : Mle evs k = 0 := by
  induction evs with
  | nil => rfl
  | cons e evs ih =>
    rw [Mle_cons, if_neg (by have := h e (List.mem_cons_self e evs); omega),
      ih (fun x hx => h x (List.mem_cons_of_mem e hx))]
    ring

theorem countP_le_zero {b j : ℤ} {rest : List ℤ} (hsrt : List.Sorted (· ≤ ·) (b :: rest))
    (hj : j < b) : (b :: rest).countP (fun x => decide (x ≤ j)) = 0 := by
  rw [List.countP_eq_zero]
  intro a ha
  have hba : b ≤ a := by
    rcases List.mem_cons.mp ha with h1 | h1
    · omega
    · exact (List.sorted_cons.mp hsrt).1 a h1
  simp only [decide_eq_true_eq]
  omega

theorem countP_le_cons_head {b j : ℤ} (rest : List ℤ) (hj : b ≤ j) :
    (b :: rest).countP (fun x => decide (x ≤ j))
      = rest.countP (fun x => decide (x ≤ j)) + 1 :=
  List.countP_cons_of_pos _ _ (by simp only [decide_eq_true_eq]; omega)

theorem micTail_spec (pred : ℚ → Bool)
    (hmono : ∀ x y : ℚ, x ≤ y → pred x = true → pred y = true) :
    ∀ (buf : List ℤ), List.Sorted (· ≤ ·) buf → ∀ (cum : ℚ),
    pred cum = false →
    (∀ k, micTail pred buf cum = some k →
      IsLeast {j : ℤ | pred (cum + (buf.countP (fun b => decide (b ≤ j)) : ℚ)) = true} k) ∧
    (micTail pred buf cum = none ↔ pred (cum + (buf.length : ℚ)) = false)
  | [], _, cum, hcum => by
    constructor
    · intro k hk
      simp [micTail] at hk
    · simp only [micTail, List.length_nil, Nat.cast_zero, add_zero]
      simp [hcum]
  | b :: rest, hsrt, cum, hcum => by
    have hsrt' : List.Sorted (· ≤ ·) rest := (List.sorted_cons.mp hsrt).2
    rw [micTail]
    by_cases hp1 : pred (cum + 1) = true
    · rw [if_pos hp1]
      constructor
      · intro k hk
        have hkb : b = k := by simpa using hk
        subst hkb
        constructor
        · show pred (cum + ((b :: rest).countP (fun x => decide (x ≤ b)) : ℚ)) = true
          refine hmono _ _ ?_ hp1
          rw [countP_le_cons_head rest (le_refl b)]
          push_cast
          have h0 : (0:ℚ) ≤ (rest.countP (fun x => decide (x ≤ b)) : ℚ) := by positivity
          linarith
        · intro j hj
          by_contra hjb
          push_neg at hjb
          have h0 : (b :: rest).countP (fun x => decide (x ≤ j)) = 0 :=
            countP_le_zero hsrt hjb
          have hjj : pred (cum + ((b :: rest).countP (fun x => decide (x ≤ j)) : ℚ)) = true := hj
          rw [h0] at hjj
          simp only [Nat.cast_zero, add_zero] at hjj
          simp [hcum] at hjj
      · simp only [List.length_cons]
        push_cast
        have htot : pred (cum + ((rest.length : ℚ) + 1)) = true := by
          refine hmono _ _ ?_ hp1
          have h0 : (0:ℚ) ≤ (rest.length : ℚ) := by positivity
          linarith
        simp [htot]
    · rw [if_neg hp1]
      have hcum' : pred (cum + 1) = false := by
        cases hh : pred (cum + 1) with
        | false => rfl
        | true => exact absurd hh hp1
      obtain ⟨ihL, ihN⟩ := micTail_spec pred hmono rest hsrt' (cum + 1) hcum'
      constructor
      · intro k hk
        have hIs := ihL k hk
        have hSS : {j : ℤ | pred (cum + 1 + (rest.countP (fun x => decide (x ≤ j)) : ℚ)) = true}
            = {j : ℤ | pred (cum + ((b :: rest).countP (fun x => decide (x ≤ j)) : ℚ)) = true} := by
          ext j
          by_cases hjb : b ≤ j
          · have harg : cum + 1 + (rest.countP (fun x => decide (x ≤ j)) : ℚ)
                = cum + ((b :: rest).countP (fun x => decide (x ≤ j)) : ℚ) := by
              rw [countP_le_cons_head rest hjb]
              push_cast
              ring
            simp only [Set.mem_setOf_eq, harg]
          · have h1 : rest.countP (fun x => decide (x ≤ j)) = 0 := by
              rw [List.countP_eq_zero]
              intro a ha
              have hba : b ≤ a := (List.sorted_cons.mp hsrt).1 a ha
              simp only [decide_eq_true_eq]
              omega
            have h2 : (b :: rest).countP (fun x => decide (x ≤ j)) = 0 :=
              countP_le_zero hsrt (by omega)
            simp only [Set.mem_setOf_eq, h1, h2, Nat.cast_zero, add_zero, hcum, hcum']
        rw [← hSS]
        exact hIs
      · rw [ihN]
        have harg : cum + 1 + (rest.length : ℚ) = cum + ((b :: rest).length : ℚ) := by
          simp only [List.length_cons]
          push_cast
          ring
        rw [harg]

theorem evs_sum_nonneg {evs : List (ℤ × ℚ)} (h : ∀ e ∈ evs, 0 ≤ e.2) :
    0 ≤ (evs.map Prod.snd).sum :=
  List.sum_nonneg (fun x hx => by
    obtain ⟨e, he, heq⟩ := List.mem_map.mp hx
    rw [← heq]
    exact h e he)

theorem micLoop_spec (pred : ℚ → Bool)
    (hmono : ∀ x y : ℚ, x ≤ y → pred x = true → pred y = true) :
    ∀ (n : ℕ) (evs : List (ℤ × ℚ)) (buf : List ℤ),
    evs.length + buf.length ≤ n →
    List.Pairwise (fun a b : ℤ × ℚ => a.1 < b.1) evs →
    (∀ e ∈ evs, 0 ≤ e.2) →
    List.Sorted (· ≤ ·) buf →
    ∀ (cum : ℚ), pred cum = false →
    (∀ k, micLoop pred evs buf cum = some k →
      IsLeast {j : ℤ | pred (cum + Mle evs j
        + (buf.countP (fun b => decide (b ≤ j)) : ℚ)) = true} k) ∧
    (micLoop pred evs buf cum = none ↔
      pred (cum + ((evs.map Prod.snd).sum + (buf.length : ℚ))) = false)
  | _, [], buf, _, _, _, hsrt, cum, hcum => by
    have hE : micLoop pred [] buf cum = micTail pred buf cum := by rw [micLoop.eq_def]
    obtain ⟨ihL, ihN⟩ := micTail_spec pred hmono buf hsrt cum hcum
    rw [hE]
    constructor
    · intro k hk
      have hIs := ihL k hk
      have hSS : {j : ℤ | pred (cum + (buf.countP (fun b => decide (b ≤ j)) : ℚ)) = true}
          = {j : ℤ | pred (cum + Mle [] j
              + (buf.countP (fun b => decide (b ≤ j)) : ℚ)) = true} := by
        ext j
        rw [Set.mem_setOf_eq, Set.mem_setOf_eq, Mle_nil, add_zero]
      rw [← hSS]
      exact hIs
    · rw [ihN]
      have harg : cum + (buf.length : ℚ)
          = cum + (((List.map Prod.snd ([] : List (ℤ × ℚ))).sum + (buf.length : ℚ))) := by
        simp
      rw [← harg]
  | 0, e :: evs', buf, hlen, _, _, _, _, _ => by simp at hlen
  | n + 1, (idx, c) :: evs', buf, hlen, hpw, hnn, hsrt, cum, hcum => by
    have hcnn : (0:ℚ) ≤ c := hnn (idx, c) (List.mem_cons_self _ _)
    have hidxlt : ∀ e ∈ evs', idx < e.1 := fun e he => (List.pairwise_cons.mp hpw).1 e he
    have hpw' := (List.pairwise_cons.mp hpw).2
    have hnn' : ∀ e ∈ evs', 0 ≤ e.2 := fun e he => hnn e (List.mem_cons_of_mem _ he)
    have hsum' : 0 ≤ (evs'.map Prod.snd).sum := evs_sum_nonneg hnn'
    have hMfull : ∀ j : ℤ, j < idx → Mle ((idx, c) :: evs') j = 0 := by
      intro j hj
      rw [Mle_cons, if_neg (by omega : ¬ idx ≤ j),
        Mle_eq_zero (fun e he => by have := hidxlt e he; omega)]
      ring
    have hMat : ∀ j : ℤ, idx ≤ j → Mle ((idx, c) :: evs') j = c + Mle evs' j := by
      intro j hj
      rw [Mle_cons, if_pos hj]
    cases buf with
    | nil =>
      have hE : micLoop pred ((idx, c) :: evs') [] cum
          = if pred (cum + c) then some idx else micLoop pred evs' [] (cum + c) := by
        rw [micLoop]
      rw [hE]
      by_cases hpc : pred (cum + c) = true
      · rw [if_pos hpc]
        constructor
        · intro k hk
          have hki : idx = k := by simpa using hk
          subst hki
          constructor
          · show pred (cum + Mle ((idx, c) :: evs') idx + _) = true
            rw [hMat idx (le_refl idx), Mle_eq_zero (fun e he => hidxlt e he)]
            simp only [List.countP_nil, Nat.cast_zero, add_zero]
            exact hpc
          · intro j hj
            by_contra hji
            push_neg at hji
            have hjj : pred (cum + Mle ((idx, c) :: evs') j + _) = true := hj
            rw [hMfull j hji] at hjj
            simp only [List.countP_nil, Nat.cast_zero, add_zero] at hjj
            simp [hcum] at hjj
        · have htot : pred (cum + (((idx, c) :: evs').map Prod.snd).sum
              + (([] : List ℤ).length : ℚ)) = true := by
            refine hmono _ _ ?_ hpc
            simp only [List.map_cons, List.sum_cons, List.length_nil, Nat.cast_zero, add_zero]
            linarith
          constructor
          · intro hk
            simp at hk
          · intro hk
            rw [← add_assoc] at hk
            rw [htot] at hk
            simp at hk
      · have hpc' : pred (cum + c) = false := by
          cases hh : pred (cum + c) with
          | false => rfl
          | true => exact absurd hh hpc
        rw [if_neg hpc]
        obtain ⟨ihL, ihN⟩ := micLoop_spec pred hmono n evs' []
          (by simp only [List.length_cons, List.length_nil] at hlen ⊢; omega)
          hpw' hnn' (by simp) (cum + c) hpc'
        constructor
        · intro k hk
          have hIs := ihL k hk
          have hSS : {j : ℤ | pred (cum + c + Mle evs' j
                + (([] : List ℤ).countP (fun b => decide (b ≤ j)) : ℚ)) = true}
              = {j : ℤ | pred (cum + Mle ((idx, c) :: evs') j
                + (([] : List ℤ).countP (fun b => decide (b ≤ j)) : ℚ)) = true} := by
            ext j
            by_cases hj : idx ≤ j
            · have harg : cum + c + Mle evs' j + (0:ℚ)
                  = cum + Mle ((idx, c) :: evs') j + (0:ℚ) := by
                rw [hMat j hj]
                ring
              simp only [Set.mem_setOf_eq, List.countP_nil, Nat.cast_zero, harg]
            · have h1 : Mle evs' j = 0 :=
                Mle_eq_zero (fun e he => by have := hidxlt e he; omega)
              simp only [Set.mem_setOf_eq, List.countP_nil, Nat.cast_zero, add_zero, h1,
                hMfull j (by omega), hcum, hpc']
          rw [← hSS]
          exact hIs
        · rw [ihN]
          have harg : cum + c + ((evs'.map Prod.snd).sum + (([] : List ℤ).length : ℚ))
              = cum + ((((idx, c) :: evs').map Prod.snd).sum + (([] : List ℤ).length : ℚ)) := by
            simp only [List.map_cons, List.sum_cons, List.length_nil, Nat.cast_zero, add_zero]
            ring
          rw [harg]
    | cons b rest =>
      have hsrt' : List.Sorted (· ≤ ·) rest := (List.sorted_cons.mp hsrt).2
      have hble : ∀ x ∈ b :: rest, b ≤ x := by
        intro x hx
        rcases List.mem_cons.mp hx with h1 | h1
        · omega
        · exact (List.sorted_cons.mp hsrt).1 x h1
      have hE : micLoop pred ((idx, c) :: evs') (b :: rest) cum
          = if b < idx then
              (if pred (cum + 1) then some b
                else micLoop pred ((idx, c) :: evs') rest (cum + 1))
            else
              (if pred (cum + c) then some idx
                else micLoop pred evs' (b :: rest) (cum + c)) := by
        rw [micLoop]
      rw [hE]
      by_cases hbidx : b < idx
      · rw [if_pos hbidx]
        have hMb : ∀ j : ℤ, j < b → Mle ((idx, c) :: evs') j = 0 :=
          fun j hj => hMfull j (by omega)
        by_cases hp1 : pred (cum + 1) = true
        · rw [if_pos hp1]
          constructor
          · intro k hk
            have hkb : b = k := by simpa using hk
            subst hkb
            constructor
            · show pred (cum + Mle ((idx, c) :: evs') b + _) = true
              rw [hMfull b hbidx]
              refine hmono _ _ ?_ hp1
              rw [countP_le_cons_head rest (le_refl b)]
              push_cast
              have h0 : (0:ℚ) ≤ (rest.countP (fun x => decide (x ≤ b)) : ℚ) := by positivity
              linarith
            · intro j hj
              by_contra hjb
              push_neg at hjb
              have hjj : pred (cum + Mle ((idx, c) :: evs') j
                  + ((b :: rest).countP (fun x => decide (x ≤ j)) : ℚ)) = true := hj
              rw [hMb j hjb, countP_le_zero hsrt hjb] at hjj
              simp only [Nat.cast_zero, add_zero] at hjj
              simp [hcum] at hjj
          · have htot : pred (cum + ((((idx, c) :: evs').map Prod.snd).sum
                + ((b :: rest).length : ℚ))) = true := by
              refine hmono _ _ ?_ hp1
              simp only [List.map_cons, List.sum_cons, List.length_cons]
              push_cast
              have h0 : (0:ℚ) ≤ (rest.length : ℚ) := by positivity
              linarith
            constructor
            · intro hk
              simp at hk
            · intro hk
              rw [htot] at hk
              simp at hk
        · have hp1' : pred (cum + 1) = false := by
            cases hh : pred (cum + 1) with
            | false => rfl
            | true => exact absurd hh hp1
          rw [if_neg hp1]
          obtain ⟨ihL, ihN⟩ := micLoop_spec pred hmono n ((idx, c) :: evs') rest
            (by simp only [List.length_cons] at hlen ⊢; omega)
            hpw hnn hsrt' (cum + 1) hp1'
          constructor
          · intro k hk
            have hIs := ihL k hk
            have hSS : {j : ℤ | pred (cum + 1 + Mle ((idx, c) :: evs') j
                  + (rest.countP (fun x => decide (x ≤ j)) : ℚ)) = true}
                = {j : ℤ | pred (cum + Mle ((idx, c) :: evs') j
                  + ((b :: rest).countP (fun x => decide (x ≤ j)) : ℚ)) = true} := by
              ext j
              by_cases hjb : b ≤ j
              · have harg : cum + 1 + Mle ((idx, c) :: evs') j
                    + (rest.countP (fun x => decide (x ≤ j)) : ℚ)
                    = cum + Mle ((idx, c) :: evs') j
                    + ((b :: rest).countP (fun x => decide (x ≤ j)) : ℚ) := by
                  rw [countP_le_cons_head rest hjb]
                  push_cast
                  ring
                simp only [Set.mem_setOf_eq, harg]
              · have h1 : rest.countP (fun x => decide (x ≤ j)) = 0 := by
                  rw [List.countP_eq_zero]
                  intro a ha
                  have hba : b ≤ a := (List.sorted_cons.mp hsrt).1 a ha
                  simp only [decide_eq_true_eq]
                  omega
                simp only [Set.mem_setOf_eq, h1, countP_le_zero hsrt (by omega : j < b),
                  Nat.cast_zero, add_zero, hMb j (by omega), hcum, hp1']
            rw [← hSS]
            exact hIs
          · rw [ihN]
            have harg : cum + 1 + ((((idx, c) :: evs').map Prod.snd).sum
                + (rest.length : ℚ))
                = cum + ((((idx, c) :: evs').map Prod.snd).sum
                + ((b :: rest).length : ℚ)) := by
              simp only [List.length_cons]
              push_cast
              ring
            rw [harg]
      · rw [if_neg hbidx]
        have hidxb : idx ≤ b := by omega
        by_cases hpc : pred (cum + c) = true
        · rw [if_pos hpc]
          constructor
          · intro k hk
            have hki : idx = k := by simpa using hk
            subst hki
            constructor
            · show pred (cum + Mle ((idx, c) :: evs') idx + _) = true
              rw [hMat idx (le_refl idx), Mle_eq_zero (fun e he => hidxlt e he)]
              refine hmono _ _ ?_ hpc
              have h0 : (0:ℚ) ≤ (((b :: rest).countP (fun x => decide (x ≤ idx))) : ℚ) := by
                positivity
              linarith
            · intro j hj
              by_contra hji
              push_neg at hji
              have hjj : pred (cum + Mle ((idx, c) :: evs') j
                  + ((b :: rest).countP (fun x => decide (x ≤ j)) : ℚ)) = true := hj
              rw [hMfull j hji, countP_le_zero hsrt (by omega : j < b)] at hjj
              simp only [Nat.cast_zero, add_zero] at hjj
              simp [hcum] at hjj
          · have htot : pred (cum + ((((idx, c) :: evs').map Prod.snd).sum
                + ((b :: rest).length : ℚ))) = true := by
              refine hmono _ _ ?_ hpc
              simp only [List.map_cons, List.sum_cons, List.length_cons]
              push_cast
              have h0 : (0:ℚ) ≤ (rest.length : ℚ) := by positivity
              linarith
            constructor
            · intro hk
              simp at hk
            · intro hk
              rw [htot] at hk
              simp at hk
        · have hpc' : pred (cum + c) = false := by
            cases hh : pred (cum + c) with
            | false => rfl
            | true => exact absurd hh hpc
          rw [if_neg hpc]
          obtain ⟨ihL, ihN⟩ := micLoop_spec pred hmono n evs' (b :: rest)
            (by simp only [List.length_cons] at hlen ⊢; omega)
            hpw' hnn' hsrt (cum + c) hpc'
          constructor
          · intro k hk
            have hIs := ihL k hk
            have hSS : {j : ℤ | pred (cum + c + Mle evs' j
                  + ((b :: rest).countP (fun x => decide (x ≤ j)) : ℚ)) = true}
                = {j : ℤ | pred (cum + Mle ((idx, c) :: evs') j
                  + ((b :: rest).countP (fun x => decide (x ≤ j)) : ℚ)) = true} := by
              ext j
              by_cases hj : idx ≤ j
              · have harg : cum + c + Mle evs' j
                    + ((b :: rest).countP (fun x => decide (x ≤ j)) : ℚ)
                    = cum + Mle ((idx, c) :: evs') j
                    + ((b :: rest).countP (fun x => decide (x ≤ j)) : ℚ) := by
                  rw [hMat j hj]
                  ring
                simp only [Set.mem_setOf_eq, harg]
              · have h1 : Mle evs' j = 0 :=
                  Mle_eq_zero (fun e he => by have := hidxlt e he; omega)
                simp only [Set.mem_setOf_eq, h1, countP_le_zero hsrt (by omega : j < b),
                  Nat.cast_zero, add_zero, hMfull j (by omega), hcum, hpc']
            rw [← hSS]
            exact hIs
          · rw [ihN]
            have harg : cum + c + ((evs'.map Prod.snd).sum + ((b :: rest).length : ℚ))
                = cum + ((((idx, c) :: evs').map Prod.snd).sum + ((b :: rest).length : ℚ)) := by
              simp only [List.map_cons, List.sum_cons]
              ring
            rw [harg]

theorem map_getD_range_eq : ∀ p : List ℚ,
    (List.range p.length).map (fun li => p.getD li 0) = p
  | [] => rfl
  | a :: t => by
    rw [List.length_cons, List.range_succ_eq_map, List.map_cons, List.map_map]
    have h1 : (a :: t).getD 0 0 = a := rfl
    rw [h1]
    congr 1
    have h2 : ((fun li => (a :: t).getD li 0) ∘ Nat.succ) = fun li => t.getD li 0 := by
      funext li
      rfl
    rw [h2, map_getD_range_eq t]

theorem sum_flatMap {α : Type} : ∀ (l : List α) (f : α → List ℚ),
    (l.flatMap f).sum = (l.map fun a => (f a).sum).sum
  | [], _ => rfl
  | a :: l, f => by
    rw [List.flatMap_cons, List.sum_append, List.map_cons, List.sum_cons, sum_flatMap l f]

theorem events_snd_sum (s : BPStore) :
    ((allPageEvents s).map Prod.snd).sum = ((pagesSeq s).map fun pc => pc.2.sum).sum := by
  unfold allPageEvents
  rw [List.map_flatMap, sum_flatMap]
  congr 1
  refine List.map_congr_left ?_
  intro pc hpc
  rw [List.map_map]
  have h2 : (Prod.snd ∘ fun li => ((posIndex pc.1 li, pc.2.getD li 0) : ℤ × ℚ))
      = fun li => pc.2.getD li 0 := by
    funext li
    rfl
  rw [h2, map_getD_range_eq pc.2]

theorem countP_sortBuf (l : List ℤ) (p : ℤ → Bool) : (sortBuf l).countP p = l.countP p :=
  (List.mergeSort_perm l _).countP_eq p

theorem length_sortBuf (l : List ℤ) : (sortBuf l).length = l.length :=
  List.length_mergeSort l

theorem Mle_split : ∀ (evs : List (ℤ × ℚ)) (k : ℤ),
    Mle evs k = Mle evs (k - 1) + Mev evs k
  | [], k => by rw [Mle_nil, Mle_nil, Mev_nil]; ring
  | e :: evs, k => by
    rw [Mle_cons, Mle_cons, Mev_cons, Mle_split evs k]
    by_cases h1 : e.1 = k
    · rw [if_pos (by omega), if_neg (by omega), if_pos h1]
      ring
    · by_cases h2 : e.1 ≤ k - 1
      · rw [if_pos (by omega), if_pos h2, if_neg h1]
        ring
      · rw [if_neg (by omega), if_neg h2, if_neg h1]
        ring

theorem countP_split : ∀ (l : List ℤ) (k : ℤ),
    l.countP (fun b => decide (b ≤ k))
      = l.countP (fun b => decide (b ≤ k - 1)) + l.count k
  | [], k => rfl
  | a :: l, k => by
    rw [List.countP_cons, List.countP_cons, List.count_cons, countP_split l k]
    by_cases h1 : a = k
    · rw [if_pos (by simp; omega), if_neg (by simp; omega), if_pos (by simp [h1])]
      omega
    · by_cases h2 : a ≤ k - 1
      · rw [if_pos (by simp; omega), if_pos (by simp; omega), if_neg (by simp [h1])]
        omega
      · rw [if_neg (by simp; omega), if_neg (by simp; omega), if_neg (by simp [h1])]
        omega

theorem cumulCount_step {s : BPStore} (h : WF s) (k : ℤ) :
    cumulCount s k = cumulCount s (k - 1) + content s k := by
  unfold cumulCount
  rw [Mle_split (allPageEvents s) k, countP_split s.buffer k,
    content_eq, Mev_allPageEvents h]
  push_cast
  ring

theorem rank_mono (r : ℚ) : ∀ x y : ℚ, x ≤ y →
    decide (r < x) = true → decide (r < y) = true := by
  intro x y hxy hx
  simp only [decide_eq_true_eq] at *
  linarith

theorem micLoop_total (s : BPStore) (pred : ℚ → Bool) :
    (0:ℚ) + (((allPageEvents s).map Prod.snd).sum + ((sortBuf s.buffer).length : ℚ))
      = totalCount s := by
  rw [zero_add, events_snd_sum s, length_sortBuf, totalCount]
  ring

theorem keyAtRank_isLeast_BP {s : BPStore} (h : WF s) {r : ℚ} (h0 : 0 ≤ r)
    (hlt : r < totalCount s) :
    IsLeast {j : ℤ | r < cumulCount s j} (keyAtRank s r) := by
  have hcum0 : decide (r < (0:ℚ)) = false := by
    simp only [decide_eq_false_iff_not, not_lt]
    exact h0
  obtain ⟨ihL, ihN⟩ := micLoop_spec (fun c => decide (r < c)) (rank_mono r)
    ((allPageEvents s).length + (sortBuf s.buffer).length)
    (allPageEvents s) (sortBuf s.buffer) (le_refl _) (allPageEvents_pairwise h)
    (allPageEvents_nonneg h) (sortBuf_sorted s.buffer) 0 hcum0
  match hsome : micLoop (fun c => decide (r < c)) (allPageEvents s) (sortBuf s.buffer) 0 with
  | none =>
    exfalso
    have := ihN.mp hsome
    rw [micLoop_total s (fun c => decide (r < c))] at this
    simp only [decide_eq_false_iff_not, not_lt] at this
    linarith
  | some k =>
    have hIs := ihL k hsome
    have hkr : keyAtRank s r = k := by
      unfold keyAtRank minIndexWithCumulCount
      rw [if_neg (not_lt.mpr h0)]
      show (match micLoop (fun c => decide (r < c)) (allPageEvents s) (sortBuf s.buffer) 0 with
        | some k => k
        | none => match s.maxIndexGo with
          | Except.ok m => m
          | Except.error _ => 0) = k
      rw [hsome]
    rw [hkr]
    have hSS : {j : ℤ | decide (r < 0 + Mle (allPageEvents s) j
          + ((sortBuf s.buffer).countP (fun b => decide (b ≤ j)) : ℚ)) = true}
        = {j : ℤ | r < cumulCount s j} := by
      ext j
      rw [Set.mem_setOf_eq, Set.mem_setOf_eq, decide_eq_true_eq, zero_add, cumulCount,
        countP_sortBuf]
    rw [← hSS]
    exact hIs

theorem keyAtRank_total_BP {s : BPStore} (h : WF s) {r : ℚ} (h0 : 0 ≤ r)
    (hge : totalCount s ≤ r) {m : ℤ} (hmax : s.maxIndexGo = .ok m) :
    keyAtRank s r = m := by
  have hcum0 : decide (r < (0:ℚ)) = false := by
    simp only [decide_eq_false_iff_not, not_lt]
    exact h0
  obtain ⟨ihL, ihN⟩ := micLoop_spec (fun c => decide (r < c)) (rank_mono r)
    ((allPageEvents s).length + (sortBuf s.buffer).length)
    (allPageEvents s) (sortBuf s.buffer) (le_refl _) (allPageEvents_pairwise h)
    (allPageEvents_nonneg h) (sortBuf_sorted s.buffer) 0 hcum0
  have hnone : micLoop (fun c => decide (r < c)) (allPageEvents s) (sortBuf s.buffer) 0
      = none := by
    rw [ihN, micLoop_total s (fun c => decide (r < c))]
    simp only [decide_eq_false_iff_not, not_lt]
    exact hge
  unfold keyAtRank minIndexWithCumulCount
  rw [if_neg (not_lt.mpr h0)]
  show (match micLoop (fun c => decide (r < c)) (allPageEvents s) (sortBuf s.buffer) 0 with
    | some k => k
    | none => match s.maxIndexGo with
      | Except.ok m => m
      | Except.error _ => 0) = m
  rw [hnone, hmax]

theorem denseKeyAtRankAux_none (rank : ℚ) : ∀ (bins : List ℚ) (i : ℤ) (n : ℚ),
    (∀ b ∈ bins, 0 ≤ b) → n + bins.sum ≤ rank →
    DenseStore.keyAtRankAux rank bins i n = none
  | [], _, _, _, _ => rfl
  | b :: bs, i, n, hnn, hle => by
    have hbs : 0 ≤ bs.sum := List.sum_nonneg (fun x hx => hnn x (List.mem_cons_of_mem _ hx))
    have hb : 0 ≤ b := hnn b (List.mem_cons_self _ _)
    rw [List.sum_cons] at hle
    rw [DenseStore.keyAtRankAux]
    simp only [if_neg (show ¬ rank < n + b by linarith)]
    exact denseKeyAtRankAux_none rank bs (i + 1) (n + b)
      (fun x hx => hnn x (List.mem_cons_of_mem _ hx)) (by linarith)

theorem dense_keyAtRank_over (s : DenseStore) (hnn : ∀ b ∈ s.bins, 0 ≤ b) {r : ℚ}
    (hge : s.bins.sum ≤ r) : s.keyAtRank r = s.maxIndex := by
  unfold DenseStore.keyAtRank
  rw [denseKeyAtRankAux_none r s.bins s.minIndex 0 hnn (by simpa using hge)]
  rfl

theorem dense_keyAtRank_neg (s : DenseStore) (hne : s.bins ≠ [])
    (hnn : ∀ b ∈ s.bins, 0 ≤ b) {r : ℚ} (hr : r < 0) : s.keyAtRank r = s.minIndex := by
  cases hbins : s.bins with
  | nil => exact absurd hbins hne
  | cons b bs =>
    have hb0 : (0:ℚ) ≤ b := hnn b (by rw [hbins]; exact List.mem_cons_self _ _)
    unfold DenseStore.keyAtRank
    rw [hbins, DenseStore.keyAtRankAux_cons_pos bs s.minIndex (by linarith)]
    rfl

theorem keyAtRank_neg_clamp (s : BPStore) {r : ℚ} (hr : r < 0) :
    keyAtRank s r = keyAtRank s 0 := by
  unfold keyAtRank
  rw [if_pos hr, if_neg (lt_irrefl 0)]

/-- C4 (corrected): `KeyAtRank(r)` is the least index whose cumulative count
strictly exceeds `r` within the main range `0 ≤ r < TotalCount` for both the
dense store and the buffered-paginated store (`cumulCount` is the cumulative
of the store content, per the last conjunct).  Outside that range the two
stores differ from the claim: the buffered-paginated store clamps `r < 0` to
`0` and falls back to `MaxIndex()` when `r ≥ TotalCount`, but the dense store
does NOT clamp negative ranks — it returns the first allocated slot
(`minIndex`, see the counterexample) — and for `r ≥ TotalCount` it returns
the raw `maxIndex` field. -/
theorem claim_C4_key_at_rank :
    (∀ (s : DenseStore) (r : ℚ), (∀ b ∈ s.bins, 0 ≤ b) → 0 ≤ r → r < s.bins.sum →
      IsLeast {k : ℤ | r < s.cumul k} (s.keyAtRank r)) ∧
    (∀ (s : DenseStore) (r : ℚ), (∀ b ∈ s.bins, 0 ≤ b) → s.bins.sum ≤ r →
      s.keyAtRank r = s.maxIndex) ∧
    (∀ (s : DenseStore) (r : ℚ), s.bins ≠ [] → (∀ b ∈ s.bins, 0 ≤ b) → r < 0 →
      s.keyAtRank r = s.minIndex) ∧
    (∀ (s : BPStore) (r : ℚ), r < 0 → keyAtRank s r = keyAtRank s 0) ∧
    (∀ s : BPStore, WF s → ∀ r : ℚ, 0 ≤ r → r < totalCount s →
      IsLeast {k : ℤ | r < cumulCount s k} (keyAtRank s r)) ∧
    (∀ s : BPStore, WF s → ∀ r : ℚ, 0 ≤ r → totalCount s ≤ r →
      ∀ m : ℤ, maxIndexGo s = .ok m → keyAtRank s r = m) ∧
    (∀ s : BPStore, WF s → ∀ k : ℤ, cumulCount s k = cumulCount s (k - 1) + content s k) :=
  ⟨fun s r hnn h0 hlt => DenseStore.keyAtRank_isLeast s r hnn h0 hlt,
   fun s _ hnn hge => dense_keyAtRank_over s hnn hge,
   fun s _ hne hnn hr => dense_keyAtRank_neg s hne hnn hr,
   fun s _ hr => keyAtRank_neg_clamp s hr,
   fun _ hW _ h0 hlt => keyAtRank_isLeast_BP hW h0 hlt,
   fun _ hW _ h0 hge _ hmax => keyAtRank_total_BP hW h0 hge hmax,
   fun _ hW k => cumulCount_step hW k⟩

/-- A concrete dense store holding a single count at index `0`. -/
def denseOne : DenseStore :=
  { bins := [(1:ℚ)], count := 1, minIndex := 0, maxIndex := 0 }

/-- A concrete buffered-paginated store with the single buffered index `7`. -/
def buf7 : BPStore :=
  { buffer := [(7:ℤ)], bufferCompactionTriggerLen := 64, pages := [], minPageIndex := none }

theorem buf7_WF : WF buf7 := by
  refine ⟨?_, ?_, ?_⟩
  · intro op hop
    simp [buf7] at hop
  · intro op hop
    simp [buf7] at hop
  · intro _
    rfl

/-- Witness for C4: the dense store holding one count at index `0`, and a
buffered-paginated store with the single buffered index `7`. -/
theorem claim_C4_witness :
    ((0:ℚ) ≤ 0 ∧ (0:ℚ) < denseOne.bins.sum ∧ denseOne.bins.sum ≤ 1 ∧ (-1:ℚ) < 0) ∧
    IsLeast {k : ℤ | (0:ℚ) < denseOne.cumul k} (denseOne.keyAtRank 0) ∧
    denseOne.keyAtRank 1 = 0 ∧
    denseOne.keyAtRank (-1) = 0 ∧
    keyAtRank buf7 (-1) = keyAtRank buf7 0 ∧
    IsLeast {k : ℤ | (0:ℚ) < cumulCount buf7 k} (keyAtRank buf7 0) ∧
    keyAtRank buf7 (totalCount buf7) = 7 ∧
    cumulCount buf7 0 = cumulCount buf7 (0 - 1) + content buf7 0 := by
  obtain ⟨h1, h2, h3, h4, h5, h6, h7⟩ := claim_C4_key_at_rank
  refine ⟨⟨by decide, by simp [denseOne], by simp [denseOne], by decide⟩,
    ?_, ?_, ?_, ?_, ?_, ?_, ?_⟩
  · exact h1 _ 0 (by decide) (by decide) (by simp [denseOne])
  · exact h2 _ 1 (by decide) (by simp [denseOne])
  · exact h3 _ (-1) (by decide) (by decide) (by decide)
  · exact h4 _ (-1) (by decide)
  · exact h5 _ buf7_WF 0 (by decide) (by simp [buf7, totalCount, pagesSeq])
  · exact h6 _ buf7_WF _ (by simp [buf7, totalCount, pagesSeq]) (le_refl _) 7 (by rfl)
  · exact h7 _ buf7_WF 0

theorem decCC_bounce (n : ℕ) (pi : ℤ) (s : BPStore) (toks : List EncTok) :
    decCC n pi 32 s toks = decCC n (pi + 1) 0 s toks := by
  cases n with
  | zero => rw [decCC, decCC]
  | succ k =>
    cases toks with
    | nil =>
      rw [decCC] <;>
        first
          | rw [if_neg (show ¬ (32 < 32) by omega)]
          | (intro c r h; simp at h)
    | cons t rest =>
      cases t <;>
        (rw [decCC] <;>
          first
            | rw [if_neg (show ¬ (32 < 32) by omega)]
            | (intro c r h; simp at h))

theorem content_pageIncEnsure {s : BPStore} (h : WF s) (pi : ℤ) {li : ℕ} (hli : li < 32)
    {c : ℚ} (hc : 0 ≤ c) :
    WF ((s.ensurePage pi).pageInc pi li c) ∧
    ((s.ensurePage pi).pageInc pi li c).buffer = s.buffer ∧
    ∀ i : ℤ, content ((s.ensurePage pi).pageInc pi li c) i
      = content s i + (if i = posIndex pi li then c else 0) := by
  obtain ⟨hW', hbuf', htrig', hval', p₀, hp₀, hl₀⟩ := ensurePage_spec h pi
  obtain ⟨hW1, hp1, hv1⟩ := pageInc_spec hW' hp₀ hl₀ hli hc
  refine ⟨hW1, by rw [pageInc_buffer, hbuf'], ?_⟩
  intro i
  rw [content_eq, content_eq, hv1 (pageIndex i) (lineIndex i),
    hval' (pageIndex i) (lineIndex i)]
  have hbuf : ((s.ensurePage pi).pageInc pi li c).buffer = s.buffer := by
    rw [pageInc_buffer, hbuf']
  rw [hbuf]
  by_cases hk : i = posIndex pi li
  · subst hk
    rw [if_pos ⟨pageIndex_posIndex pi hli, lineIndex_posIndex pi hli⟩, if_pos rfl]
    ring
  · rw [if_neg (fun hx => hk (by rw [← posIndex_eta i, hx.1, hx.2])), if_neg hk]
    ring

theorem decCC_spec : ∀ (cs : List ℚ) (pi : ℤ) (li : ℕ), li < 32 →
    ∀ (s : BPStore), WF s → (∀ c ∈ cs, 0 ≤ c) → ∀ (rest : List EncTok),
    ∃ s', decCC cs.length pi li s (cs.map .varfloat ++ rest) = .ok (s', rest) ∧
      WF s' ∧ s'.buffer = s.buffer ∧
      ∀ i : ℤ, content s' i = content s i +
        (if posIndex pi li ≤ i ∧ i < posIndex pi li + cs.length
          then cs.getD (i - posIndex pi li).toNat 0 else 0)
  | [], pi, li, hli, s, hW, _, rest => by
    refine ⟨s, by rw [List.map_nil, List.nil_append, List.length_nil, decCC], hW, rfl, ?_⟩
    intro i
    rw [List.length_nil]
    rw [if_neg (by omega)]
    ring
  | c :: cs', pi, li, hli, s, hW, hnn, rest => by
    obtain ⟨hW1, hbuf1, hc1⟩ := content_pageIncEnsure hW pi hli
      (hnn c (List.mem_cons_self _ _))
    have hnn' : ∀ x ∈ cs', 0 ≤ x := fun x hx => hnn x (List.mem_cons_of_mem _ hx)
    have hstep : decCC (c :: cs').length pi li s ((c :: cs').map .varfloat ++ rest)
        = decCC cs'.length pi (li + 1) ((s.ensurePage pi).pageInc pi li c)
          (cs'.map .varfloat ++ rest) := by
      rw [List.length_cons, List.map_cons, List.cons_append, decCC, if_pos hli]
    by_cases h32 : li + 1 < 32
    · obtain ⟨s', heq, hW', hbuf', hcv⟩ := decCC_spec cs' pi (li + 1) h32
        ((s.ensurePage pi).pageInc pi li c) hW1 hnn' rest
      refine ⟨s', by rw [hstep, heq], hW', by rw [hbuf', hbuf1], ?_⟩
      intro i
      rw [hcv i, hc1 i]
      have hpos1 : posIndex pi (li + 1) = posIndex pi li + 1 := by
        unfold posIndex
        push_cast
        ring
      rw [hpos1, List.length_cons]
      by_cases hik : i = posIndex pi li
      · rw [if_pos hik, if_neg (by omega), if_pos (by omega)]
        rw [hik]
        simp
      · rw [if_neg hik]
        by_cases hin : posIndex pi li + 1 ≤ i ∧ i < posIndex pi li + 1 + cs'.length
        · rw [if_pos hin, if_pos (by push_cast; omega)]
          have hidx : (i - posIndex pi li).toNat = (i - (posIndex pi li + 1)).toNat + 1 := by
            omega
          rw [hidx, List.getD_cons_succ]
          ring
        · rw [if_neg hin, if_neg (by push_cast at hin ⊢; omega)]
          ring
    · have hli31 : li = 31 := by omega
      obtain ⟨s', heq, hW', hbuf', hcv⟩ := decCC_spec cs' (pi + 1) 0 (by omega)
        ((s.ensurePage pi).pageInc pi li c) hW1 hnn' rest
      have hstep2 : decCC cs'.length pi (li + 1)
            ((s.ensurePage pi).pageInc pi li c) (cs'.map .varfloat ++ rest)
          = decCC cs'.length (pi + 1) 0
            ((s.ensurePage pi).pageInc pi li c) (cs'.map .varfloat ++ rest) := by
        rw [show li + 1 = 32 by omega, decCC_bounce]
      refine ⟨s', by rw [hstep, hstep2, heq], hW', by rw [hbuf', hbuf1], ?_⟩
      intro i
      rw [hcv i, hc1 i]
      have hpos1 : posIndex (pi + 1) 0 = posIndex pi li + 1 := by
        unfold posIndex
        push_cast
        omega
      rw [hpos1, List.length_cons]
      by_cases hik : i = posIndex pi li
      · rw [if_pos hik, if_neg (by omega), if_pos (by omega)]
        rw [hik]
        simp
      · rw [if_neg hik]
        by_cases hin : posIndex pi li + 1 ≤ i ∧ i < posIndex pi li + 1 + cs'.length
        · rw [if_pos hin, if_pos (by push_cast; omega)]
          have hidx : (i - posIndex pi li).toNat = (i - (posIndex pi li + 1)).toNat + 1 := by
            omega
          rw [hidx, List.getD_cons_succ]
          ring
        · rw [if_neg hin, if_neg (by push_cast at hin ⊢; omega)]
          ring

theorem flatten_chunks : ∀ (l : List (ℤ × List ℚ)),
    (l.flatMap (fun pc => if 0 < pc.2.length
        then [(.flagContiguousCounts : EncTok) :: .uvarint pc.2.length
              :: .varint (posIndex pc.1 0) :: pc.2.map .varfloat]
        else [])).flatten
      = l.flatMap (fun pc => if 0 < pc.2.length
        then (.flagContiguousCounts : EncTok) :: .uvarint pc.2.length
              :: .varint (posIndex pc.1 0) :: pc.2.map .varfloat
        else [])
  | [] => rfl
  | pc :: l => by
    rw [List.flatMap_cons, List.flatMap_cons, List.flatten_append, flatten_chunks l]
    by_cases h : 0 < pc.2.length
    · rw [if_pos h, if_pos h]
      simp
    · rw [if_neg h, if_neg h]
      simp

theorem encode_chunks (s : BPStore) :
    ∃ chunks : List (List EncTok), encode s = chunks.flatten ∧
      ∀ ch ∈ chunks,
        (∃ len : ℕ, ch = .flagIndexDeltas :: .uvarint len :: deltaToks s.buffer 0) ∨
        (∃ (cs : List ℚ) (start : ℤ),
          ch = .flagContiguousCounts :: .uvarint cs.length :: .varint start
            :: cs.map .varfloat) := by
  refine ⟨(if 0 < s.buffer.length
      then [(.flagIndexDeltas : EncTok) :: .uvarint s.buffer.length :: deltaToks s.buffer 0]
      else []) ++
    (pagesSeq s).flatMap (fun pc => if 0 < pc.2.length
      then [(.flagContiguousCounts : EncTok) :: .uvarint pc.2.length
            :: .varint (posIndex pc.1 0) :: pc.2.map .varfloat]
      else []), ?_, ?_⟩
  · rw [List.flatten_append, flatten_chunks]
    unfold encode
    congr 1
    by_cases h : 0 < s.buffer.length
    · rw [if_pos h, if_pos h]
      simp
    · rw [if_neg h, if_neg h]
      rfl
  · intro ch hch
    rcases List.mem_append.mp hch with h1 | h1
    · left
      refine ⟨s.buffer.length, ?_⟩
      by_cases h : 0 < s.buffer.length
      · rw [if_pos h] at h1
        simpa using h1
      · rw [if_neg h] at h1
        simp at h1
    · right
      obtain ⟨pc, hpc, hin⟩ := List.mem_flatMap.mp h1
      by_cases h : 0 < pc.2.length
      · rw [if_pos h] at hin
        refine ⟨pc.2, posIndex pc.1 0, ?_⟩
        simpa using hin
      · rw [if_neg h] at hin
        simp at hin

/-- C9 (corrected; the primitive encoders are spec-modelled tokens): every
`ContiguousCounts` chunk written by `Encode` is `Flag`, `Uvarint64(len)`,
`Varint64(startIndex)` followed immediately by `len` `Varfloat64` counts —
no `indexStride` field is written — and `DecodeAndMergeWith` reads no stride
either: it adds count `i` at index `startIndex + i` (stride fixed at `1`). -/
theorem claim_C9_contiguous_counts :
    (∀ s : BPStore, ∃ chunks : List (List EncTok), encode s = chunks.flatten ∧
      ∀ ch ∈ chunks,
        (∃ len : ℕ, ch = .flagIndexDeltas :: .uvarint len :: deltaToks s.buffer 0) ∨
        (∃ (cs : List ℚ) (start : ℤ),
          ch = .flagContiguousCounts :: .uvarint cs.length :: .varint start
            :: cs.map .varfloat)) ∧
    (∀ s : BPStore, WF s → ∀ cs : List ℚ, (∀ c ∈ cs, 0 ≤ c) →
      ∀ (off : ℤ) (rest : List EncTok),
      ∃ s', decodeContiguous s
            (.uvarint cs.length :: .varint off :: (cs.map .varfloat ++ rest))
          = .ok (s', rest) ∧ WF s' ∧ s'.buffer = s.buffer ∧
        ∀ i : ℤ, content s' i = content s i +
          (if off ≤ i ∧ i < off + cs.length then cs.getD (i - off).toNat 0 else 0)) := by
  constructor
  · exact encode_chunks
  · intro s hW cs hnn off rest
    obtain ⟨s', heq, hW', hbuf', hcv⟩ :=
      decCC_spec cs (pageIndex off) (lineIndex off) (lineIndex_lt off) s hW hnn rest
    refine ⟨s', heq, hW', hbuf', ?_⟩
    intro i
    rw [hcv i, posIndex_eta off]

/-- Counterexample for C9 as claimed: the chunk for the page written by
`AddWithCount(0, 2)` has no stride token between the start index and the
counts, and a stream that does carry the claimed `Varint64(indexStride)`
field is rejected by the decoder (`EOF`), which proves the decoder never
reads a stride. -/
theorem claim_C9_counterexample :
    (BPStore.new.addWithCount 0 2 false).encode
      = .flagContiguousCounts :: .uvarint 32 :: .varint 0 ::
          (binInc (List.replicate 32 (0:ℚ)) 0 2).map .varfloat ∧
    decodeContiguous BPStore.new [.uvarint 1, .varint 0, .varint 1, .varfloat 5]
      = .error "EOF" := by
  constructor
  · rfl
  · show decCC 1 (pageIndex 0) (lineIndex 0) BPStore.new [.varint 1, .varfloat 5]
      = .error "EOF"
    rw [show (1:ℕ) = 0 + 1 from rfl, decCC] <;>
      first
        | rw [if_pos (show lineIndex 0 < 32 by decide)]
        | (intro c r h; simp at h)

/-- Witness for C9: decoding one count `3` at start index `0` into a fresh
store. -/
theorem claim_C9_witness :
    (∀ c ∈ [(3:ℚ)], 0 ≤ c) ∧
    (∃ s', decodeContiguous BPStore.new
          (.uvarint [(3:ℚ)].length :: .varint 0 :: ([(3:ℚ)].map .varfloat ++ []))
        = .ok (s', []) ∧ WF s' ∧ s'.buffer = BPStore.new.buffer ∧
      ∀ i : ℤ, content s' i = content BPStore.new i +
        (if 0 ≤ i ∧ i < 0 + [(3:ℚ)].length then [(3:ℚ)].getD (i - 0).toNat 0 else 0)) :=
  ⟨by decide, claim_C9_contiguous_counts.2 BPStore.new new_WF [3] (by decide) 0 []⟩

end BPStore

/-! ### The GK sketch (`GKArray`, gk.go).

Values are modeled as exact rationals (finite float64s); `min`/`max`/`sum`
keep full float semantics via `GFloat`.  `g` and `delta` are `uint32`,
modeled as `ℕ` with the 32-bit wraparound made explicit in `add32`/`sub32`
exactly where the Go code adds or subtracts them. -/

def add32 (a b : ℕ) : ℕ := (a + b) % 4294967296

def sub32 (a b : ℕ) : ℕ := (a + 4294967296 - b % 4294967296) % 4294967296

/-- The finite value of a float; the merge path only reads `min` of a
nonempty summary, where it is finite. -/
def GFloat.toRat : GFloat → ℚ
  | .fin q => q
  | _ => 0

structure GKEntry where
  v : ℚ
  g : ℕ
  delta : ℕ
  deriving DecidableEq, Repr

structure GKArray where
  epsilon : ℚ
  entries : List GKEntry
  incoming : List ℚ
  min : GFloat
  max : GFloat
  count : ℤ
  sum : GFloat
  deriving DecidableEq, Repr

/-- `NewGKArray(epsilon)`. -/
def newGKArray (eps : ℚ) : GKArray :=
  { epsilon := eps, entries := [], incoming := [], min := .pinf, max := .ninf,
    count := 0, sum := .fin 0 }

namespace GKArray

/-- `sort.Sort(incomingEntries)` with `Less i j = (v i < v j)`: some order
consistent with the comparator (the Go sort is unstable; ties may come in
any order). -/
def sortEntries (l : List GKEntry) : List GKEntry :=
  l.mergeSort (fun a b => decide (a.v ≤ b.v))

/-- The merge loop of `compressWithIncoming` over the sorted incoming
entries (`i`) and the existing entries (`j`). -/
def compressLoop (τ : ℕ) : List GKEntry → List GKEntry → List GKEntry
  | [], [] => []
  | [x], [] => [x]
  | x :: x2 :: inc'', [] =>
    if add32 x.g x2.g ≤ τ then
      compressLoop τ ({ x2 with g := add32 x2.g x.g } :: inc'') []
    else x :: compressLoop τ (x2 :: inc'') []
  | x :: inc', e :: e2 :: ent'' =>
    if x.v < e.v then
      if add32 (add32 x.g e.g) e.delta ≤ τ then
        compressLoop τ inc' ({ e with g := add32 e.g x.g } :: e2 :: ent'')
      else
        { x with delta := sub32 (add32 e.g e.delta) x.g }
          :: compressLoop τ inc' (e :: e2 :: ent'')
    else
      if add32 (add32 e.g e2.g) e2.delta ≤ τ then
        compressLoop τ (x :: inc') ({ e2 with g := add32 e2.g e.g } :: ent'')
      else e :: compressLoop τ (x :: inc') (e2 :: ent'')
  | x :: inc', [e] =>
    if x.v < e.v then
      if add32 (add32 x.g e.g) e.delta ≤ τ then
        compressLoop τ inc' [{ e with g := add32 e.g x.g }]
      else
        { x with delta := sub32 (add32 e.g e.delta) x.g } :: compressLoop τ inc' [e]
    else e :: compressLoop τ (x :: inc') []
  | [], e :: e2 :: ent'' =>
    if add32 (add32 e.g e2.g) e2.delta ≤ τ then
      compressLoop τ [] ({ e2 with g := add32 e2.g e.g } :: ent'')
    else e :: compressLoop τ [] (e2 :: ent'')
  | [], [e] => [e]
  termination_by inc ent => inc.length + ent.length
  decreasing_by all_goals simp only [List.length_cons] <;> omega

/-- `removalThreshold := 2 * uint32(s.epsilon*float64(s.count-1))` (gk.go):
the float-to-`uint32` conversion is modeled as `⌊·⌋.toNat % 2^32`, and the
`uint32` multiplication by 2 wraps modulo `2^32` as well. -/
def removalThreshold (s : GKArray) : ℕ :=
  (2 * ((Int.floor (s.epsilon * ((s.count : ℚ) - 1))).toNat % 4294967296)) % 4294967296

/-- `compressWithIncoming(incomingEntries)` (gk.go): fold the buffer into
the incoming entries (`g = 1`, `delta = 0`), sort, and run the merge loop
with the removal threshold. -/
def compressWithIncoming (s : GKArray) (incomingEntries : List GKEntry) : GKArray :=
  let inc := if 0 < s.incoming.length
    then incomingEntries ++ s.incoming.map (fun v => ({ v := v, g := 1, delta := 0 } : GKEntry))
    else incomingEntries
  { s with
    entries := compressLoop (removalThreshold s) (sortEntries inc) s.entries,
    incoming := [] }

/-- `Compress()`. -/
def compress (s : GKArray) : GKArray := s.compressWithIncoming []

/-- `Add(v)`: count, sum, buffer and min/max updates, then a compression
every `int64(1/ε)+1` values. -/
def add (s : GKArray) (v : ℚ) : GKArray :=
  let s' : GKArray := { s with
    count := s.count + 1,
    sum := GFloat.fadd s.sum (.fin v),
    incoming := s.incoming ++ [v],
    min := if GFloat.flt (.fin v) s.min then .fin v else s.min,
    max := if GFloat.fgt (.fin v) s.max then .fin v else s.max }
  if s'.count % (Int.floor (1 / s.epsilon) + 1) = 0 then s'.compressWithIncoming [] else s'

/-- `Copy(o)`: replace the summary data (the buffer is appended to). -/
def copyFrom (s o : GKArray) : GKArray :=
  { s with
    entries := o.entries,
    incoming := s.incoming ++ o.incoming,
    min := o.min,
    max := o.max,
    count := o.count,
    sum := o.sum }

/-- The outcome of a call to `Merge`, which returns nothing and can panic. -/
inductive MergeOutcome where
  | panicked (msg : String)
  | ok (s : GKArray)
  deriving DecidableEq, Repr

/-- `Merge(o)` (gk.go): panics on an epsilon mismatch; otherwise folds an
epsilon-approximate distribution extracted from `o` into `s`. -/
def merge (s o : GKArray) : MergeOutcome :=
  if o.epsilon ≠ s.epsilon then
    .panicked "Can't merge two GKArrays with different epsilons!"
  else if o.count = 0 then .ok s
  else if s.count = 0 then .ok (s.copyFrom o)
  else
    let o' := o.compressWithIncoming []
    let spread := (Int.floor (o.epsilon * ((o.count : ℚ) - 1))).toNat % 4294967296
    let e0 := o'.entries.getD 0 { v := 0, g := 0, delta := 0 }
    let n := sub32 (sub32 (add32 e0.g e0.delta) spread) 1
    let first := if 0 < n
      then [({ v := GFloat.toRat o.min, g := n, delta := 0 } : GKEntry)] else []
    let middles := (o'.entries.zip o'.entries.tail).map fun p =>
      ({ v := p.1.v, g := sub32 (add32 p.2.g p.2.delta) p.1.delta, delta := 0 } : GKEntry)
    let last : GKEntry :=
      { v := (o'.entries.getLast?.getD { v := 0, g := 0, delta := 0 }).v,
        g := add32 spread 1, delta := 0 }
    let s' : GKArray := { s with
      count := s.count + o.count,
      sum := GFloat.fadd s.sum o.sum,
      min := if GFloat.flt o.min s.min then o.min else s.min,
      max := if GFloat.fgt o.max s.max then o.max else s.max }
    .ok (s'.compressWithIncoming (first ++ middles ++ [last]))

end GKArray

namespace GKArray

theorem add32_comm (a b : ℕ) : add32 a b = add32 b a := by
  unfold add32
  rw [Nat.add_comm]

theorem sortEntries_sorted (l : List GKEntry) :
    List.Pairwise (fun a b : GKEntry => a.v ≤ b.v) (sortEntries l) := by
  refine List.Pairwise.imp ?_ (List.sorted_mergeSort ?_ ?_ l)
  · intro a b hab
    exact of_decide_eq_true hab
  · intro a b c hab hbc
    simp only [decide_eq_true_eq] at *
    linarith
  · intro a b
    simp only [Bool.or_eq_true, decide_eq_true_eq]
    exact le_total a.v b.v

theorem sortEntries_mem (l : List GKEntry) (e : GKEntry) :
    e ∈ sortEntries l ↔ e ∈ l :=
  (List.mergeSort_perm l _).mem_iff

/-- The merge loop never modifies a value: every output entry takes its `v`
from an input entry, and merging two `v`-sorted lists yields a `v`-sorted
list — with no hypothesis on the counts at all. -/
theorem compressLoop_sorted (τ : ℕ) : ∀ (inc ent : List GKEntry),
    List.Pairwise (fun a b : GKEntry => a.v ≤ b.v) inc →
    List.Pairwise (fun a b : GKEntry => a.v ≤ b.v) ent →
    List.Pairwise (fun a b : GKEntry => a.v ≤ b.v) (compressLoop τ inc ent) ∧
    ∀ e ∈ compressLoop τ inc ent, ∃ e₀ ∈ inc ++ ent, e.v = e₀.v
  | [], [], _, _ => by
    rw [compressLoop]
    exact ⟨List.Pairwise.nil, by simp⟩
  | [x], [], _, _ => by
    rw [compressLoop]
    refine ⟨List.pairwise_singleton _ _, ?_⟩
    intro e he
    rw [List.mem_singleton] at he
    subst he
    exact ⟨e, by simp, rfl⟩
  | [], [e], _, _ => by
    rw [compressLoop]
    refine ⟨List.pairwise_singleton _ _, ?_⟩
    intro a ha
    rw [List.mem_singleton] at ha
    subst ha
    exact ⟨a, by simp, rfl⟩
  | x :: x2 :: inc'', [], hpi, hpe => by
    rw [compressLoop]
    by_cases h : add32 x.g x2.g ≤ τ
    · rw [if_pos h]
      have hpi2 : List.Pairwise (fun a b : GKEntry => a.v ≤ b.v)
          ({ x2 with g := add32 x2.g x.g } :: inc'') := by
        have h2 := (List.pairwise_cons.mp hpi).2
        rw [List.pairwise_cons] at h2 ⊢
        exact ⟨fun b hb => h2.1 b hb, h2.2⟩
      obtain ⟨ihp, ihs⟩ := compressLoop_sorted τ _ [] hpi2 List.Pairwise.nil
      refine ⟨ihp, ?_⟩
      intro a ha
      obtain ⟨e₀, he₀, hveq⟩ := ihs a ha
      rw [List.append_nil] at he₀ ⊢
      rcases List.mem_cons.mp he₀ with h1 | h1
      · exact ⟨x2, List.mem_cons_of_mem x (List.mem_cons_self x2 inc''),
          by rw [hveq, h1]⟩
      · exact ⟨e₀, List.mem_cons_of_mem x (List.mem_cons_of_mem x2 h1), hveq⟩
    · rw [if_neg h]
      obtain ⟨ihp, ihs⟩ := compressLoop_sorted τ (x2 :: inc'') []
        (List.pairwise_cons.mp hpi).2 List.Pairwise.nil
      constructor
      · rw [List.pairwise_cons]
        refine ⟨?_, ihp⟩
        intro b hb
        obtain ⟨e₀, he₀, hveq⟩ := ihs b hb
        rw [List.append_nil] at he₀
        rw [hveq]
        exact (List.pairwise_cons.mp hpi).1 e₀ he₀
      · intro a ha
        rw [List.append_nil]
        rcases List.mem_cons.mp ha with h1 | h1
        · subst h1
          exact ⟨a, List.mem_cons_self a _, rfl⟩
        · obtain ⟨e₀, he₀, hveq⟩ := ihs a h1
          rw [List.append_nil] at he₀
          exact ⟨e₀, List.mem_cons_of_mem x he₀, hveq⟩
  | x :: inc', e :: e2 :: ent'', hpi, hpe => by
    rw [compressLoop]
    by_cases hv : x.v < e.v
    · rw [if_pos hv]
      by_cases habs : add32 (add32 x.g e.g) e.delta ≤ τ
      · rw [if_pos habs]
        have hpe2 : List.Pairwise (fun a b : GKEntry => a.v ≤ b.v)
            ({ e with g := add32 e.g x.g } :: e2 :: ent'') := by
          rw [List.pairwise_cons] at hpe ⊢
          exact ⟨fun b hb => hpe.1 b hb, hpe.2⟩
        obtain ⟨ihp, ihs⟩ := compressLoop_sorted τ inc' _
          (List.pairwise_cons.mp hpi).2 hpe2
        refine ⟨ihp, ?_⟩
        intro a ha
        obtain ⟨e₀, he₀, hveq⟩ := ihs a ha
        rcases List.mem_append.mp he₀ with h1 | h1
        · exact ⟨e₀, List.mem_append.mpr (Or.inl (List.mem_cons_of_mem x h1)), hveq⟩
        · rcases List.mem_cons.mp h1 with h2 | h2
          · exact ⟨e, List.mem_append.mpr (Or.inr (List.mem_cons_self e _)),
              by rw [hveq, h2]⟩
          · exact ⟨e₀, List.mem_append.mpr (Or.inr (List.mem_cons_of_mem e h2)), hveq⟩
      · rw [if_neg habs]
        obtain ⟨ihp, ihs⟩ := compressLoop_sorted τ inc' (e :: e2 :: ent'')
          (List.pairwise_cons.mp hpi).2 hpe
        constructor
        · rw [List.pairwise_cons]
          refine ⟨?_, ihp⟩
          intro b hb
          obtain ⟨e₀, he₀, hveq⟩ := ihs b hb
          rw [hveq]
          show x.v ≤ e₀.v
          rcases List.mem_append.mp he₀ with h1 | h1
          · exact (List.pairwise_cons.mp hpi).1 e₀ h1
          · rcases List.mem_cons.mp h1 with h2 | h2
            · rw [h2]
              exact le_of_lt hv
            · exact le_of_lt (lt_of_lt_of_le hv ((List.pairwise_cons.mp hpe).1 e₀ h2))
        · intro a ha
          rcases List.mem_cons.mp ha with h1 | h1
          · subst h1
            exact ⟨x, List.mem_append.mpr (Or.inl (List.mem_cons_self x _)), rfl⟩
          · obtain ⟨e₀, he₀, hveq⟩ := ihs a h1
            rcases List.mem_append.mp he₀ with h2 | h2
            · exact ⟨e₀, List.mem_append.mpr (Or.inl (List.mem_cons_of_mem x h2)), hveq⟩
            · exact ⟨e₀, List.mem_append.mpr (Or.inr h2), hveq⟩
    · rw [if_neg hv]
      by_cases habs : add32 (add32 e.g e2.g) e2.delta ≤ τ
      · rw [if_pos habs]
        have hpe2 : List.Pairwise (fun a b : GKEntry => a.v ≤ b.v)
            ({ e2 with g := add32 e2.g e.g } :: ent'') := by
          have h2 := (List.pairwise_cons.mp hpe).2
          rw [List.pairwise_cons] at h2 ⊢
          exact ⟨fun b hb => h2.1 b hb, h2.2⟩
        obtain ⟨ihp, ihs⟩ := compressLoop_sorted τ (x :: inc') _ hpi hpe2
        refine ⟨ihp, ?_⟩
        intro a ha
        obtain ⟨e₀, he₀, hveq⟩ := ihs a ha
        rcases List.mem_append.mp he₀ with h1 | h1
        · exact ⟨e₀, List.mem_append.mpr (Or.inl h1), hveq⟩
        · rcases List.mem_cons.mp h1 with h2 | h2
          · exact ⟨e2, List.mem_append.mpr
              (Or.inr (List.mem_cons_of_mem e (List.mem_cons_self e2 _))),
              by rw [hveq, h2]⟩
          · exact ⟨e₀, List.mem_append.mpr
              (Or.inr (List.mem_cons_of_mem e (List.mem_cons_of_mem e2 h2))), hveq⟩
      · rw [if_neg habs]
        obtain ⟨ihp, ihs⟩ := compressLoop_sorted τ (x :: inc') (e2 :: ent'')
          hpi (List.pairwise_cons.mp hpe).2
        constructor
        · rw [List.pairwise_cons]
          refine ⟨?_, ihp⟩
          intro b hb
          obtain ⟨e₀, he₀, hveq⟩ := ihs b hb
          rw [hveq]
          show e.v ≤ e₀.v
          rcases List.mem_append.mp he₀ with h1 | h1
          · rcases List.mem_cons.mp h1 with h2 | h2
            · rw [h2]
              exact le_of_not_lt hv
            · exact le_trans (le_of_not_lt hv) ((List.pairwise_cons.mp hpi).1 e₀ h2)
          · exact (List.pairwise_cons.mp hpe).1 e₀ h1
        · intro a ha
          rcases List.mem_cons.mp ha with h1 | h1
          · subst h1
            exact ⟨a, List.mem_append.mpr (Or.inr (List.mem_cons_self a _)), rfl⟩
          · obtain ⟨e₀, he₀, hveq⟩ := ihs a h1
            rcases List.mem_append.mp he₀ with h2 | h2
            · exact ⟨e₀, List.mem_append.mpr (Or.inl h2), hveq⟩
            · exact ⟨e₀, List.mem_append.mpr (Or.inr (List.mem_cons_of_mem e h2)), hveq⟩
  | x :: inc', [e], hpi, hpe => by
    rw [compressLoop]
    by_cases hv : x.v < e.v
    · rw [if_pos hv]
      by_cases habs : add32 (add32 x.g e.g) e.delta ≤ τ
      · rw [if_pos habs]
        obtain ⟨ihp, ihs⟩ := compressLoop_sorted τ inc' [{ e with g := add32 e.g x.g }]
          (List.pairwise_cons.mp hpi).2 (List.pairwise_singleton _ _)
        refine ⟨ihp, ?_⟩
        intro a ha
        obtain ⟨e₀, he₀, hveq⟩ := ihs a ha
        rcases List.mem_append.mp he₀ with h1 | h1
        · exact ⟨e₀, List.mem_append.mpr (Or.inl (List.mem_cons_of_mem x h1)), hveq⟩
        · rw [List.mem_singleton] at h1
          exact ⟨e, List.mem_append.mpr (Or.inr (List.mem_singleton_self e)),
            by rw [hveq, h1]⟩
      · rw [if_neg habs]
        obtain ⟨ihp, ihs⟩ := compressLoop_sorted τ inc' [e]
          (List.pairwise_cons.mp hpi).2 hpe
        constructor
        · rw [List.pairwise_cons]
          refine ⟨?_, ihp⟩
          intro b hb
          obtain ⟨e₀, he₀, hveq⟩ := ihs b hb
          rw [hveq]
          show x.v ≤ e₀.v
          rcases List.mem_append.mp he₀ with h1 | h1
          · exact (List.pairwise_cons.mp hpi).1 e₀ h1
          · rw [List.mem_singleton] at h1
            rw [h1]
            exact le_of_lt hv
        · intro a ha
          rcases List.mem_cons.mp ha with h1 | h1
          · subst h1
            exact ⟨x, List.mem_append.mpr (Or.inl (List.mem_cons_self x _)), rfl⟩
          · obtain ⟨e₀, he₀, hveq⟩ := ihs a h1
            rcases List.mem_append.mp he₀ with h2 | h2
            · exact ⟨e₀, List.mem_append.mpr (Or.inl (List.mem_cons_of_mem x h2)), hveq⟩
            · exact ⟨e₀, List.mem_append.mpr (Or.inr h2), hveq⟩
    · rw [if_neg hv]
      obtain ⟨ihp, ihs⟩ := compressLoop_sorted τ (x :: inc') [] hpi List.Pairwise.nil
      constructor
      · rw [List.pairwise_cons]
        refine ⟨?_, ihp⟩
        intro b hb
        obtain ⟨e₀, he₀, hveq⟩ := ihs b hb
        rw [List.append_nil] at he₀
        rw [hveq]
        show e.v ≤ e₀.v
        rcases List.mem_cons.mp he₀ with h2 | h2
        · rw [h2]
          exact le_of_not_lt hv
        · exact le_trans (le_of_not_lt hv) ((List.pairwise_cons.mp hpi).1 e₀ h2)
      · intro a ha
        rcases List.mem_cons.mp ha with h1 | h1
        · subst h1
          exact ⟨a, List.mem_append.mpr (Or.inr (List.mem_singleton_self a)), rfl⟩
        · obtain ⟨e₀, he₀, hveq⟩ := ihs a h1
          rw [List.append_nil] at he₀
          exact ⟨e₀, List.mem_append.mpr (Or.inl he₀), hveq⟩
  | [], e :: e2 :: ent'', hpi, hpe => by
    rw [compressLoop]
    by_cases habs : add32 (add32 e.g e2.g) e2.delta ≤ τ
    · rw [if_pos habs]
      have hpe2 : List.Pairwise (fun a b : GKEntry => a.v ≤ b.v)
          ({ e2 with g := add32 e2.g e.g } :: ent'') := by
        have h2 := (List.pairwise_cons.mp hpe).2
        rw [List.pairwise_cons] at h2 ⊢
        exact ⟨fun b hb => h2.1 b hb, h2.2⟩
      obtain ⟨ihp, ihs⟩ := compressLoop_sorted τ [] _ List.Pairwise.nil hpe2
      refine ⟨ihp, ?_⟩
      intro a ha
      obtain ⟨e₀, he₀, hveq⟩ := ihs a ha
      rw [List.nil_append] at he₀ ⊢
      rcases List.mem_cons.mp he₀ with h2 | h2
      · exact ⟨e2, List.mem_cons_of_mem e (List.mem_cons_self e2 _), by rw [hveq, h2]⟩
      · exact ⟨e₀, List.mem_cons_of_mem e (List.mem_cons_of_mem e2 h2), hveq⟩
    · rw [if_neg habs]
      obtain ⟨ihp, ihs⟩ := compressLoop_sorted τ [] (e2 :: ent'')
        List.Pairwise.nil (List.pairwise_cons.mp hpe).2
      constructor
      · rw [List.pairwise_cons]
        refine ⟨?_, ihp⟩
        intro b hb
        obtain ⟨e₀, he₀, hveq⟩ := ihs b hb
        rw [List.nil_append] at he₀
        rw [hveq]
        exact (List.pairwise_cons.mp hpe).1 e₀ he₀
      · intro a ha
        rw [List.nil_append]
        rcases List.mem_cons.mp ha with h1 | h1
        · subst h1
          exact ⟨a, List.mem_cons_self a _, rfl⟩
        · obtain ⟨e₀, he₀, hveq⟩ := ihs a h1
          rw [List.nil_append] at he₀
          exact ⟨e₀, List.mem_cons_of_mem e he₀, hveq⟩
  termination_by inc ent => inc.length + ent.length

/-- Absorption in the incoming-only phase: under the `uint32` absorption
check against `τ`, the accumulated count stays in `[1, max τ 1]`. -/
theorem absorb0_bound {τ a b : ℕ} (hτ : 2 * Nat.max τ 1 < 4294967296)
    (ha : 1 ≤ a) (haM : a ≤ Nat.max τ 1) (hb : 1 ≤ b) (hbM : b ≤ Nat.max τ 1)
    (h : add32 a b ≤ τ) :
    1 ≤ add32 b a ∧ add32 b a ≤ Nat.max τ 1 := by
  have hM1 : τ ≤ Nat.max τ 1 := Nat.le_max_left τ 1
  have hM2 : 1 ≤ Nat.max τ 1 := Nat.le_max_right τ 1
  simp only [add32] at h ⊢
  omega

/-- Absorption against an existing entry: under the `uint32` check
`a + b + d ≤ τ`, the merged entry keeps `1 ≤ g` and `g + delta ≤ max τ 1`. -/
theorem absorb_bound {τ a b d : ℕ} (hτ : 2 * Nat.max τ 1 < 4294967296)
    (ha : 1 ≤ a) (haM : a ≤ Nat.max τ 1) (hb : 1 ≤ b) (hbd : b + d ≤ Nat.max τ 1)
    (h : add32 (add32 a b) d ≤ τ) :
    1 ≤ add32 b a ∧ add32 b a + d ≤ Nat.max τ 1 := by
  have hM1 : τ ≤ Nat.max τ 1 := Nat.le_max_left τ 1
  have hM2 : 1 ≤ Nat.max τ 1 := Nat.le_max_right τ 1
  simp only [add32] at h ⊢
  omega

/-- Emitting an incoming entry with `g = 1`: the assigned
`delta = e.g + e.delta - 1` keeps `g + delta` within the existing entry's
bound. -/
theorem emit_delta_bound {τ b d : ℕ} (hτ : 2 * Nat.max τ 1 < 4294967296)
    (hb : 1 ≤ b) (hbd : b + d ≤ Nat.max τ 1) :
    1 + sub32 (add32 b d) 1 ≤ Nat.max τ 1 := by
  have hM1 : τ ≤ Nat.max τ 1 := Nat.le_max_left τ 1
  have hM2 : 1 ≤ Nat.max τ 1 := Nat.le_max_right τ 1
  simp only [add32, sub32]
  omega

/-- The merge loop over incoming entries alone (the phase after the existing
entries are exhausted): with counts in `[1, max τ 1]` and zero deltas going
in — absorptions are checked against `τ` — the same holds coming out.
`hτ` rules out `uint32` wraparound in the absorption checks. -/
theorem compressLoop_nil_bound (τ : ℕ) (hτ : 2 * Nat.max τ 1 < 4294967296) :
    ∀ inc : List GKEntry,
    (∀ x ∈ inc, 1 ≤ x.g ∧ x.g ≤ Nat.max τ 1 ∧ x.delta = 0) →
    ∀ e ∈ compressLoop τ inc [], 1 ≤ e.g ∧ e.g + e.delta ≤ Nat.max τ 1
  | [], _ => by
    rw [compressLoop]
    intro e he
    simp at he
  | [x], hg => by
    rw [compressLoop]
    intro e he
    rw [List.mem_singleton] at he
    subst he
    obtain ⟨h1, h2, h3⟩ := hg e (List.mem_singleton_self e)
    omega
  | x :: x2 :: inc'', hg => by
    rw [compressLoop]
    by_cases h : add32 x.g x2.g ≤ τ
    · rw [if_pos h]
      refine compressLoop_nil_bound τ hτ _ ?_
      intro a ha
      rcases List.mem_cons.mp ha with h1 | h1
      · subst h1
        obtain ⟨hx1, hx2, hx3⟩ := hg x (List.mem_cons_self x _)
        obtain ⟨hy1, hy2, hy3⟩ := hg x2 (List.mem_cons_of_mem x (List.mem_cons_self x2 _))
        obtain ⟨hb1, hb2⟩ := absorb0_bound hτ hx1 hx2 hy1 hy2 h
        exact ⟨hb1, hb2, hy3⟩
      · exact hg a (List.mem_cons_of_mem x (List.mem_cons_of_mem x2 h1))
    · rw [if_neg h]
      intro e he
      rcases List.mem_cons.mp he with h1 | h1
      · subst h1
        obtain ⟨h1, h2, h3⟩ := hg e (List.mem_cons_self e _)
        omega
      · exact compressLoop_nil_bound τ hτ (x2 :: inc'')
          (fun a ha => hg a (List.mem_cons_of_mem x ha)) e h1
  termination_by inc => inc.length

/-- The count/delta invariant of the full merge loop, independent of any
ordering: incoming entries carry `g = 1, delta = 0` (as all buffer-fed
entries do), existing entries satisfy `1 ≤ g` and `g + delta ≤ max τ 1`, and
every produced entry satisfies `1 ≤ g` and `g + delta ≤ max τ 1` again. -/
theorem compressLoop_bound (τ : ℕ) (hτ : 2 * Nat.max τ 1 < 4294967296) :
    ∀ (inc ent : List GKEntry),
    (∀ x ∈ inc, x.g = 1 ∧ x.delta = 0) →
    (∀ e ∈ ent, 1 ≤ e.g ∧ e.g + e.delta ≤ Nat.max τ 1) →
    ∀ e ∈ compressLoop τ inc ent, 1 ≤ e.g ∧ e.g + e.delta ≤ Nat.max τ 1
  | inc, [], hi, _ => by
    refine compressLoop_nil_bound τ hτ inc ?_
    intro x hx
    obtain ⟨h1, h2⟩ := hi x hx
    exact ⟨by omega, by rw [h1]; exact Nat.le_max_right τ 1, h2⟩
  | [], [e], _, he => by
    rw [compressLoop]
    intro a ha
    rw [List.mem_singleton] at ha
    subst ha
    exact he a (List.mem_singleton_self a)
  | [], e :: e2 :: ent'', hi, he => by
    rw [compressLoop]
    by_cases habs : add32 (add32 e.g e2.g) e2.delta ≤ τ
    · rw [if_pos habs]
      refine compressLoop_bound τ hτ [] _ hi ?_
      intro a ha
      rcases List.mem_cons.mp ha with h1 | h1
      · subst h1
        obtain ⟨he1, he2⟩ := he e (List.mem_cons_self e _)
        obtain ⟨hf1, hf2⟩ := he e2 (List.mem_cons_of_mem e (List.mem_cons_self e2 _))
        exact absorb_bound hτ he1 (le_trans (Nat.le_add_right e.g e.delta) he2)
          hf1 hf2 habs
      · exact he a (List.mem_cons_of_mem e (List.mem_cons_of_mem e2 h1))
    · rw [if_neg habs]
      intro a ha
      rcases List.mem_cons.mp ha with h1 | h1
      · subst h1
        exact he a (List.mem_cons_self a _)
      · exact compressLoop_bound τ hτ [] (e2 :: ent'') hi
          (fun b hb => he b (List.mem_cons_of_mem e hb)) a h1
  | x :: inc', e :: e2 :: ent'', hi, he => by
    rw [compressLoop]
    by_cases hv : x.v < e.v
    · rw [if_pos hv]
      by_cases habs : add32 (add32 x.g e.g) e.delta ≤ τ
      · rw [if_pos habs]
        refine compressLoop_bound τ hτ inc' _
          (fun b hb => hi b (List.mem_cons_of_mem x hb)) ?_
        intro a ha
        rcases List.mem_cons.mp ha with h1 | h1
        · subst h1
          obtain ⟨hx1, hx2⟩ := hi x (List.mem_cons_self x _)
          obtain ⟨he1, he2⟩ := he e (List.mem_cons_self e _)
          exact absorb_bound hτ (by omega) (by rw [hx1]; exact Nat.le_max_right τ 1)
            he1 he2 habs
        · exact he a (List.mem_cons_of_mem e h1)
      · rw [if_neg habs]
        intro a ha
        rcases List.mem_cons.mp ha with h1 | h1
        · subst h1
          obtain ⟨hx1, hx2⟩ := hi x (List.mem_cons_self x _)
          obtain ⟨he1, he2⟩ := he e (List.mem_cons_self e _)
          constructor
          · show 1 ≤ x.g
            omega
          · show x.g + sub32 (add32 e.g e.delta) x.g ≤ Nat.max τ 1
            rw [hx1]
            exact emit_delta_bound hτ he1 he2
        · exact compressLoop_bound τ hτ inc' (e :: e2 :: ent'')
            (fun b hb => hi b (List.mem_cons_of_mem x hb)) he a h1
    · rw [if_neg hv]
      by_cases habs : add32 (add32 e.g e2.g) e2.delta ≤ τ
      · rw [if_pos habs]
        refine compressLoop_bound τ hτ (x :: inc') _ hi ?_
        intro a ha
        rcases List.mem_cons.mp ha with h1 | h1
        · subst h1
          obtain ⟨he1, he2⟩ := he e (List.mem_cons_self e _)
          obtain ⟨hf1, hf2⟩ := he e2 (List.mem_cons_of_mem e (List.mem_cons_self e2 _))
          exact absorb_bound hτ he1 (le_trans (Nat.le_add_right e.g e.delta) he2)
            hf1 hf2 habs
        · exact he a (List.mem_cons_of_mem e (List.mem_cons_of_mem e2 h1))
      · rw [if_neg habs]
        intro a ha
        rcases List.mem_cons.mp ha with h1 | h1
        · subst h1
          exact he a (List.mem_cons_self a _)
        · exact compressLoop_bound τ hτ (x :: inc') (e2 :: ent'') hi
            (fun b hb => he b (List.mem_cons_of_mem e hb)) a h1
  | x :: inc', [e], hi, he => by
    rw [compressLoop]
    by_cases hv : x.v < e.v
    · rw [if_pos hv]
      by_cases habs : add32 (add32 x.g e.g) e.delta ≤ τ
      · rw [if_pos habs]
        refine compressLoop_bound τ hτ inc' _
          (fun b hb => hi b (List.mem_cons_of_mem x hb)) ?_
        intro a ha
        rw [List.mem_singleton] at ha
        subst ha
        obtain ⟨hx1, hx2⟩ := hi x (List.mem_cons_self x _)
        obtain ⟨he1, he2⟩ := he e (List.mem_singleton_self e)
        exact absorb_bound hτ (by omega) (by rw [hx1]; exact Nat.le_max_right τ 1)
          he1 he2 habs
      · rw [if_neg habs]
        intro a ha
        rcases List.mem_cons.mp ha with h1 | h1
        · subst h1
          obtain ⟨hx1, hx2⟩ := hi x (List.mem_cons_self x _)
          obtain ⟨he1, he2⟩ := he e (List.mem_singleton_self e)
          constructor
          · show 1 ≤ x.g
            omega
          · show x.g + sub32 (add32 e.g e.delta) x.g ≤ Nat.max τ 1
            rw [hx1]
            exact emit_delta_bound hτ he1 he2
        · exact compressLoop_bound τ hτ inc' [e]
            (fun b hb => hi b (List.mem_cons_of_mem x hb)) he a h1
    · rw [if_neg hv]
      intro a ha
      rcases List.mem_cons.mp ha with h1 | h1
      · subst h1
        exact he a (List.mem_singleton_self a)
      · exact compressLoop_bound τ hτ (x :: inc') [] hi
          (fun b hb => absurd hb (List.not_mem_nil b)) a h1
  termination_by inc ent => inc.length + ent.length

/-- `compressWithIncoming` updates `entries` as the merge loop applied to
the sorted incoming entries and the existing entries. -/
theorem compressWithIncoming_entries (s : GKArray) (ie : List GKEntry) :
    (s.compressWithIncoming ie).entries =
      compressLoop (removalThreshold s)
        (sortEntries (if 0 < s.incoming.length
          then ie ++ s.incoming.map (fun v => ({ v := v, g := 1, delta := 0 } : GKEntry))
          else ie)) s.entries := by
  simp only [compressWithIncoming]

/-- `Compress()` on a summary with no prior entries, with the merge loop
arguments made explicit. -/
theorem compress_entries_eq (s : GKArray) (hent : s.entries = []) :
    s.compress.entries =
      compressLoop (removalThreshold s)
        (sortEntries (if 0 < s.incoming.length
          then ([] : List GKEntry) ++
            s.incoming.map (fun v => ({ v := v, g := 1, delta := 0 } : GKEntry))
          else ([] : List GKEntry))) [] := by
  simp only [compress, compressWithIncoming, hent]

/-- C7 (amended): after ANY compaction `compressWithIncoming(incomingEntries)`,
(i) whenever the prior `entries` are sorted by value `v`, the produced entries
are again sorted by `v` — for every summary and every `incomingEntries`, with
no further hypothesis; and (ii) the per-entry bound holds as a preserved
invariant with the claimed threshold weakened to `max(τ, 1)`, where
`τ = removalThreshold = 2·uint32(ε·(count−1))` in wrapping `uint32`
arithmetic: whenever the threshold arithmetic does not overflow
(`2·max(τ,1) < 2^32`), every prior entry satisfies `1 ≤ g` and
`g + delta ≤ max(τ, 1)`, and every incoming entry carries `g = 1` and
`delta = 0` (as every buffer-fed entry does), then every produced entry again
satisfies `1 ≤ g` and `g + delta ≤ max(τ, 1)`.  The claim's bare bound
`2·⌊ε·(count−1)⌋` is refuted by the counterexample below. -/
theorem claim_C7_gk_compaction_invariant :
    (∀ (s : GKArray) (ie : List GKEntry),
      List.Pairwise (fun a b : GKEntry => a.v ≤ b.v) s.entries →
      List.Pairwise (fun a b : GKEntry => a.v ≤ b.v)
        (s.compressWithIncoming ie).entries) ∧
    (∀ (s : GKArray) (ie : List GKEntry),
      2 * Nat.max (removalThreshold s) 1 < 4294967296 →
      (∀ e ∈ s.entries, 1 ≤ e.g ∧ e.g + e.delta ≤ Nat.max (removalThreshold s) 1) →
      (∀ x ∈ ie, x.g = 1 ∧ x.delta = 0) →
      ∀ e ∈ (s.compressWithIncoming ie).entries,
        1 ≤ e.g ∧ e.g + e.delta ≤ Nat.max (removalThreshold s) 1) := by
  constructor
  · intro s ie hs
    rw [compressWithIncoming_entries]
    exact (compressLoop_sorted _ _ _ (sortEntries_sorted _) hs).1
  · intro s ie hτ hent hie
    rw [compressWithIncoming_entries]
    refine compressLoop_bound _ hτ _ _ ?_ hent
    intro x hx
    rw [sortEntries_mem] at hx
    by_cases hl : 0 < s.incoming.length
    · rw [if_pos hl] at hx
      rcases List.mem_append.mp hx with h1 | h1
      · exact hie x h1
      · obtain ⟨v, _, rfl⟩ := List.mem_map.mp h1
        exact ⟨rfl, rfl⟩
    · rw [if_neg hl] at hx
      exact hie x hx

/-- A concrete non-fresh summary: one existing entry, one buffered value. -/
def gkS : GKArray :=
  { epsilon := 3, entries := [{ v := 5, g := 1, delta := 0 }], incoming := [2],
    min := .fin 2, max := .fin 5, count := 2, sum := .fin 7 }

/-- Witness for C7: compacting `gkS` with one genuine incoming entry — a
summary with existing entries AND incoming entries, removal threshold 6. -/
theorem claim_C7_witness :
    (List.Pairwise (fun a b : GKEntry => a.v ≤ b.v) gkS.entries ∧
     2 * Nat.max (removalThreshold gkS) 1 < 4294967296 ∧
     (∀ e ∈ gkS.entries, 1 ≤ e.g ∧ e.g + e.delta ≤ Nat.max (removalThreshold gkS) 1) ∧
     (∀ x ∈ [({ v := 1, g := 1, delta := 0 } : GKEntry)], x.g = 1 ∧ x.delta = 0)) ∧
    List.Pairwise (fun a b : GKEntry => a.v ≤ b.v)
      (gkS.compressWithIncoming [{ v := 1, g := 1, delta := 0 }]).entries ∧
    ∀ e ∈ (gkS.compressWithIncoming [{ v := 1, g := 1, delta := 0 }]).entries,
      1 ≤ e.g ∧ e.g + e.delta ≤ Nat.max (removalThreshold gkS) 1 := by
  have hτv : removalThreshold gkS = 6 := by
    norm_num [removalThreshold, gkS]
    decide
  have h1 : List.Pairwise (fun a b : GKEntry => a.v ≤ b.v) gkS.entries :=
    List.pairwise_singleton _ _
  have h2 : 2 * Nat.max (removalThreshold gkS) 1 < 4294967296 := by
    rw [hτv]
    norm_num
  have h3 : ∀ e ∈ gkS.entries, 1 ≤ e.g ∧ e.g + e.delta ≤ Nat.max (removalThreshold gkS) 1 := by
    intro e he
    rw [show gkS.entries = [{ v := 5, g := 1, delta := 0 }] from rfl,
      List.mem_singleton] at he
    subst he
    rw [hτv]
    exact ⟨le_refl 1, by norm_num⟩
  have h4 : ∀ x ∈ [({ v := 1, g := 1, delta := 0 } : GKEntry)], x.g = 1 ∧ x.delta = 0 := by
    intro x hx
    rw [List.mem_singleton] at hx
    subst hx
    exact ⟨rfl, rfl⟩
  exact ⟨⟨h1, h2, h3, h4⟩,
    claim_C7_gk_compaction_invariant.1 gkS _ h1,
    claim_C7_gk_compaction_invariant.2 gkS _ h2 h3 h4⟩

/-- `NewGKArray(1/100)` then `Add(1)`, `Add(2)`: the automatic compression
(`count % (int64(1/ε)+1) = 0`, i.e. every 101 values) does not trigger, so
both values are still buffered. -/
theorem gk_ex_state :
    ((newGKArray (1/100)).add 1).add 2 =
      { epsilon := 1/100, entries := [], incoming := [1, 2], min := .fin 1,
        max := .fin 2, count := 2, sum := .fin 3 } := by
  have hfl : Int.floor (1 / ((1:ℚ)/100)) = 100 := by norm_num
  simp only [add, newGKArray, hfl]
  norm_num [GFloat.fadd, GFloat.fgt]

/-- Compressing that summary keeps both values as entries with `g = 1`,
`delta = 0`: the removal threshold `2·⌊(1/100)·(2−1)⌋ = 0` absorbs nothing. -/
theorem gk_ex_compress :
    (((newGKArray (1/100)).add 1).add 2).compress.entries =
      [{ v := 1, g := 1, delta := 0 }, { v := 2, g := 1, delta := 0 }] := by
  rw [gk_ex_state, compress_entries_eq _ rfl]
  have hτ : removalThreshold
      { epsilon := 1/100, entries := [], incoming := [1, 2], min := .fin 1,
        max := .fin 2, count := 2, sum := .fin 3 } = 0 := by
    norm_num [removalThreshold]
  rw [hτ]
  have hsort : sortEntries (if 0 < ([1, 2] : List ℚ).length
      then ([] : List GKEntry) ++
        ([1, 2] : List ℚ).map (fun v => ({ v := v, g := 1, delta := 0 } : GKEntry))
      else ([] : List GKEntry)) =
      [{ v := 1, g := 1, delta := 0 }, { v := 2, g := 1, delta := 0 }] := by
    rw [if_pos (by decide), List.nil_append]
    show sortEntries [{ v := 1, g := 1, delta := 0 }, { v := 2, g := 1, delta := 0 }] = _
    exact List.mergeSort_of_sorted (by decide)
  rw [hsort, compressLoop, if_neg (by decide), compressLoop]

/-- C7 counterexample: with `ε = 1/100` and two added values, compaction
keeps the entry `(v=1, g=1, delta=0)`, yet the claimed bound is
`2·⌊ε·(count−1)⌋ = 2·⌊1/100⌋ = 0 < 1 = g + delta`. -/
theorem claim_C7_counterexample :
    ∃ e ∈ (((newGKArray (1/100)).add 1).add 2).compress.entries,
      ¬ ((e.g : ℤ) + (e.delta : ℤ) ≤
        2 * Int.floor ((((newGKArray (1/100)).add 1).add 2).compress.epsilon *
          (((((newGKArray (1/100)).add 1).add 2).compress.count : ℚ) - 1))) := by
  refine ⟨{ v := 1, g := 1, delta := 0 }, ?_, ?_⟩
  · rw [gk_ex_compress]
    exact List.mem_cons_self _ _
  · have he : (((newGKArray (1/100)).add 1).add 2).compress.epsilon = 1/100 := by
      rw [gk_ex_state]
      rfl
    have hc : (((newGKArray (1/100)).add 1).add 2).compress.count = 2 := by
      rw [gk_ex_state]
      rfl
    rw [he, hc]
    norm_num

/-- C8 (corrected): merging a `GKArray` with one whose `epsilon` differs
does not return an error — the Go code `panic`s with the message
"Can't merge two GKArrays with different epsilons!", which is not
recoverable by the caller as a returned error value. With equal epsilons
the merge completes normally. -/
theorem claim_C8_gk_merge_epsilon (s o : GKArray) :
    (o.epsilon ≠ s.epsilon →
      s.merge o = .panicked "Can't merge two GKArrays with different epsilons!") ∧
    (o.epsilon = s.epsilon → ∃ t, s.merge o = .ok t) := by
  constructor
  · intro hne
    unfold merge
    rw [if_pos hne]
  · intro heq
    unfold merge
    rw [if_neg (fun h => h heq)]
    by_cases h0 : o.count = 0
    · rw [if_pos h0]
      exact ⟨s, rfl⟩
    · rw [if_neg h0]
      by_cases hs0 : s.count = 0
      · rw [if_pos hs0]
        exact ⟨_, rfl⟩
      · rw [if_neg hs0]
        exact ⟨_, rfl⟩

/-- C8 counterexample: a concrete mismatched merge panics instead of
returning an error to the caller. -/
theorem claim_C8_counterexample :
    (newGKArray 2).merge (newGKArray 3) =
      .panicked "Can't merge two GKArrays with different epsilons!" := by
  unfold merge
  rw [if_pos (by decide)]

/-- Witness for C8 at concrete epsilons on both sides of the dichotomy. -/
theorem claim_C8_witness :
    ((newGKArray 2).epsilon ≠ (newGKArray 3).epsilon ∧
      (newGKArray 3).merge (newGKArray 2) =
        .panicked "Can't merge two GKArrays with different epsilons!") ∧
    ((newGKArray 5).epsilon = (newGKArray 5).epsilon ∧
      ∃ t, (newGKArray 5).merge (newGKArray 5) = .ok t) :=
  ⟨⟨by decide, (claim_C8_gk_merge_epsilon (newGKArray 3) (newGKArray 2)).1 (by decide)⟩,
   ⟨rfl, (claim_C8_gk_merge_epsilon (newGKArray 5) (newGKArray 5)).2 rfl⟩⟩

end GKArray

end SketchesGo
